import Mathlib

/-!
# The generator loader of `framework/generator/loader.go`

A shallow embedding of `loader.Load` / `loader.load`: the built-in generator
tables, the claimed-paths set, the four capability branches and the error
paths.  Strings are Lean `String`s whose operations go through their
character lists.  The collaborators the loader calls but does not define
(the import set, the module resolver, the parser, the finder, `valid.GoFile`
and `gotext.Camel`) are the fields of `Collab`.
-/

namespace Generator

/-! ## Strings and paths (Go `strings` and `path`) -/

/-- Go `strings.HasPrefix`. -/
def hasPrefix (s pre : String) : Bool :=
  pre.data.isPrefixOf s.data

/-- Go `strings.TrimPrefix`: `s` without the leading `pre` when it has it, else `s`. -/
def trimPrefix (s pre : String) : String :=
  if hasPrefix s pre then ⟨s.data.drop pre.data.length⟩ else s

/-- The element pass of Go `path.Clean` over the `/`-separated elements: empty
elements and `.` are dropped, `..` removes the element before it unless that is
itself `..` or there is none (then it is kept in a relative path and dropped
in a rooted one).  `acc` is the output so far, last element first. -/
def cleanSegs (rooted : Bool) : List (List Char) → List (List Char) → List (List Char)
  | acc, [] => acc.reverse
  | acc, seg :: rest =>
    if seg = [] ∨ seg = ['.'] then cleanSegs rooted acc rest
    else if seg = ['.', '.'] then
      match acc with
      | top :: acc' =>
        if top = ['.', '.'] then cleanSegs rooted (seg :: acc) rest
        else cleanSegs rooted acc' rest
      | [] => if rooted then cleanSegs rooted [] rest else cleanSegs rooted [seg] rest
    else cleanSegs rooted (seg :: acc) rest

/-- Go `path.Clean`: the shortest path equivalent to `p` by lexical processing. -/
def pathClean (p : String) : String :=
  if p.data = [] then "."
  else
    let rooted := p.data.head? == some '/'
    let body := List.intercalate ['/'] (cleanSegs rooted [] (p.data.splitOn '/'))
    if rooted then ⟨'/' :: body⟩
    else if body = [] then "." else ⟨body⟩

/-- Go `path.Join`: leading empty elements are skipped, the rest is joined with
`/` and cleaned; the result is empty when every element is. -/
def pathJoin (elem : List String) : String :=
  match elem.dropWhile (fun e => e.data = []) with
  | [] => ""
  | rest => pathClean ⟨List.intercalate ['/'] (rest.map String.data)⟩

/-- Go `filepath.Dir` on a slash-separated path: everything up to the last
separator, cleaned. -/
def filepathDir (p : String) : String :=
  pathClean ⟨(p.data.reverse.dropWhile (fun ch => ch != '/')).reverse⟩

/-! ## Errors -/

/-- A Go `error`: a plain error, or one wrapped by `fmt.Errorf(pre ++ "%w", err)`. -/
inductive GoError where
  | plain : String → GoError
  | wrap : String → GoError → GoError
  deriving DecidableEq, Repr

/-- The message of an error (`err.Error()`). -/
def GoError.Error : GoError → String
  | .plain s => s
  | .wrap pre err => pre ++ err.Error

/-- The wrapped error, if any (`errors.Unwrap`). -/
def GoError.Unwrap : GoError → Option GoError
  | .plain _ => none
  | .wrap _ err => some err

deriving instance DecidableEq for Except

/-! ## Data model -/

/-- The entries of the built-in tables. -/
structure coreGenerator where
  Import : String
  Path : String
  deriving DecidableEq, Repr

def coreFileGenerators : List coreGenerator :=
  [ ⟨"github.com/livebud/bud/framework/app", "bud/cmd/app/main.go"⟩,
    ⟨"github.com/livebud/bud/framework/web", "bud/internal/web/web.go"⟩,
    ⟨"github.com/livebud/bud/framework/controller",
      "bud/internal/web/controller/controller.go"⟩,
    ⟨"github.com/livebud/bud/framework/view", "bud/internal/web/view/view.go"⟩,
    ⟨"github.com/livebud/bud/framework/public", "bud/internal/web/public/public.go"⟩,
    ⟨"github.com/livebud/bud/framework/view/ssr", "bud/view/_ssr.js"⟩ ]

def coreFileServers : List coreGenerator :=
  [ ⟨"github.com/livebud/bud/framework/view/dom", "bud/view"⟩,
    ⟨"github.com/livebud/bud/framework/view/nodemodules", "bud/node_modules"⟩ ]

/-- An import with its alias (`imports.Import`). -/
structure Import where
  Name : String
  Path : String
  deriving DecidableEq, Repr

/-- One manifest entry (`CodeGenerator`). -/
structure CodeGenerator where
  Import : Import
  Path : String
  Camel : String
  deriving DecidableEq, Repr

/-- The manifest (`State`): the four lists and the imports. -/
structure State where
  FileGenerators : List CodeGenerator := []
  FileServers : List CodeGenerator := []
  GenerateDirs : List CodeGenerator := []
  ServeFiles : List CodeGenerator := []
  Imports : List Import := []
  deriving DecidableEq, Repr

/-- A parsed struct: its name and the names of its methods. -/
structure Struct where
  Name : String
  Methods : List String
  deriving DecidableEq, Repr

/-- A parsed package: its struct declarations. -/
structure Package where
  Structs : List Struct
  deriving DecidableEq, Repr

/-- The struct of that name, as `pkg.Struct(name)`: `none` is Go's `nil`. -/
def Package.Struct (pkg : Package) (name : String) : Option Struct :=
  pkg.Structs.find? (fun s => s.Name == name)

/-- The method of that name, as `stct.Method(name)`: `none` is Go's `nil`. -/
def Struct.Method (stct : Struct) (name : String) : Option String :=
  stct.Methods.find? (fun m => m == name)

/-- The collaborators of the loader, over the state `Reg` of the import set
(`l.imports`): `importsAdd`, `importsAddStd`, `importsAddNamed` and
`importsList` are the methods of `imports.Set`; `moduleImport` is
`l.module.Import`; `parserParse` is `l.parser.Parse`; `finderFind` is
`finder.Find` on the file system given to `Load`, taking the pattern and the
selection callback; `validGoFile` is `valid.GoFile`; `gotextCamel` is
`gotext.Camel`. -/
structure Collab (Reg : Type) where
  importsAdd : Reg → String → String × Reg
  importsAddStd : Reg → String → Reg
  importsAddNamed : Reg → String → String → Reg
  importsList : Reg → List Import
  moduleImport : String → String
  parserParse : String → Except GoError Package
  finderFind : String → (String → Bool → List String) → Except GoError (List String)
  validGoFile : String → Bool
  gotextCamel : String → String

/-- The variables of `load` while it runs: the claimed set `exists` (a key is
claimed when it is in the list), the import set and the manifest so far. -/
structure LoadVars (Reg : Type) where
  claimed : List String
  imports : Reg
  state : State

/-! ## The loader -/

def isUserDefinedInternalGenerator (path : String) : Bool :=
  hasPrefix path "generator/generator/"

/-- The selection callback `load` hands to `finder.Find`. -/
def findSelector {Reg : Type} (c : Collab Reg) (path : String) (isDir : Bool) : List String :=
  if !isDir && c.validGoFile path && !isUserDefinedInternalGenerator path then
    [] ++ [filepathDir path]
  else []

/-- The entry `load` builds for an import and an output path once the alias is known. -/
def mkCodeGenerator {Reg : Type} (c : Collab Reg) (name importPath generatorPath : String) :
    CodeGenerator :=
  { Import := { Name := name, Path := importPath }, Path := generatorPath,
    Camel := c.gotextCamel name }

/-- One round of the loop over `coreFileGenerators`. -/
def loadCoreFileGenerator {Reg : Type} (c : Collab Reg) (v : LoadVars Reg)
    (generator : coreGenerator) : LoadVars Reg :=
  if !v.claimed.contains generator.Path then
    let r := c.importsAdd v.imports generator.Import
    { claimed := generator.Path :: v.claimed, imports := r.2,
      state := { v.state with
        FileGenerators := v.state.FileGenerators ++
          [mkCodeGenerator c r.1 generator.Import generator.Path] } }
  else v

/-- One round of the loop over `coreFileServers`. -/
def loadCoreFileServer {Reg : Type} (c : Collab Reg) (v : LoadVars Reg)
    (generator : coreGenerator) : LoadVars Reg :=
  if !v.claimed.contains generator.Path then
    let r := c.importsAdd v.imports generator.Import
    { claimed := generator.Path :: v.claimed, imports := r.2,
      state := { v.state with
        FileServers := v.state.FileServers ++
          [mkCodeGenerator c r.1 generator.Import generator.Path] } }
  else v

/-- The `Generate` branch: claims `bud/internal/<key>` and appends to `GenerateDirs`. -/
def branchGenerate {Reg : Type} (c : Collab Reg) (importPath key : String)
    (v : LoadVars Reg) : LoadVars Reg :=
  let generatorPath := pathJoin ["bud", "internal", key]
  if !v.claimed.contains generatorPath then
    let r := c.importsAdd v.imports importPath
    { claimed := generatorPath :: v.claimed, imports := r.2,
      state := { v.state with
        GenerateDirs := v.state.GenerateDirs ++ [mkCodeGenerator c r.1 importPath generatorPath] } }
  else v

/-- The `Serve` branch: claims `bud/internal/<key>` and appends to `ServeFiles`. -/
def branchServe {Reg : Type} (c : Collab Reg) (importPath key : String)
    (v : LoadVars Reg) : LoadVars Reg :=
  let generatorPath := pathJoin ["bud", "internal", key]
  if !v.claimed.contains generatorPath then
    let r := c.importsAdd v.imports importPath
    { claimed := generatorPath :: v.claimed, imports := r.2,
      state := { v.state with
        ServeFiles := v.state.ServeFiles ++ [mkCodeGenerator c r.1 importPath generatorPath] } }
  else v

/-- The `GenerateCmd` branch: tests `bud/cmd/<key>`, claims the import path and
appends to `GenerateDirs`. -/
def branchGenerateCmd {Reg : Type} (c : Collab Reg) (importPath key : String)
    (v : LoadVars Reg) : LoadVars Reg :=
  let generatorPath := pathJoin ["bud", "cmd", key]
  if !v.claimed.contains generatorPath then
    let r := c.importsAdd v.imports importPath
    { claimed := importPath :: v.claimed, imports := r.2,
      state := { v.state with
        GenerateDirs := v.state.GenerateDirs ++ [mkCodeGenerator c r.1 importPath generatorPath] } }
  else v

/-- The `GeneratePkg` branch: tests `bud/pkg/<key>`, claims the import path and
appends to `GenerateDirs`. -/
def branchGeneratePkg {Reg : Type} (c : Collab Reg) (importPath key : String)
    (v : LoadVars Reg) : LoadVars Reg :=
  let generatorPath := pathJoin ["bud", "pkg", key]
  if !v.claimed.contains generatorPath then
    let r := c.importsAdd v.imports importPath
    { claimed := importPath :: v.claimed, imports := r.2,
      state := { v.state with
        GenerateDirs := v.state.GenerateDirs ++ [mkCodeGenerator c r.1 importPath generatorPath] } }
  else v

/-- The key of a candidate directory: `bud/internal/` and then `generator/` trimmed. -/
def generatorKey (generatorDir : String) : String :=
  trimPrefix (trimPrefix generatorDir "bud/internal/") "generator/"

/-- The variables after the `Generate` test of a round. -/
def afterGenerate {Reg : Type} (c : Collab Reg) (generator : Struct)
    (importPath key : String) (v : LoadVars Reg) : LoadVars Reg :=
  if (generator.Method "Generate").isSome then branchGenerate c importPath key v else v

/-- The variables after the `Generate` and `Serve` tests of a round. -/
def afterServe {Reg : Type} (c : Collab Reg) (generator : Struct)
    (importPath key : String) (v : LoadVars Reg) : LoadVars Reg :=
  let v := afterGenerate c generator importPath key v
  if (generator.Method "Serve").isSome then branchServe c importPath key v else v

/-- The variables after the `Generate`, `Serve` and `GenerateCmd` tests of a round. -/
def afterGenerateCmd {Reg : Type} (c : Collab Reg) (generator : Struct)
    (importPath key : String) (v : LoadVars Reg) : LoadVars Reg :=
  let v := afterServe c generator importPath key v
  if (generator.Method "GenerateCmd").isSome then branchGenerateCmd c importPath key v else v

/-- The four capability branches in source order, each run when the
`Generator` struct has the method. -/
def loadCapabilities {Reg : Type} (c : Collab Reg) (generator : Struct)
    (importPath key : String) (v : LoadVars Reg) : LoadVars Reg :=
  let v := afterGenerateCmd c generator importPath key v
  if (generator.Method "GeneratePkg").isSome then branchGeneratePkg c importPath key v else v

/-- One round of the loop over the candidate directories: `.error` is the
`return nil, err` of a failed parse, `.ok` the variables after the round
(unchanged on either `continue`). -/
def loadGeneratorDir {Reg : Type} (c : Collab Reg) (v : LoadVars Reg) (generatorDir : String) :
    Except GoError (LoadVars Reg) :=
  let importPath := c.moduleImport generatorDir
  if v.claimed.contains importPath then .ok v
  else
    match c.parserParse generatorDir with
    | .error err => .error err
    | .ok pkg =>
      match pkg.Struct "Generator" with
      | none => .ok v
      | some generator =>
        .ok (loadCapabilities c generator importPath (generatorKey generatorDir) v)

/-- The loop over the candidate directories: the variables when it ends and
the error it returned with, if any. -/
def loadGeneratorDirs {Reg : Type} (c : Collab Reg) :
    LoadVars Reg → List String → LoadVars Reg × Option GoError
  | v, [] => (v, none)
  | v, generatorDir :: rest =>
    match loadGeneratorDir c v generatorDir with
    | .error err => (v, some err)
    | .ok v' => loadGeneratorDirs c v' rest

/-- The variables of `load` after the two built-in loops. -/
def loadCore {Reg : Type} (c : Collab Reg) (imports : Reg) : LoadVars Reg :=
  coreFileServers.foldl (loadCoreFileServer c)
    (coreFileGenerators.foldl (loadCoreFileGenerator c)
      { claimed := [], imports := imports, state := {} })

/-- The import set after the four closing additions of `load`. -/
def closeImports {Reg : Type} (c : Collab Reg) (imports : Reg) : Reg :=
  c.importsAddNamed
    (c.importsAddNamed
      (c.importsAddNamed (c.importsAddStd imports "io/fs")
        "genfs" "github.com/livebud/bud/package/genfs")
      "gomod" "github.com/livebud/bud/package/gomod")
    "log" "github.com/livebud/bud/package/log"

/-- The pattern `load` hands to `finder.Find`:
`{generator/**.go,bud/internal/generator/*/*.go}`. -/
def findPattern : String := "\x7bgenerator/**.go,bud/internal/generator/*/*.go\x7d"

/-- The method `loader.load`, started with the import set `imports`: the
manifest or the error, and the import set it leaves behind. -/
def load {Reg : Type} (c : Collab Reg) (imports : Reg) : Except GoError State × Reg :=
  match c.finderFind findPattern (findSelector c) with
  | .error err => (.error err, imports)
  | .ok generatorDirs =>
    match loadGeneratorDirs c (loadCore c imports) generatorDirs with
    | (v, some err) => (.error err, v.imports)
    | (v, none) =>
      let imports := closeImports c v.imports
      (.ok { v.state with Imports := c.importsList imports }, imports)

/-- The method `loader.Load`: an error of `load` is wrapped, no manifest with it. -/
def Load {Reg : Type} (c : Collab Reg) (imports : Reg) : Except GoError State × Reg :=
  match load c imports with
  | (.error err, r) => (.error (.wrap "generator: " err), r)
  | (.ok state, r) => (.ok state, r)

/-! ## A concrete set of collaborators

A small import set, module resolver, parser and finder over explicit tables,
on which the loader can be evaluated. -/

/-- The last `/`-separated element of an import path. -/
def baseName (path : String) : String :=
  ⟨(path.data.reverse.takeWhile (fun ch => ch != '/')).reverse⟩

/-- A name without its trailing underscores. -/
def stripUnderscores (name : String) : String :=
  ⟨(name.data.reverse.dropWhile (fun ch => ch == '_')).reverse⟩

/-- An import set kept as the list of its imports in allocation order: a known
path keeps its alias, a new one gets its base name followed by one underscore
for every alias already derived from the same base name. -/
def tableAdd (reg : List Import) (path : String) : String × List Import :=
  match reg.find? (fun i => i.Path == path) with
  | some i => (i.Name, reg)
  | none =>
    let base := stripUnderscores (baseName path)
    let n := (reg.filter (fun i => stripUnderscores i.Name == base)).length
    let name : String := ⟨base.data ++ List.replicate n '_'⟩
    (name, reg ++ [{ Name := name, Path := path }])

/-- The import set's `AddNamed`: a new path is recorded under the given name. -/
def tableAddNamed (reg : List Import) (name path : String) : List Import :=
  match reg.find? (fun i => i.Path == path) with
  | some _ => reg
  | none => reg ++ [{ Name := name, Path := path }]

/-- Collaborators over tables: the module path, the parse result of each
directory (a directory that is not listed does not parse) and the result of
the finder.  Aliases here are single lower-case words, on which `gotext.Camel`
is the identity. -/
def tableCollab (modulePath : String) (pkgs : List (String × Except GoError Package))
    (found : Except GoError (List String)) : Collab (List Import) :=
  { importsAdd := tableAdd
    importsAddStd := fun reg path => tableAddNamed reg (baseName path) path
    importsAddNamed := tableAddNamed
    importsList := fun reg => reg
    moduleImport := fun dir => pathJoin [modulePath, dir]
    parserParse := fun dir =>
      match pkgs.find? (fun p => p.1 == dir) with
      | some p => p.2
      | none => .error (.plain ("parse " ++ dir))
    finderFind := fun _ _ => found
    validGoFile := fun path => (path.data.reverse.take 3).reverse == ['.', 'g', 'o']
    gotextCamel := fun name => name }

/-- A package whose `Generator` struct has the given methods. -/
def generatorPackage (methods : List String) : Package :=
  { Structs := [{ Name := "Generator", Methods := methods }] }

/-- The output paths of a list of entries. -/
def paths (gs : List CodeGenerator) : List String :=
  gs.map (fun g => g.Path)

/-- The output paths of the four lists of a manifest, in the order
`FileGenerators`, `FileServers`, `GenerateDirs`, `ServeFiles`. -/
def State.outputPaths (s : State) : List String :=
  paths s.FileGenerators ++ paths s.FileServers ++ paths s.GenerateDirs ++ paths s.ServeFiles

/-! ## Predicates and projections used in the statements -/

/-- A path element that `path.Clean` keeps as it is: not empty, not `.`, not
`..`, and without a separator. -/
def NormalElem (seg : List Char) : Prop :=
  seg ≠ [] ∧ seg ≠ ['.'] ∧ seg ≠ ['.', '.'] ∧ '/' ∉ seg

instance : DecidablePred NormalElem := fun seg => by
  unfold NormalElem; infer_instance

/-- A clean, non-empty relative path: elements separated by single slashes,
none of them empty, `.` or `..`.  These are the keys `k` for which the
candidate directory `generator/k` (or `bud/internal/generator/k`) is itself
unchanged by `path.Clean`, as every directory `filepath.Dir` returns is; see
`cleanRelative_iff_clean_user_dir` and `cleanRelative_iff_clean_internal_dir`. -/
def CleanRelative (k : String) : Prop :=
  ∀ seg ∈ k.data.splitOn '/', NormalElem seg

instance : DecidablePred CleanRelative := fun k => by
  unfold CleanRelative; infer_instance

/-- The output paths of the two built-in tables. -/
def corePaths : List String :=
  (coreFileGenerators ++ coreFileServers).map (fun g => g.Path)

/-- What a capability branch does once its test has passed: the key `claim`
is claimed, the alias is requested and the entry is appended, to `ServeFiles`
when `serve` is set and to `GenerateDirs` otherwise. -/
def registerEntry {Reg : Type} (c : Collab Reg) (importPath generatorPath claim : String)
    (serve : Bool) (v : LoadVars Reg) : LoadVars Reg :=
  { claimed := claim :: v.claimed, imports := (c.importsAdd v.imports importPath).2,
    state :=
      if serve then
        { v.state with
          ServeFiles := v.state.ServeFiles ++
            [mkCodeGenerator c (c.importsAdd v.imports importPath).1 importPath generatorPath] }
      else
        { v.state with
          GenerateDirs := v.state.GenerateDirs ++
            [mkCodeGenerator c (c.importsAdd v.imports importPath).1 importPath generatorPath] } }

/-- The built-in lists are those of `loadCore`, every built-in path stays
claimed, and no entry of the two discovery lists has a built-in path. -/
def CoreKept {Reg : Type} (c : Collab Reg) (imports : Reg) (v : LoadVars Reg) : Prop :=
  v.state.FileGenerators = (loadCore c imports).state.FileGenerators ∧
  v.state.FileServers = (loadCore c imports).state.FileServers ∧
  (∀ p ∈ corePaths, p ∈ v.claimed) ∧
  ∀ e ∈ v.state.GenerateDirs ++ v.state.ServeFiles, e.Path ∉ corePaths

/-- The import path and output path of each entry. -/
def entryKeys (gs : List CodeGenerator) : List (String × String) :=
  gs.map (fun g => (g.Import.Path, g.Path))

/-- The import path and output path of each row of a built-in table. -/
def tableKeys (gs : List coreGenerator) : List (String × String) :=
  gs.map (fun g => (g.Import, g.Path))

/-- The manifest of a load, the empty one when it failed. -/
def manifestOf {Reg : Type} (r : Except GoError State × Reg) : State :=
  match r.1 with
  | .ok s => s
  | .error _ => {}

/-- A registration leaves `FileGenerators` and `FileServers` alone and only
appends to `GenerateDirs` and `ServeFiles`. -/
def Extends {Reg : Type} (v w : LoadVars Reg) : Prop :=
  w.state.FileGenerators = v.state.FileGenerators ∧
  w.state.FileServers = v.state.FileServers ∧
  v.state.GenerateDirs <+: w.state.GenerateDirs ∧
  v.state.ServeFiles <+: w.state.ServeFiles ∧
  v.claimed ⊆ w.claimed

/-- The collaborators `c` with a finder that returns `found`. -/
def withFound {Reg : Type} (c : Collab Reg) (found : Except GoError (List String)) :
    Collab Reg :=
  { c with finderFind := fun _ _ => found }

/-! ## Inputs on which the loader is evaluated -/

/-- Two candidates with the key `x`, one under each generator root, both with
only a `GenerateCmd` method, in the module `app.com/m`. -/
def twoCmdCollab : Collab (List Import) :=
  tableCollab "app.com/m"
    [("bud/internal/generator/x", .ok (generatorPackage ["GenerateCmd"])),
     ("generator/x", .ok (generatorPackage ["GenerateCmd"]))]
    (.ok ["bud/internal/generator/x", "generator/x"])

/-- A candidate whose `Generate`, `Serve` and `GenerateCmd` paths are those of
built-ins: the directory `generator/web/view/view.go` gives the key
`web/view/view.go`, the directory `generator/app/main.go` the key `app/main.go`. -/
def shadowCollab : Collab (List Import) :=
  tableCollab "app.com/m"
    [("generator/app/main.go", .ok (generatorPackage ["GenerateCmd"])),
     ("generator/web/view/view.go", .ok (generatorPackage ["Generate", "Serve"]))]
    (.ok ["generator/app/main.go", "generator/web/view/view.go"])

/-- Two candidates with the key `sitemap`, one under each generator root, both
with the methods `Generate`, `GenerateCmd` and `GeneratePkg`. -/
def twoSitemapCollab : Collab (List Import) :=
  tableCollab "app.com/m"
    [("bud/internal/generator/sitemap",
        .ok (generatorPackage ["Generate", "GenerateCmd", "GeneratePkg"])),
     ("generator/sitemap", .ok (generatorPackage ["Generate", "GenerateCmd", "GeneratePkg"]))]
    (.ok ["bud/internal/generator/sitemap", "generator/sitemap"])

/-- A tree in which the finder finds no directory. -/
def emptyCollab : Collab (List Import) :=
  tableCollab "app.com/m" [] (.ok [])

/-- The candidate `generator/sitemap` with the methods `Generate`,
`GenerateCmd` and `GeneratePkg`. -/
def sitemapCollab : Collab (List Import) :=
  tableCollab "app.com/m"
    [("generator/sitemap", .ok (generatorPackage ["Generate", "GenerateCmd", "GeneratePkg"]))]
    (.ok ["generator/sitemap"])

/-- The candidate `generator/x` with the methods `Generate` and `Serve`. -/
def generateServeCollab : Collab (List Import) :=
  tableCollab "app.com/m"
    [("generator/x", .ok (generatorPackage ["Generate", "Serve"]))]
    (.ok ["generator/x"])

/-- The candidate `generator/live` with the single method `Serve`. -/
def serveCollab : Collab (List Import) :=
  tableCollab "app.com/m"
    [("generator/live", .ok (generatorPackage ["Serve"]))]
    (.ok ["generator/live"])

/-- The candidate `generator/all` with the four methods. -/
def allCollab : Collab (List Import) :=
  tableCollab "app.com/m"
    [("generator/all",
      .ok (generatorPackage ["Generate", "Serve", "GenerateCmd", "GeneratePkg"]))]
    (.ok ["generator/all"])

/-- The files of a module with the candidates `generator/a/generator/z` and
`generator/z`, as the finder walks them. -/
def nestedWalk : List (String × Bool) :=
  [("generator/z/z.go", false), ("generator/a/generator/z/z.go", false)]

/-- The module `bud/internal/a` with the candidate `generator/a/generator/z`,
which exposes `Generate`, and the candidate `generator/z`, which exposes
`Generate`, `GenerateCmd` and `GeneratePkg`.  The key of the first is
`a/generator/z`; its output path `bud/internal/a/generator/z` is what the
second has as import path. -/
def claimedImportCollab : Collab (List Import) :=
  tableCollab "bud/internal/a"
    [("generator/a/generator/z", .ok (generatorPackage ["Generate"])),
     ("generator/z", .ok (generatorPackage ["Generate", "GenerateCmd", "GeneratePkg"]))]
    (.ok ["generator/a/generator/z", "generator/z"])

/-- The module `bud/internal/a` with the candidate `generator/a/generator/z`,
which exposes `Generate`, and the candidate `generator/z`, which does not
parse.  The output path `bud/internal/a/generator/z` of the first is what
the second has as import path. -/
def claimedUnparsableCollab : Collab (List Import) :=
  tableCollab "bud/internal/a"
    [("generator/a/generator/z", .ok (generatorPackage ["Generate"])),
     ("generator/z", .error (.plain "generator/z/z.go:1:1: expected 'package'"))]
    (.ok ["generator/a/generator/z", "generator/z"])

/-- Three candidates of which the second does not parse. -/
def brokenCollab : Collab (List Import) :=
  tableCollab "app.com/m"
    [("generator/a", .ok (generatorPackage ["Generate"])),
     ("generator/b", .error (.plain "generator/b/b.go:1:1: expected 'package'")),
     ("generator/c", .ok (generatorPackage ["Generate"]))]
    (.ok ["generator/a", "generator/b", "generator/c"])

/-- Three directories of which the second has no `Generator` struct. -/
def plainPackageCollab : Collab (List Import) :=
  tableCollab "app.com/m"
    [("generator/a", .ok (generatorPackage ["Generate"])),
     ("generator/b", .ok { Structs := [{ Name := "Helper", Methods := ["Generate"] }] }),
     ("generator/c", .ok (generatorPackage ["Serve"]))]
    (.ok ["generator/a", "generator/b", "generator/c"])

/-! ## The reserved sub-namespace -/

/-- A directory is the reserved directory `generator/generator` or lies below it. -/
def underReserved (dir : String) : Bool :=
  hasPrefix (dir ++ "/") "generator/generator/"

/-- Modelled from the spec: `finder.Find` over an explicit walk of the tree.
The selector is called on every walked entry (its path and whether it is a
directory); what it yields is returned, each directory once, in lexicographic
order of the paths. -/
def walkFind (walk : List (String × Bool)) (selector : String → Bool → List String) :
    Except GoError (List String) :=
  .ok ((walk.flatMap (fun e => selector e.1 e.2)).dedup.insertionSort
    (fun a b => a.data ≤ b.data))

/-- The collaborators of the module `app.com/m` over a walk of files, none of
which parses. -/
def walkCollab (walk : List (String × Bool)) : Collab (List Import) :=
  { tableCollab "app.com/m" [] (.ok []) with
    finderFind := fun _ selector => walkFind walk selector }

/-! ## The registrations of a load, in the order they are made -/

/-- The capability branch that made a registration. -/
inductive Origin where
  | generate
  | serve
  | generateCmd
  | generatePkg
  deriving DecidableEq, Repr

/-- The place of a branch in the round: `Generate`, `Serve`, `GenerateCmd`, `GeneratePkg`. -/
def Origin.rank : Origin → Nat
  | .generate => 0
  | .serve => 1
  | .generateCmd => 2
  | .generatePkg => 3

/-- The method of the `Generator` struct that a branch looks for. -/
def Origin.method : Origin → String
  | .generate => "Generate"
  | .serve => "Serve"
  | .generateCmd => "GenerateCmd"
  | .generatePkg => "GeneratePkg"

/-- The output path a branch tests and registers for a key. -/
def Origin.path (o : Origin) (key : String) : String :=
  match o with
  | .generate => pathJoin ["bud", "internal", key]
  | .serve => pathJoin ["bud", "internal", key]
  | .generateCmd => pathJoin ["bud", "cmd", key]
  | .generatePkg => pathJoin ["bud", "pkg", key]

/-- Whether the branch claims the output path it registers (`Generate` and
`Serve`) rather than the import path (`GenerateCmd` and `GeneratePkg`). -/
def Origin.claimsPath : Origin → Bool
  | .generate => true
  | .serve => true
  | .generateCmd => false
  | .generatePkg => false

/-- One registration made by the loop over the candidates: the scan position
and the directory of the candidate, the branch, and the entry appended. -/
structure Registration where
  pos : Nat
  dir : String
  origin : Origin
  entry : CodeGenerator
  deriving DecidableEq, Repr

/-- The registrations of the four branches of one round, in source order: a
branch registers when its method is exposed and its path is unclaimed as the
branch runs. -/
def roundTrace {Reg : Type} (c : Collab Reg) (generator : Struct) (importPath key : String)
    (pos : Nat) (dir : String) (v : LoadVars Reg) : List Registration :=
  (if (generator.Method "Generate").isSome ∧ pathJoin ["bud", "internal", key] ∉ v.claimed then
    [{ pos := pos, dir := dir, origin := .generate,
       entry := mkCodeGenerator c (c.importsAdd v.imports importPath).1 importPath
        (pathJoin ["bud", "internal", key]) }]
   else []) ++
  (if (generator.Method "Serve").isSome ∧
      pathJoin ["bud", "internal", key] ∉ (afterGenerate c generator importPath key v).claimed then
    [{ pos := pos, dir := dir, origin := .serve,
       entry := mkCodeGenerator c
        (c.importsAdd (afterGenerate c generator importPath key v).imports importPath).1
        importPath (pathJoin ["bud", "internal", key]) }]
   else []) ++
  (if (generator.Method "GenerateCmd").isSome ∧
      pathJoin ["bud", "cmd", key] ∉ (afterServe c generator importPath key v).claimed then
    [{ pos := pos, dir := dir, origin := .generateCmd,
       entry := mkCodeGenerator c
        (c.importsAdd (afterServe c generator importPath key v).imports importPath).1
        importPath (pathJoin ["bud", "cmd", key]) }]
   else []) ++
  (if (generator.Method "GeneratePkg").isSome ∧
      pathJoin ["bud", "pkg", key] ∉ (afterGenerateCmd c generator importPath key v).claimed then
    [{ pos := pos, dir := dir, origin := .generatePkg,
       entry := mkCodeGenerator c
        (c.importsAdd (afterGenerateCmd c generator importPath key v).imports importPath).1
        importPath (pathJoin ["bud", "pkg", key]) }]
   else [])

/-- The registrations of the round on one directory: none when the round is
skipped, the parse fails or there is no `Generator` struct. -/
def dirTrace {Reg : Type} (c : Collab Reg) (v : LoadVars Reg) (pos : Nat) (dir : String) :
    List Registration :=
  if v.claimed.contains (c.moduleImport dir) then []
  else
    match c.parserParse dir with
    | .error _ => []
    | .ok pkg =>
      match pkg.Struct "Generator" with
      | none => []
      | some generator =>
        roundTrace c generator (c.moduleImport dir) (generatorKey dir) pos dir v

/-- The registrations of the loop over the candidates, from the scan position `pos` on. -/
def loopTrace {Reg : Type} (c : Collab Reg) :
    LoadVars Reg → Nat → List String → List Registration
  | _, _, [] => []
  | v, pos, dir :: rest =>
    match loadGeneratorDir c v dir with
    | .error _ => []
    | .ok v' => dirTrace c v pos dir ++ loopTrace c v' (pos + 1) rest

/-- The entries registered by the branches that append to `GenerateDirs`. -/
def generateDirsOf (t : List Registration) : List CodeGenerator :=
  (t.filter (fun r => r.origin != .serve)).map (fun r => r.entry)

/-- The entries registered by the `Serve` branch. -/
def serveFilesOf (t : List Registration) : List CodeGenerator :=
  (t.filter (fun r => r.origin == .serve)).map (fun r => r.entry)

/-- The output paths registered by the branches that claim them. -/
def claimedPathsOf (t : List Registration) : List String :=
  (t.filter (fun r => r.origin.claimsPath)).map (fun r => r.entry.Path)

/-- The order of the registrations: by scan position, then by branch. -/
def Registration.before (a b : Registration) : Prop :=
  a.pos < b.pos ∨ (a.pos = b.pos ∧ a.origin.rank < b.origin.rank)

/-! ## Further inputs on which the loader is evaluated -/

/-- A walk with a Go file under the reserved directory, one under the user
root, one under the internal root, a directory and a file that is not Go. -/
def reservedWalk : List (String × Bool) :=
  [("generator/generator/x/x.go", false), ("generator/sitemap/sitemap.go", false),
   ("bud/internal/generator/web/web.go", false), ("generator/sitemap", true),
   ("generator/sitemap/README.md", false), ("generator/sitemap/extra.go", false)]

/-- The candidate `generator/sitemap` with the single method `Generate`. -/
def sitemapGenerateCollab : Collab (List Import) :=
  tableCollab "app.com/m"
    [("generator/sitemap", .ok (generatorPackage ["Generate"]))]
    (.ok ["generator/sitemap"])

/-- The candidate `generator/a` with `Generate`, `GenerateCmd` and
`GeneratePkg`, then the candidate `generator/b` with `Serve` and `Generate`. -/
def orderedCollab : Collab (List Import) :=
  tableCollab "app.com/m"
    [("generator/a", .ok (generatorPackage ["GeneratePkg", "GenerateCmd", "Generate"])),
     ("generator/b", .ok (generatorPackage ["Serve", "GenerateCmd"]))]
    (.ok ["generator/a", "generator/b"])

/-! ## The contract of the import set -/

/-- The contract of `imports.Set.Add`, over a reading `aliasOf` of the set (the
alias recorded for an import path, if any) and the sets `valid` that the
contract speaks of: `Add` records the alias it returns, returns the recorded
alias of a known path, keeps every recorded alias, keeps the set valid, and in
a valid set two paths never have the same alias. -/
structure AliasContract {Reg : Type} (c : Collab Reg) (aliasOf : Reg → String → Option String)
    (valid : Reg → Prop) : Prop where
  add_get : ∀ r p, aliasOf (c.importsAdd r p).2 p = some (c.importsAdd r p).1
  add_known : ∀ r p a, aliasOf r p = some a → (c.importsAdd r p).1 = a
  add_keep : ∀ r p q a, aliasOf r q = some a → aliasOf (c.importsAdd r p).2 q = some a
  add_valid : ∀ r p, valid r → valid (c.importsAdd r p).2
  injective : ∀ r p q a, valid r → aliasOf r p = some a → aliasOf r q = some a → p = q

/-- The entries of the four lists of a manifest. -/
def State.entries (s : State) : List CodeGenerator :=
  s.FileGenerators ++ s.FileServers ++ s.GenerateDirs ++ s.ServeFiles

/-- Every entry of the manifest so far has the alias the import set records for
its import path, and its `Camel` is `gotext.Camel` of that alias. -/
def Aliased {Reg : Type} (c : Collab Reg) (aliasOf : Reg → String → Option String)
    (v : LoadVars Reg) : Prop :=
  ∀ e ∈ v.state.entries,
    aliasOf v.imports e.Import.Path = some e.Import.Name ∧
    e.Camel = c.gotextCamel e.Import.Name

/-- An import set kept as the list of the known paths, the alias of a path
being the path itself. -/
def pathAliasAdd (reg : List String) (path : String) : String × List String :=
  (path, if path ∈ reg then reg else reg ++ [path])

/-- The reading of `pathAliasAdd`: a known path has itself as alias. -/
def pathAlias (reg : List String) (path : String) : Option String :=
  if path ∈ reg then some path else none

/-- Collaborators as in `tableCollab`, with the import set of `pathAliasAdd`. -/
def pathAliasCollab (modulePath : String) (pkgs : List (String × Except GoError Package))
    (found : Except GoError (List String)) : Collab (List String) :=
  { importsAdd := pathAliasAdd
    importsAddStd := fun reg path => (pathAliasAdd reg path).2
    importsAddNamed := fun reg _ path => (pathAliasAdd reg path).2
    importsList := fun reg => reg.map (fun p => { Name := p, Path := p })
    moduleImport := (tableCollab modulePath pkgs found).moduleImport
    parserParse := (tableCollab modulePath pkgs found).parserParse
    finderFind := fun _ _ => found
    validGoFile := (tableCollab modulePath pkgs found).validGoFile
    gotextCamel := fun name => name }

/-- The candidate `generator/a` registered by `Generate` and by `GenerateCmd`,
and the candidate `generator/b` registered by `Serve`. -/
def aliasCollab : Collab (List String) :=
  pathAliasCollab "app.com/m"
    [("generator/a", .ok (generatorPackage ["Generate", "GenerateCmd"])),
     ("generator/b", .ok (generatorPackage ["Serve"]))]
    (.ok ["generator/a", "generator/b"])


/-- The contract of the whole import set, over a reading `aliasOf` of it:
`Add` records the alias it returns and keeps every recorded alias, and on a
known path it returns the recorded alias and leaves the set as it is;
`AddStd` and `AddNamed` make their path known, keep every recorded alias and
leave the set as it is when the path is known already. -/
structure SetContract {Reg : Type} (c : Collab Reg) (aliasOf : Reg → String → Option String) :
    Prop where
  add_get : ∀ r p, aliasOf (c.importsAdd r p).2 p = some (c.importsAdd r p).1
  add_keep : ∀ r p q a, aliasOf r q = some a → aliasOf (c.importsAdd r p).2 q = some a
  add_known : ∀ r p a, aliasOf r p = some a → c.importsAdd r p = (a, r)
  std_get : ∀ r p, (aliasOf (c.importsAddStd r p) p).isSome
  std_keep : ∀ r p q a, aliasOf r q = some a → aliasOf (c.importsAddStd r p) q = some a
  std_known : ∀ r p, (aliasOf r p).isSome → c.importsAddStd r p = r
  named_get : ∀ r n p, (aliasOf (c.importsAddNamed r n p) p).isSome
  named_keep : ∀ r n p q a, aliasOf r q = some a → aliasOf (c.importsAddNamed r n p) q = some a
  named_known : ∀ r n p, (aliasOf r p).isSome → c.importsAddNamed r n p = r

/-- The variables of `load` with another import set. -/
def withImports {Reg : Type} (v : LoadVars Reg) (r : Reg) : LoadVars Reg :=
  { v with imports := r }

/-- The import set `big` records every alias that `small` records. -/
def Knows {Reg : Type} (aliasOf : Reg → String → Option String) (big small : Reg) : Prop :=
  ∀ q a, aliasOf small q = some a → aliasOf big q = some a

/-- A step of `load` that keeps the recorded aliases and that, started with
an import set that records every alias the step leaves behind, does the same
to the claimed set and the manifest and leaves that import set as it is. -/
def Replayable {Reg : Type} (aliasOf : Reg → String → Option String)
    (f : LoadVars Reg → LoadVars Reg) : Prop :=
  (∀ v, Knows aliasOf (f v).imports v.imports) ∧
  ∀ r v, Knows aliasOf r (f v).imports → f (withImports v r) = withImports (f v) r


/-- The paths in `paths` are pairwise distinct and all claimed. -/
def DistinctClaimed {Reg : Type} (v : LoadVars Reg) (paths : List String) : Prop :=
  paths.Nodup ∧ ∀ p ∈ paths, p ∈ v.claimed

/-! ## Directories on which a round changes nothing -/

/-- With the claimed set `claimed` the round on `dir` registers nothing:
its import path is claimed, or it parses and has no `Generator` struct, or
the output path of every branch whose method is exposed is claimed. -/
def Dropped {Reg : Type} (c : Collab Reg) (dir : String) (claimed : List String) : Prop :=
  c.moduleImport dir ∈ claimed ∨
  ∃ pkg, c.parserParse dir = .ok pkg ∧
    (pkg.Struct "Generator" = none ∨
      ∃ g, pkg.Struct "Generator" = some g ∧
        ∀ o : Origin, (g.Method o.method).isSome → o.path (generatorKey dir) ∈ claimed)

/-- The candidate `generator/a` scanned twice, with `generator/b` in between. -/
def repeatedCollab : Collab (List Import) :=
  tableCollab "app.com/m"
    [("generator/a", .ok (generatorPackage ["Generate", "Serve", "GeneratePkg"])),
     ("generator/b", .ok (generatorPackage ["Serve", "GenerateCmd"]))]
    (.ok ["generator/a", "generator/b", "generator/a"])

/-- The registrations of a load: those of the loop over the directories found,
started after the built-in loops. -/
def loadTrace {Reg : Type} (c : Collab Reg) (imports : Reg) (dirs : List String) :
    List Registration :=
  loopTrace c (loadCore c imports) 0 dirs

end Generator

/-! ## The `tool fs:ls` command (`internal/cli/tool_fs_ls.go`) -/

namespace Cli

open Generator (GoError pathClean)

/-- A directory entry as `os.ReadDir` returns it.  The command reads `Name()`
and `IsDir()` only; `Mode` stands for everything else an entry carries, so
that two entries the comparator cannot tell apart need not be equal. -/
structure DirEntry where
  Name : String
  IsDir : Bool
  Mode : Nat
  deriving DecidableEq, Repr

/-- Go's `<` on strings, the lexicographic order of the bytes.  Names are text
here, and on the UTF-8 encoding of text the order of the bytes is the order of
the characters. -/
def stringLess (a b : String) : Bool :=
  decide (a.data < b.data)

/-- The comparator `ToolFsLs` passes to `sort.Slice`, on the entries at the
two indices. -/
def lsLess (a b : DirEntry) : Bool :=
  if a.IsDir && !b.IsDir then true
  else if !a.IsDir && b.IsDir then false
  else stringLess a.Name b.Name

/-- What `ToolFsLs` calls: `c.Generate`, `os.ReadDir` on the file system that
`Generate` left behind, and `sort.Slice`, which rearranges a slice given a
comparator. -/
structure Env where
  Generate : Except GoError Unit
  ReadDir : String → Except GoError (List DirEntry)
  sortSlice : (DirEntry → DirEntry → Bool) → List DirEntry → List DirEntry

/-- The line the print loop writes for one entry. -/
def printName (de : DirEntry) : String :=
  if de.IsDir then de.Name ++ "/" else de.Name

/-- The command `ToolFsLs`: the error it returns, or the lines it has written
to `c.Stdout` with `fmt.Fprintln`, in order.  Nothing is written on an error,
both returns being before the print loop. -/
def ToolFsLs (k : Env) (inPath : String) : Except GoError (List String) :=
  match k.Generate with
  | .error err => .error err
  | .ok _ =>
    match k.ReadDir (pathClean inPath) with
    | .error err => .error err
    | .ok des => .ok ((k.sortSlice lsLess des).map printName)

/-- A strict weak ordering: irreflexive and transitive, with transitive
incomparability. -/
def StrictWeak {α : Type} (less : α → α → Bool) : Prop :=
  (∀ a, less a a = false) ∧
  (∀ a b c, less a b = true → less b c = true → less a c = true) ∧
  (∀ a b c, less a b = false → less b a = false → less b c = false → less c b = false →
    less a c = false ∧ less c a = false)

/-- The slice `out` is `l` sorted by `less` in the sense of package `sort`: a
rearrangement of `l` in which no element is less than an earlier one. -/
def SliceSorted {α : Type} (less : α → α → Bool) (l out : List α) : Prop :=
  out.Perm l ∧ out.Pairwise (fun a b => less b a = false)

/-- The contract of `sort.Slice`: given a strict weak ordering it sorts the
slice.  Nothing is said of the order of elements neither of which is less than
the other, the sort not being stable. -/
def SortContract {α : Type} (sortSlice : (α → α → Bool) → List α → List α) : Prop :=
  ∀ less l, StrictWeak less → SliceSorted less l (sortSlice less l)

/-- Insertion sort, one sort meeting the contract. -/
def insertionSlice {α : Type} (less : α → α → Bool) (l : List α) : List α :=
  l.insertionSort (fun a b => less b a = false)

/-- A file system with one directory `.` of two files and two directories,
listed by insertion sort. -/
def listingEnv : Env where
  Generate := .ok ()
  ReadDir := fun p =>
    if p = "." then
      .ok [⟨"b.txt", false, 0⟩, ⟨"lib", true, 1⟩, ⟨"a.txt", false, 0⟩, ⟨"cmd", true, 1⟩]
    else .error (.plain "no such file or directory")
  sortSlice := insertionSlice

end Cli

namespace Generator

/-! ## Keys and joined paths -/

section Paths

theorem cleanSegs_normal (rooted : Bool) (segs : List (List Char))
    (h : ∀ seg ∈ segs, NormalElem seg) (acc : List (List Char)) :
    cleanSegs rooted acc segs = acc.reverse ++ segs := by
  induction segs generalizing acc with
  | nil => simp [cleanSegs]
  | cons seg rest ih =>
    obtain ⟨h1, h2, h3, _⟩ := h seg (List.mem_cons_self _ _)
    have hrest : ∀ s ∈ rest, NormalElem s := fun s hs => h s (List.mem_cons_of_mem _ hs)
    unfold cleanSegs
    simp only [h1, h2, h3, or_self, if_false]
    rw [ih hrest]
    simp

theorem intercalate_cons_cons (sep a b : List Char) (rest : List (List Char)) :
    List.intercalate sep (a :: b :: rest) = a ++ sep ++ List.intercalate sep (b :: rest) := by
  simp [List.intercalate, List.intersperse]

theorem intercalate_cons_splitOn (a l : List Char) :
    List.intercalate ['/'] (a :: l.splitOn '/') = a ++ '/' :: l := by
  cases hl : l.splitOn '/' with
  | nil => exact absurd hl (List.splitOnP_ne_nil _ _)
  | cons b rest =>
    rw [intercalate_cons_cons, ← hl, List.intercalate_splitOn]
    simp

/-- On a non-empty list of normal elements joined by slashes `path.Clean` is
the identity. -/
theorem pathClean_intercalate (segs : List (List Char)) (hne : segs ≠ [])
    (h : ∀ seg ∈ segs, NormalElem seg) :
    pathClean ⟨List.intercalate ['/'] segs⟩ = ⟨List.intercalate ['/'] segs⟩ := by
  obtain ⟨seg, rest, rfl⟩ := List.exists_cons_of_ne_nil hne
  obtain ⟨h1, _, _, h4⟩ := h seg (List.mem_cons_self _ _)
  obtain ⟨ch, tl, rfl⟩ := List.exists_cons_of_ne_nil h1
  have hch : ch ≠ '/' := fun hc => h4 (hc ▸ List.mem_cons_self _ _)
  have hdata : ∃ tl', List.intercalate ['/'] ((ch :: tl) :: rest) = ch :: tl' := by
    cases rest with
    | nil => exact ⟨tl, by simp [List.intercalate, List.intersperse]⟩
    | cons b rest' => exact ⟨_, by rw [intercalate_cons_cons]; rfl⟩
  obtain ⟨tl', htl⟩ := hdata
  have hsplit : (List.intercalate ['/'] ((ch :: tl) :: rest)).splitOn '/'
      = (ch :: tl) :: rest :=
    List.splitOn_intercalate _ '/' (fun l hl => (h l hl).2.2.2) (by simp)
  unfold pathClean
  simp only [hsplit, cleanSegs_normal _ _ h, List.reverse_nil, List.nil_append]
  simp [htl, hch]

/-- `path.Join("bud", x, k)` for a normal element `x` and a clean relative `k`. -/
theorem pathJoin_bud (x k : String) (hx : NormalElem x.data) (hk : CleanRelative k) :
    pathJoin ["bud", x, k] = "bud/" ++ x ++ "/" ++ k := by
  have hsegs : ∀ seg ∈ "bud".data :: x.data :: k.data.splitOn '/', NormalElem seg := by
    intro seg hs
    rcases List.mem_cons.mp hs with rfl | hs
    · decide
    · rcases List.mem_cons.mp hs with rfl | hs
      · exact hx
      · exact hk seg hs
  have hj : List.intercalate ['/'] ("bud".data :: x.data :: k.data.splitOn '/')
      = "bud".data ++ '/' :: (x.data ++ '/' :: k.data) := by
    rw [intercalate_cons_cons, intercalate_cons_splitOn]; simp
  have hj' : List.intercalate ['/'] (["bud", x, k].map String.data)
      = "bud".data ++ '/' :: (x.data ++ '/' :: k.data) := by
    simp [List.intercalate, List.intersperse]
  have hc := pathClean_intercalate _ (by simp) hsegs
  rw [hj] at hc
  have hd : ["bud", x, k].dropWhile (fun e => decide (e.data = [])) = ["bud", x, k] := by
    rw [List.dropWhile_cons]; simp
  unfold pathJoin
  rw [hd]
  simp only [hj', hc]
  apply String.ext
  simp

theorem generatorKey_user (k : String) : generatorKey ("generator/" ++ k) = k := by
  have h1 : hasPrefix ("generator/" ++ k) "bud/internal/" = false := by
    simp [hasPrefix, String.data_append, List.isPrefixOf]
  have h2 : hasPrefix ("generator/" ++ k) "generator/" = true := by
    simp [hasPrefix, String.data_append, List.isPrefixOf]
  unfold generatorKey trimPrefix
  simp only [h1, h2, Bool.false_eq_true, if_false, if_true]
  apply String.ext
  simp [String.data_append]

theorem generatorKey_internal (k : String) :
    generatorKey ("bud/internal/generator/" ++ k) = k := by
  have h1 : hasPrefix ("bud/internal/generator/" ++ k) "bud/internal/" = true := by
    simp [hasPrefix, String.data_append, List.isPrefixOf]
  have h0 : (⟨("bud/internal/generator/" ++ k).data.drop "bud/internal/".data.length⟩ : String)
      = "generator/" ++ k := by
    apply String.ext
    simp [String.data_append]
  unfold generatorKey
  rw [show trimPrefix ("bud/internal/generator/" ++ k) "bud/internal/" = "generator/" ++ k by
    unfold trimPrefix; simp only [h1, if_true]; exact h0]
  exact generatorKey_user k

end Paths

/-! ## Clean directories have clean keys -/

section CleanDirs

theorem splitOnP_no_sep (p : Char → Bool) (xs : List Char) :
    ∀ l ∈ xs.splitOnP p, ∀ x ∈ l, p x = false := by
  induction xs with
  | nil => intro l hl; simp [List.splitOnP_nil] at hl; subst hl; simp
  | cons a rest ih =>
    intro l hl x hx
    rw [List.splitOnP_cons] at hl
    by_cases hp : p a = true
    · simp only [hp, if_true, List.mem_cons] at hl
      rcases hl with rfl | hl
      · cases hx
      · exact ih l hl x hx
    · simp only [hp, Bool.false_eq_true, if_false] at hl
      cases hs : rest.splitOnP p with
      | nil => exact absurd hs (List.splitOnP_ne_nil _ _)
      | cons hd tl =>
        rw [hs] at hl ih
        simp only [List.modifyHead_cons, List.mem_cons] at hl
        rcases hl with rfl | hl
        · rcases List.mem_cons.mp hx with rfl | hx
          · simpa using hp
          · exact ih hd (List.mem_cons_self _ _) x hx
        · exact ih l (List.mem_cons_of_mem _ hl) x hx

theorem splitOn_no_sep (xs : List Char) : ∀ l ∈ xs.splitOn '/', '/' ∉ l := by
  intro l hl hx
  have := splitOnP_no_sep (fun ch => ch == '/') xs l hl '/' hx
  simp at this

theorem cleanSegs_length_le (rooted : Bool) (segs acc : List (List Char)) :
    (cleanSegs rooted acc segs).length ≤ acc.length + segs.length := by
  induction segs generalizing acc with
  | nil => simp [cleanSegs]
  | cons seg rest ih =>
    unfold cleanSegs
    split
    · have := ih acc
      simp only [List.length_cons]; omega
    · split
      · split
        · split
          · rename_i top acc' _
            have := ih (seg :: top :: acc')
            simp only [List.length_cons] at this ⊢; omega
          · rename_i top acc' _
            have := ih acc'
            simp only [List.length_cons]; omega
        · split
          · have := ih []
            simp only [List.length_cons, List.length_nil] at this ⊢; omega
          · have := ih [seg]
            simp only [List.length_cons, List.length_nil] at this ⊢; omega
      · have := ih (seg :: acc)
        simp only [List.length_cons] at this ⊢; omega

theorem cleanSegs_subset (rooted : Bool) (segs acc : List (List Char)) :
    ∀ s ∈ cleanSegs rooted acc segs, s ∈ acc ∨ s ∈ segs := by
  induction segs generalizing acc with
  | nil => intro s hs; simp [cleanSegs] at hs; exact Or.inl hs
  | cons seg rest ih =>
    intro s hs
    unfold cleanSegs at hs
    split at hs
    · rcases ih acc s hs with h | h
      · exact Or.inl h
      · exact Or.inr (List.mem_cons_of_mem _ h)
    · split at hs
      · split at hs
        · split at hs
          · rcases ih _ s hs with h | h
            · rcases List.mem_cons.mp h with rfl | h
              · exact Or.inr (List.mem_cons_self _ _)
              · exact Or.inl h
            · exact Or.inr (List.mem_cons_of_mem _ h)
          · rcases ih _ s hs with h | h
            · exact Or.inl (List.mem_cons_of_mem _ h)
            · exact Or.inr (List.mem_cons_of_mem _ h)
        · split at hs
          · rcases ih _ s hs with h | h
            · exact Or.inl h
            · exact Or.inr (List.mem_cons_of_mem _ h)
          · rcases ih _ s hs with h | h
            · rcases List.mem_cons.mp h with rfl | h
              · exact Or.inr (List.mem_cons_self _ _)
              · exact Or.inl h
            · exact Or.inr (List.mem_cons_of_mem _ h)
      · rcases ih _ s hs with h | h
        · rcases List.mem_cons.mp h with rfl | h
          · exact Or.inr (List.mem_cons_self _ _)
          · exact Or.inl h
        · exact Or.inr (List.mem_cons_of_mem _ h)

/-- When the element pass returns its input after a non-empty output without
`..`, no element of the input is empty, `.` or `..`. -/
theorem cleanSegs_fixed (rooted : Bool) (segs acc : List (List Char))
    (hne : acc ≠ []) (hacc : ∀ s ∈ acc, s ≠ ['.', '.'])
    (h : cleanSegs rooted acc segs = acc.reverse ++ segs) :
    ∀ seg ∈ segs, seg ≠ [] ∧ seg ≠ ['.'] ∧ seg ≠ ['.', '.'] := by
  induction segs generalizing acc with
  | nil => intro seg hs; cases hs
  | cons seg rest ih =>
    have hlen := congrArg List.length h
    simp only [List.length_append, List.length_reverse, List.length_cons] at hlen
    unfold cleanSegs at h hlen
    by_cases h1 : seg = [] ∨ seg = ['.']
    · simp only [h1, if_true] at hlen
      have := cleanSegs_length_le rooted rest acc
      omega
    · simp only [h1, if_false] at h hlen
      by_cases h2 : seg = ['.', '.']
      · simp only [h2, if_true] at hlen
        obtain ⟨top, acc', rfl⟩ := List.exists_cons_of_ne_nil hne
        have htop : top ≠ ['.', '.'] := hacc top (List.mem_cons_self _ _)
        simp only [htop, if_false, List.length_cons] at hlen
        have := cleanSegs_length_le rooted rest acc'
        omega
      · simp only [h2, if_false] at h
        have h' : cleanSegs rooted (seg :: acc) rest = (seg :: acc).reverse ++ rest := by
          rw [h]; simp
        have hrest := ih (seg :: acc) (by simp)
          (fun s hs => by
            rcases List.mem_cons.mp hs with rfl | hs
            · exact h2
            · exact hacc s hs) h'
        intro s hs
        rcases List.mem_cons.mp hs with rfl | hs
        · exact ⟨fun h0 => h1 (Or.inl h0), fun h0 => h1 (Or.inr h0), h2⟩
        · exact hrest s hs

/-- A relative path that `path.Clean` leaves unchanged and whose first element
is normal consists of normal elements. -/
theorem normal_of_pathClean_fixed (first : List Char) (l : List Char)
    (hfirst : NormalElem first)
    (h : pathClean ⟨first ++ '/' :: l⟩ = ⟨first ++ '/' :: l⟩) :
    ∀ seg ∈ l.splitOn '/', NormalElem seg := by
  obtain ⟨f1, f2, f3, f4⟩ := hfirst
  obtain ⟨ch, tl, rfl⟩ := List.exists_cons_of_ne_nil f1
  have hch : ch ≠ '/' := fun hc => f4 (hc ▸ List.mem_cons_self _ _)
  have hD : (ch :: tl) ++ '/' :: l = List.intercalate ['/'] ((ch :: tl) :: l.splitOn '/') :=
    (intercalate_cons_splitOn _ _).symm
  have hsep : ∀ s ∈ (ch :: tl) :: l.splitOn '/', '/' ∉ s := by
    intro s hs
    rcases List.mem_cons.mp hs with rfl | hs
    · exact f4
    · exact splitOn_no_sep l s hs
  have hL : ((ch :: tl) ++ '/' :: l).splitOn '/' = (ch :: tl) :: l.splitOn '/' := by
    rw [hD]; exact List.splitOn_intercalate _ '/' hsep (by simp)
  unfold pathClean at h
  simp only [hL] at h
  have hstep : cleanSegs false [] ((ch :: tl) :: l.splitOn '/')
      = cleanSegs false [ch :: tl] (l.splitOn '/') := by
    rw [cleanSegs]
    simp only [f1, f2, f3, or_self, if_false]
  simp only [List.cons_append, List.head?_cons, reduceCtorEq, if_false] at h
  have hnr : (some ch == some '/') = false := by simpa using hch
  simp only [hnr, Bool.false_eq_true, if_false] at h
  rw [hstep] at h
  set out := cleanSegs false [ch :: tl] (l.splitOn '/') with hout
  have hbody : List.intercalate ['/'] out = ch :: (tl ++ '/' :: l) := by
    by_cases hb : List.intercalate ['/'] out = []
    · rw [if_pos hb] at h
      have := congrArg String.data h
      simp at this
    · rw [if_neg hb] at h
      exact congrArg String.data h
  have hout_ne : out ≠ [] := by
    intro h0; rw [h0] at hbody; simp [List.intercalate] at hbody
  have hout_sep : ∀ s ∈ out, '/' ∉ s := by
    intro s hs
    rcases cleanSegs_subset false _ _ s hs with h1 | h1
    · rw [List.mem_singleton] at h1; subst h1; exact f4
    · exact splitOn_no_sep l s h1
  have hfix : out = (ch :: tl) :: l.splitOn '/' := by
    have h1 := List.splitOn_intercalate _ '/' hout_sep hout_ne
    rw [hbody] at h1
    have h2 : (ch :: (tl ++ '/' :: l)).splitOn '/' = (ch :: tl) :: l.splitOn '/' := hL
    rw [← h1, h2]
  have hall := cleanSegs_fixed false (l.splitOn '/') [ch :: tl] (by simp)
    (fun s hs => by rw [List.mem_singleton] at hs; subst hs; exact f3)
    (by rw [← hout, hfix]; simp)
  intro seg hs
  obtain ⟨a, b, c⟩ := hall seg hs
  exact ⟨a, b, c, splitOn_no_sep l seg hs⟩

/-- The key of a clean candidate directory under the user root is a clean
relative path, and a clean relative key gives a clean directory. -/
theorem cleanRelative_iff_clean_user_dir (k : String) :
    CleanRelative k ↔ pathClean ("generator/" ++ k) = "generator/" ++ k := by
  have hd : ("generator/" ++ k) = ⟨"generator".data ++ '/' :: k.data⟩ := by
    apply String.ext; simp only [String.data_append]; rfl
  constructor
  · intro hk
    have hsegs : ∀ seg ∈ "generator".data :: k.data.splitOn '/', NormalElem seg := by
      intro seg hs
      rcases List.mem_cons.mp hs with rfl | hs
      · decide
      · exact hk seg hs
    have := pathClean_intercalate _ (by simp) hsegs
    rw [intercalate_cons_splitOn] at this
    rw [hd]; exact this
  · intro h
    rw [hd] at h
    exact normal_of_pathClean_fixed "generator".data k.data (by decide) h

/-- The same for the internal root `bud/internal/generator/`. -/
theorem cleanRelative_iff_clean_internal_dir (k : String) :
    CleanRelative k ↔
      pathClean ("bud/internal/generator/" ++ k) = "bud/internal/generator/" ++ k := by
  have hd : ("bud/internal/generator/" ++ k)
      = ⟨"bud".data ++ '/' :: ("internal/generator/" ++ k).data⟩ := by
    apply String.ext; simp only [String.data_append]; rfl
  have hsplit : ("internal/generator/" ++ k).data.splitOn '/'
      = "internal".data :: "generator".data :: k.data.splitOn '/' := by
    have h1 : ("internal/generator/" ++ k).data
        = List.intercalate ['/'] ("internal".data :: "generator".data :: k.data.splitOn '/') := by
      rw [intercalate_cons_cons, intercalate_cons_splitOn]
      simp only [String.data_append]; rfl
    rw [h1]
    refine List.splitOn_intercalate _ '/' ?_ (by simp)
    intro s hs
    rcases List.mem_cons.mp hs with rfl | hs
    · decide
    · rcases List.mem_cons.mp hs with rfl | hs
      · decide
      · exact splitOn_no_sep _ s hs
  constructor
  · intro hk
    have hsegs : ∀ seg ∈ "bud".data :: ("internal/generator/" ++ k).data.splitOn '/',
        NormalElem seg := by
      intro seg hs
      rw [hsplit] at hs
      rcases List.mem_cons.mp hs with rfl | hs
      · decide
      · rcases List.mem_cons.mp hs with rfl | hs
        · decide
        · rcases List.mem_cons.mp hs with rfl | hs
          · decide
          · exact hk seg hs
    have := pathClean_intercalate _ (by simp) hsegs
    rw [intercalate_cons_splitOn] at this
    rw [hd]; exact this
  · intro h
    rw [hd] at h
    have := normal_of_pathClean_fixed "bud".data _ (by decide) h
    rw [hsplit] at this
    intro seg hs
    exact this seg (List.mem_cons_of_mem _ (List.mem_cons_of_mem _ hs))

end CleanDirs

/-! ## Import paths of the module -/

section ModulePaths

theorem cleanSegs_append (rooted : Bool) (front back : List (List Char))
    (acc : List (List Char)) :
    cleanSegs rooted acc (front ++ back)
      = cleanSegs rooted (cleanSegs rooted acc front).reverse back := by
  induction front generalizing acc with
  | nil => simp [cleanSegs]
  | cons seg rest ih =>
    rw [List.cons_append]
    by_cases h1 : seg = [] ∨ seg = ['.']
    · simp only [cleanSegs, h1, if_true]
      exact ih acc
    · by_cases h2 : seg = ['.', '.']
      · cases acc with
        | nil =>
          cases rooted with
          | true => simp only [cleanSegs, h1, h2, if_true, if_false]; exact ih _
          | false =>
            simp only [cleanSegs, h1, h2, if_true, if_false, Bool.false_eq_true]
            exact ih _
        | cons top acc' =>
          by_cases h3 : top = ['.', '.']
          · simp only [cleanSegs, h1, h2, h3, if_true, if_false]; exact ih _
          · simp only [cleanSegs, h1, h2, h3, if_true, if_false]; exact ih _
      · simp only [cleanSegs, h1, h2, if_false]
        exact ih _

theorem intercalate_append_last (front : List (List Char)) (b : List Char) :
    ∃ pre, List.intercalate ['/'] (front ++ [b]) = pre ++ b := by
  induction front with
  | nil => exact ⟨[], by simp [List.intercalate, List.intersperse]⟩
  | cons a rest ih =>
    obtain ⟨pre, hpre⟩ := ih
    cases hr : rest ++ [b] with
    | nil => simp at hr
    | cons x xs =>
      rw [List.cons_append, hr, intercalate_cons_cons, ← hr, hpre]
      exact ⟨a ++ ['/'] ++ pre, by simp⟩

theorem intercalate_append_two (front : List (List Char)) (hne : front ≠ []) (a b : List Char) :
    List.intercalate ['/'] (front ++ [a, b])
      = List.intercalate ['/'] front ++ '/' :: (a ++ '/' :: b) := by
  induction front with
  | nil => exact absurd rfl hne
  | cons x rest ih =>
    cases rest with
    | nil => simp [List.intercalate, List.intersperse]
    | cons y rest' =>
      rw [List.cons_append, List.cons_append, intercalate_cons_cons, ← List.cons_append,
        ih (by simp), intercalate_cons_cons]
      simp

/-- The import path `path.Join(m, "generator/sitemap")` ends in `sitemap`,
whatever the module path `m`. -/
theorem pathJoin_sitemap_suffix (m : String) :
    ∃ pre, (pathJoin [m, "generator/sitemap"]).data = pre ++ "sitemap".data := by
  by_cases hm : m.data = []
  · have : pathJoin [m, "generator/sitemap"] = "generator/sitemap" := by
      have e : m = "" := String.ext hm
      subst e
      decide
    rw [this]
    exact ⟨"generator/".data, by decide⟩
  · have hne : m.data.splitOn '/' ≠ [] := List.splitOnP_ne_nil _ _
    have hdata : m.data = List.intercalate ['/'] (m.data.splitOn '/') :=
      (List.intercalate_splitOn _ '/').symm
    have hjoin : pathJoin [m, "generator/sitemap"]
        = pathClean ⟨m.data ++ '/' :: "generator/sitemap".data⟩ := by
      simp [pathJoin, hm, List.intercalate, List.intersperse]
    have hall : m.data ++ '/' :: "generator/sitemap".data
        = List.intercalate ['/'] (m.data.splitOn '/' ++ ["generator".data, "sitemap".data]) := by
      rw [intercalate_append_two _ hne, ← hdata]
      rfl
    have hsplit : (m.data ++ '/' :: "generator/sitemap".data).splitOn '/'
        = m.data.splitOn '/' ++ ["generator".data, "sitemap".data] := by
      rw [hall]
      refine List.splitOn_intercalate _ '/' ?_ (by simp)
      intro l hl
      rcases List.mem_append.mp hl with hl | hl
      · exact splitOn_no_sep _ l hl
      · simp only [List.mem_cons, List.mem_singleton, List.not_mem_nil, or_false] at hl
        rcases hl with rfl | rfl <;> decide
    have hnormal : ∀ seg ∈ ["generator".data, "sitemap".data], NormalElem seg := by decide
    have hnonempty : m.data ++ '/' :: "generator/sitemap".data ≠ [] := by simp
    obtain ⟨pre, hpre⟩ := intercalate_append_last
      (cleanSegs (m.data.head? == some '/') [] (m.data.splitOn '/') ++ ["generator".data])
      "sitemap".data
    have hhead : (m.data ++ '/' :: "generator/sitemap".data).head? = m.data.head? := by
      cases hd : m.data with
      | nil => exact absurd hd hm
      | cons x xs => rfl
    have hbody : List.intercalate ['/']
        (cleanSegs (m.data.head? == some '/') []
          ((m.data ++ '/' :: "generator/sitemap".data).splitOn '/'))
        = pre ++ "sitemap".data := by
      rw [hsplit, cleanSegs_append, cleanSegs_normal _ _ hnormal, List.reverse_reverse, ← hpre]
      simp
    rw [hjoin]
    unfold pathClean
    simp only [hnonempty, if_false, hhead, hbody]
    by_cases hr : (m.data.head? == some '/') = true
    · simp only [hr, if_true]
      exact ⟨'/' :: pre, rfl⟩
    · simp only [hr, if_false]
      have : pre ++ "sitemap".data ≠ [] := by simp
      simp only [this, if_false]
      exact ⟨pre, rfl⟩

/-- The import path of `generator/sitemap` in a module is not the output path
of a built-in and not the import path of one. -/
theorem pathJoin_sitemap_not_core (m : String) :
    pathJoin [m, "generator/sitemap"] ∉ corePaths ∧
    pathJoin [m, "generator/sitemap"]
      ∉ (coreFileGenerators ++ coreFileServers).map (fun g => g.Import) := by
  obtain ⟨pre, hpre⟩ := pathJoin_sitemap_suffix m
  have hlast : (pathJoin [m, "generator/sitemap"]).data.reverse.take 7
      = "sitemap".data.reverse := by
    rw [hpre, List.reverse_append]
    exact List.take_left' (by decide)
  have h1 : ∀ p ∈ corePaths, p.data.reverse.take 7 ≠ "sitemap".data.reverse := by decide
  have h2 : ∀ p ∈ (coreFileGenerators ++ coreFileServers).map (fun g => g.Import),
      p.data.reverse.take 7 ≠ "sitemap".data.reverse := by decide
  exact ⟨fun h => h1 _ h hlast, fun h => h2 _ h hlast⟩

end ModulePaths

/-! ## The selection callback and `filepath.Dir` -/

section Selector

theorem dropWhile_append_stop (p : Char → Bool) (l r : List Char) (a : Char)
    (hl : ∀ x ∈ l, p x = true) (ha : p a = false) :
    (l ++ a :: r).dropWhile p = a :: r := by
  induction l with
  | nil => simp [List.dropWhile, ha]
  | cons x rest ih =>
    have hx := hl x (List.mem_cons_self _ _)
    simp only [List.cons_append, List.dropWhile_cons, hx, if_true]
    exact ih (fun y hy => hl y (List.mem_cons_of_mem _ hy))

/-- The part of `d/b` that `filepath.Dir` hands to `Clean`: `d/`. -/
theorem dir_prefix (d b : List Char) (hb : '/' ∉ b) :
    ((d ++ '/' :: b).reverse.dropWhile (fun ch => ch != '/')).reverse = d ++ ['/'] := by
  have h : (d ++ '/' :: b).reverse = b.reverse ++ '/' :: d.reverse := by simp
  rw [h, dropWhile_append_stop _ _ _ _ (fun x hx => by
    have : x ≠ '/' := fun h0 => hb (h0 ▸ List.mem_reverse.mp hx)
    simpa using this) (by simp)]
  simp

theorem cleanSegs_normal_then_empty (rooted : Bool) (segs : List (List Char))
    (h : ∀ seg ∈ segs, NormalElem seg) (acc : List (List Char)) :
    cleanSegs rooted acc (segs ++ [[]]) = acc.reverse ++ segs := by
  induction segs generalizing acc with
  | nil => simp [cleanSegs]
  | cons seg rest ih =>
    obtain ⟨h1, h2, h3, _⟩ := h seg (List.mem_cons_self _ _)
    have hrest : ∀ s ∈ rest, NormalElem s := fun s hs => h s (List.mem_cons_of_mem _ hs)
    rw [List.cons_append]
    unfold cleanSegs
    simp only [h1, h2, h3, or_self, if_false]
    rw [ih hrest]
    simp

theorem intercalate_append_empty (segs : List (List Char)) (hne : segs ≠ []) :
    List.intercalate ['/'] (segs ++ [[]]) = List.intercalate ['/'] segs ++ ['/'] := by
  induction segs with
  | nil => exact absurd rfl hne
  | cons a rest ih =>
    cases rest with
    | nil => simp [List.intercalate, List.intersperse]
    | cons b rest' =>
      rw [List.cons_append, List.cons_append, intercalate_cons_cons, ← List.cons_append,
        ih (by simp), intercalate_cons_cons]
      simp

/-- On a clean relative directory followed by a slash `path.Clean` removes the slash. -/
theorem pathClean_trailing_slash (d : String) (hd : CleanRelative d) :
    pathClean ⟨d.data ++ ['/']⟩ = d := by
  have hne : d.data.splitOn '/' ≠ [] := List.splitOnP_ne_nil _ _
  obtain ⟨seg, rest, hs⟩ := List.exists_cons_of_ne_nil hne
  have hdata : d.data = List.intercalate ['/'] (d.data.splitOn '/') :=
    (List.intercalate_splitOn _ '/').symm
  obtain ⟨h1, _, _, h4⟩ := hd seg (by rw [hs]; exact List.mem_cons_self _ _)
  obtain ⟨ch, tl, rfl⟩ := List.exists_cons_of_ne_nil h1
  have hch : ch ≠ '/' := fun hc => h4 (hc ▸ List.mem_cons_self _ _)
  have hhead : ∃ tl', d.data = ch :: tl' := by
    rw [hdata, hs]
    cases rest with
    | nil => exact ⟨tl, by simp [List.intercalate, List.intersperse]⟩
    | cons b rest' => exact ⟨_, by rw [intercalate_cons_cons]; rfl⟩
  obtain ⟨tl', htl⟩ := hhead
  have hsplit : (d.data ++ ['/']).splitOn '/' = d.data.splitOn '/' ++ [[]] := by
    have : d.data ++ ['/'] = List.intercalate ['/'] (d.data.splitOn '/' ++ [[]]) := by
      rw [intercalate_append_empty _ hne, ← hdata]
    rw [this]
    refine List.splitOn_intercalate _ '/' ?_ (by simp)
    intro l hl
    rcases List.mem_append.mp hl with hl | hl
    · exact (hd l hl).2.2.2
    · rw [List.mem_singleton] at hl; subst hl; simp
  unfold pathClean
  simp only [hsplit, cleanSegs_normal_then_empty _ _ hd, List.reverse_nil, List.nil_append,
    ← hdata]
  simp [htl, hch]
  apply String.ext
  simp [htl]

/-- On a clean path `d/b` the result of `filepath.Dir` is `d`. -/
theorem filepathDir_join (d b : String) (hd : CleanRelative d) (hb : '/' ∉ b.data) :
    filepathDir (d ++ "/" ++ b) = d := by
  unfold filepathDir
  have h : (d ++ "/" ++ b).data = d.data ++ '/' :: b.data := by
    simp [String.data_append]
  rw [h, dir_prefix _ _ hb]
  exact pathClean_trailing_slash d hd

/-- On a path without a separator the result of `filepath.Dir` is `.`. -/
theorem filepathDir_single (b : String) (hb : '/' ∉ b.data) : filepathDir b = "." := by
  unfold filepathDir
  have h : b.data.reverse.dropWhile (fun ch => ch != '/') = [] := by
    rw [List.dropWhile_eq_nil_iff]
    intro x hx
    have : x ≠ '/' := fun h0 => hb (h0 ▸ List.mem_reverse.mp hx)
    simpa using this
  rw [h]
  rfl

/-- A clean relative path is a single element or a clean directory, a slash
and a last element. -/
theorem cleanRelative_split (p : String) (hp : CleanRelative p) :
    '/' ∉ p.data ∨
      ∃ d b : String, p = d ++ "/" ++ b ∧ CleanRelative d ∧ '/' ∉ b.data := by
  have hne : p.data.splitOn '/' ≠ [] := List.splitOnP_ne_nil _ _
  have hdata : p.data = List.intercalate ['/'] (p.data.splitOn '/') :=
    (List.intercalate_splitOn _ '/').symm
  rcases List.eq_nil_or_concat (p.data.splitOn '/') with h | ⟨init, last, h⟩
  · exact absurd h hne
  · rw [List.concat_eq_append] at h
    have hlast : NormalElem last := hp last (by rw [h]; simp)
    have hinit : ∀ s ∈ init, NormalElem s := fun s hs => hp s (by rw [h]; simp [hs])
    by_cases hi : init = []
    · left
      rw [hdata, h, hi]
      simpa [List.intercalate, List.intersperse] using hlast.2.2.2
    · right
      refine ⟨⟨List.intercalate ['/'] init⟩, ⟨last⟩, ?_, ?_, hlast.2.2.2⟩
      · apply String.ext
        simp only [String.data_append]
        rw [hdata, h]
        have : ∀ (xs : List (List Char)), xs ≠ [] →
            List.intercalate ['/'] (xs ++ [last])
              = List.intercalate ['/'] xs ++ '/' :: last := by
          intro xs hxs
          induction xs with
          | nil => exact absurd rfl hxs
          | cons a rest ih =>
            cases rest with
            | nil => simp [List.intercalate, List.intersperse]
            | cons b rest' =>
              rw [List.cons_append, List.cons_append, intercalate_cons_cons,
                ← List.cons_append, ih (by simp), intercalate_cons_cons]
              simp
        rw [this init hi]
        simp
      · intro s hs
        have : (List.intercalate ['/'] init).splitOn '/' = init :=
          List.splitOn_intercalate _ '/' (fun l hl => (hinit l hl).2.2.2) hi
        have hs' : s ∈ init := by
          simpa [this] using hs
        exact hinit s hs'

theorem hasPrefix_append (s t pre : String) (h : hasPrefix s pre = true) :
    hasPrefix (s ++ t) pre = true := by
  unfold hasPrefix at *
  rw [List.isPrefixOf_iff_prefix] at *
  rw [String.data_append]
  exact h.trans (List.prefix_append _ _)

/-- What the callback yields for a clean path is never under the reserved
directory. -/
theorem findSelector_not_reserved {Reg : Type} (c : Collab Reg) (p : String) (isDir : Bool)
    (hp : CleanRelative p) :
    ∀ d ∈ findSelector c p isDir, underReserved d = false := by
  intro d hd
  unfold findSelector at hd
  split at hd
  · rename_i hcond
    simp only [List.nil_append, List.mem_singleton] at hd
    subst hd
    have hnot : isUserDefinedInternalGenerator p = false := by
      simp only [Bool.and_eq_true, Bool.not_eq_true'] at hcond
      exact hcond.2
    rcases cleanRelative_split p hp with h1 | ⟨d, b, rfl, hdc, hb⟩
    · rw [filepathDir_single p h1]; decide
    · rw [filepathDir_join d b hdc hb]
      cases hu : underReserved d with
      | false => rfl
      | true =>
        have := hasPrefix_append (d ++ "/") b "generator/generator/" hu
        unfold isUserDefinedInternalGenerator at hnot
        rw [this] at hnot
        cases hnot
  · cases hd

end Selector

/-! ## Invariants of the loop over the candidates -/

section Invariants

variable {Reg : Type}

theorem branchGenerate_eq (c : Collab Reg) (i k : String) (v : LoadVars Reg) :
    branchGenerate c i k v =
      if pathJoin ["bud", "internal", k] ∈ v.claimed then v
      else registerEntry c i (pathJoin ["bud", "internal", k])
        (pathJoin ["bud", "internal", k]) false v := by
  by_cases h : pathJoin ["bud", "internal", k] ∈ v.claimed <;>
    simp [branchGenerate, registerEntry, h]

theorem branchServe_eq (c : Collab Reg) (i k : String) (v : LoadVars Reg) :
    branchServe c i k v =
      if pathJoin ["bud", "internal", k] ∈ v.claimed then v
      else registerEntry c i (pathJoin ["bud", "internal", k])
        (pathJoin ["bud", "internal", k]) true v := by
  by_cases h : pathJoin ["bud", "internal", k] ∈ v.claimed <;>
    simp [branchServe, registerEntry, h]

theorem branchGenerateCmd_eq (c : Collab Reg) (i k : String) (v : LoadVars Reg) :
    branchGenerateCmd c i k v =
      if pathJoin ["bud", "cmd", k] ∈ v.claimed then v
      else registerEntry c i (pathJoin ["bud", "cmd", k]) i false v := by
  by_cases h : pathJoin ["bud", "cmd", k] ∈ v.claimed <;>
    simp [branchGenerateCmd, registerEntry, h]

theorem branchGeneratePkg_eq (c : Collab Reg) (i k : String) (v : LoadVars Reg) :
    branchGeneratePkg c i k v =
      if pathJoin ["bud", "pkg", k] ∈ v.claimed then v
      else registerEntry c i (pathJoin ["bud", "pkg", k]) i false v := by
  by_cases h : pathJoin ["bud", "pkg", k] ∈ v.claimed <;>
    simp [branchGeneratePkg, registerEntry, h]

/-- A property kept by every registration whose output path is unclaimed is
kept by the four capability branches. -/
theorem loadCapabilities_preserves (P : LoadVars Reg → Prop) (c : Collab Reg)
    (hR : ∀ i p q b v, p ∉ v.claimed → P v → P (registerEntry c i p q b v))
    (g : Struct) (i k : String) (v : LoadVars Reg) (h : P v) :
    P (afterGenerate c g i k v) ∧ P (afterServe c g i k v) ∧
      P (afterGenerateCmd c g i k v) ∧ P (loadCapabilities c g i k v) := by
  have h1 : P (afterGenerate c g i k v) := by
    unfold afterGenerate
    rw [branchGenerate_eq]
    split
    · split
      · exact h
      · exact hR _ _ _ _ _ (by assumption) h
    · exact h
  have h2 : P (afterServe c g i k v) := by
    unfold afterServe
    dsimp only
    rw [branchServe_eq]
    split
    · split
      · exact h1
      · exact hR _ _ _ _ _ (by assumption) h1
    · exact h1
  have h3 : P (afterGenerateCmd c g i k v) := by
    unfold afterGenerateCmd
    dsimp only
    rw [branchGenerateCmd_eq]
    split
    · split
      · exact h2
      · exact hR _ _ _ _ _ (by assumption) h2
    · exact h2
  have h4 : P (loadCapabilities c g i k v) := by
    unfold loadCapabilities
    dsimp only
    rw [branchGeneratePkg_eq]
    split
    · split
      · exact h3
      · exact hR _ _ _ _ _ (by assumption) h3
    · exact h3
  exact ⟨h1, h2, h3, h4⟩

theorem loadGeneratorDir_skip (c : Collab Reg) (v : LoadVars Reg) (d : String)
    (h : v.claimed.contains (c.moduleImport d) = true) :
    loadGeneratorDir c v d = .ok v := by
  simp only [loadGeneratorDir, h, if_true]

theorem loadGeneratorDir_error (c : Collab Reg) (v : LoadVars Reg) (d : String) (err : GoError)
    (h : v.claimed.contains (c.moduleImport d) = false) (hp : c.parserParse d = .error err) :
    loadGeneratorDir c v d = .error err := by
  simp only [loadGeneratorDir, h, hp, Bool.false_eq_true, if_false]

theorem loadGeneratorDir_none (c : Collab Reg) (v : LoadVars Reg) (d : String) (pkg : Package)
    (h : v.claimed.contains (c.moduleImport d) = false) (hp : c.parserParse d = .ok pkg)
    (hg : pkg.Struct "Generator" = none) :
    loadGeneratorDir c v d = .ok v := by
  simp only [loadGeneratorDir, h, hp, hg, Bool.false_eq_true, if_false]

theorem loadGeneratorDir_some (c : Collab Reg) (v : LoadVars Reg) (d : String) (pkg : Package)
    (g : Struct)
    (h : v.claimed.contains (c.moduleImport d) = false) (hp : c.parserParse d = .ok pkg)
    (hg : pkg.Struct "Generator" = some g) :
    loadGeneratorDir c v d
      = .ok (loadCapabilities c g (c.moduleImport d) (generatorKey d) v) := by
  simp only [loadGeneratorDir, h, hp, hg, Bool.false_eq_true, if_false]

/-- The outcomes of one round: the variables are unchanged, or the parse
failed, or the capability branches ran. -/
theorem loadGeneratorDir_cases (c : Collab Reg) (v : LoadVars Reg) (d : String) :
    loadGeneratorDir c v d = .ok v ∨
    (∃ err, v.claimed.contains (c.moduleImport d) = false ∧ c.parserParse d = .error err ∧
      loadGeneratorDir c v d = .error err) ∨
    (∃ pkg g, v.claimed.contains (c.moduleImport d) = false ∧ c.parserParse d = .ok pkg ∧
      pkg.Struct "Generator" = some g ∧
      loadGeneratorDir c v d
        = .ok (loadCapabilities c g (c.moduleImport d) (generatorKey d) v)) := by
  cases h : v.claimed.contains (c.moduleImport d) with
  | true => exact Or.inl (loadGeneratorDir_skip c v d h)
  | false =>
    cases hp : c.parserParse d with
    | error err => exact Or.inr (Or.inl ⟨err, rfl, rfl, loadGeneratorDir_error c v d err h hp⟩)
    | ok pkg =>
      cases hg : pkg.Struct "Generator" with
      | none => exact Or.inl (loadGeneratorDir_none c v d pkg h hp hg)
      | some g =>
        exact Or.inr (Or.inr ⟨pkg, g, rfl, rfl, hg, loadGeneratorDir_some c v d pkg g h hp hg⟩)

theorem loadGeneratorDir_preserves (P : LoadVars Reg → Prop) (c : Collab Reg)
    (hR : ∀ i p q b v, p ∉ v.claimed → P v → P (registerEntry c i p q b v))
    (d : String) (v v' : LoadVars Reg) (h : P v) (hv : loadGeneratorDir c v d = .ok v') :
    P v' := by
  rcases loadGeneratorDir_cases c v d with h1 | ⟨err, _, _, h1⟩ | ⟨pkg, g, _, _, _, h1⟩
  · rw [h1] at hv; cases hv; exact h
  · rw [h1] at hv; cases hv
  · rw [h1] at hv; cases hv
    exact (loadCapabilities_preserves P c hR _ _ _ _ h).2.2.2

theorem loadGeneratorDirs_preserves (P : LoadVars Reg → Prop) (c : Collab Reg)
    (hR : ∀ i p q b v, p ∉ v.claimed → P v → P (registerEntry c i p q b v))
    (dirs : List String) (v : LoadVars Reg) (h : P v) :
    P (loadGeneratorDirs c v dirs).1 := by
  induction dirs generalizing v with
  | nil => exact h
  | cons d rest ih =>
    unfold loadGeneratorDirs
    cases hd : loadGeneratorDir c v d with
    | error err => exact h
    | ok v' => exact ih v' (loadGeneratorDir_preserves P c hR d v v' h hd)

/-- What a successful `load` is made of: the directories found and the
variables at the end of the loop over them. -/
theorem load_ok (c : Collab Reg) (imports : Reg) (s : State)
    (h : (load c imports).1 = .ok s) :
    ∃ dirs v, c.finderFind findPattern (findSelector c) = .ok dirs ∧
      loadGeneratorDirs c (loadCore c imports) dirs = (v, none) ∧
      s = { v.state with Imports := c.importsList (closeImports c v.imports) } := by
  cases hf : c.finderFind findPattern (findSelector c) with
  | error err => simp [load, hf] at h
  | ok dirs =>
    rcases hl : loadGeneratorDirs c (loadCore c imports) dirs with ⟨v, _ | err⟩
    · simp only [load, hf, hl] at h
      exact ⟨dirs, v, rfl, hl ▸ rfl, by cases h; rfl⟩
    · simp [load, hf, hl] at h

theorem coreKept_loadCore (c : Collab Reg) (imports : Reg) :
    CoreKept c imports (loadCore c imports) := by
  refine ⟨rfl, rfl, ?_, ?_⟩
  · intro p hp
    have : (loadCore c imports).claimed = corePaths.reverse := rfl
    rw [this]; exact List.mem_reverse.mpr hp
  · intro e he
    have : (loadCore c imports).state.GenerateDirs ++ (loadCore c imports).state.ServeFiles
        = [] := rfl
    rw [this] at he; cases he

theorem coreKept_loadGeneratorDirs (c : Collab Reg) (imports : Reg) (dirs : List String) :
    CoreKept c imports (loadGeneratorDirs c (loadCore c imports) dirs).1 := by
  apply loadGeneratorDirs_preserves (CoreKept c imports) c
  · intro i p q b v hp h
    obtain ⟨h1, h2, h3, h4⟩ := h
    have hpc : p ∉ corePaths := fun hin => hp (h3 p hin)
    cases b
    · refine ⟨h1, h2, fun p hp => List.mem_cons_of_mem _ (h3 p hp), ?_⟩
      intro e he
      simp only [registerEntry, Bool.false_eq_true, if_false, List.append_assoc,
        List.mem_append, List.mem_singleton] at he
      rcases he with he | he | he
      · exact h4 e (List.mem_append_left _ he)
      · subst he; exact hpc
      · exact h4 e (List.mem_append_right _ he)
    · refine ⟨h1, h2, fun p hp => List.mem_cons_of_mem _ (h3 p hp), ?_⟩
      intro e he
      simp only [registerEntry, if_true, ← List.append_assoc,
        List.mem_append, List.mem_singleton] at he
      rcases he with (he | he) | he
      · exact h4 e (List.mem_append_left _ he)
      · exact h4 e (List.mem_append_right _ he)
      · subst he; exact hpc
  · exact coreKept_loadCore c imports

/-- The manifest of a successful `load`: its built-in lists are the tables and
no entry of its discovery lists has a built-in path. -/
theorem load_ok_core (c : Collab Reg) (imports : Reg) (s : State)
    (h : (load c imports).1 = .ok s) :
    entryKeys s.FileGenerators = tableKeys coreFileGenerators ∧
    entryKeys s.FileServers = tableKeys coreFileServers ∧
    ∀ e ∈ s.GenerateDirs ++ s.ServeFiles, e.Path ∉ corePaths := by
  obtain ⟨dirs, v, _, hl, hs⟩ := load_ok c imports s h
  have hk := coreKept_loadGeneratorDirs c imports dirs
  rw [hl] at hk
  obtain ⟨h1, h2, _, h4⟩ := hk
  subst hs
  refine ⟨?_, ?_, h4⟩
  · show entryKeys v.state.FileGenerators = _
    rw [h1]; rfl
  · show entryKeys v.state.FileServers = _
    rw [h2]; rfl

end Invariants

/-! ## The capability branches on clean keys -/

section Stages

variable {Reg : Type}

theorem pathJoin_internal (k : String) (hk : CleanRelative k) :
    pathJoin ["bud", "internal", k] = "bud/internal/" ++ k := by
  rw [pathJoin_bud "internal" k (by decide) hk]
  apply String.ext
  simp only [String.data_append]
  rfl

theorem pathJoin_cmd (k : String) (hk : CleanRelative k) :
    pathJoin ["bud", "cmd", k] = "bud/cmd/" ++ k := by
  rw [pathJoin_bud "cmd" k (by decide) hk]
  apply String.ext
  simp only [String.data_append]
  rfl

theorem pathJoin_pkg (k : String) (hk : CleanRelative k) :
    pathJoin ["bud", "pkg", k] = "bud/pkg/" ++ k := by
  rw [pathJoin_bud "pkg" k (by decide) hk]
  apply String.ext
  simp only [String.data_append]
  rfl

theorem internal_ne_cmd (k : String) : "bud/internal/" ++ k ≠ "bud/cmd/" ++ k := by
  intro h
  have := congrArg String.data h
  simp [String.data_append] at this

theorem internal_ne_pkg (k : String) : "bud/internal/" ++ k ≠ "bud/pkg/" ++ k := by
  intro h
  have := congrArg String.data h
  simp [String.data_append] at this

theorem cmd_ne_pkg (k : String) : "bud/cmd/" ++ k ≠ "bud/pkg/" ++ k := by
  intro h
  have := congrArg String.data h
  simp [String.data_append] at this

theorem afterGenerate_eq (c : Collab Reg) (g : Struct) (i k : String) (v : LoadVars Reg) :
    afterGenerate c g i k v =
      if (g.Method "Generate").isSome ∧ pathJoin ["bud", "internal", k] ∉ v.claimed then
        registerEntry c i (pathJoin ["bud", "internal", k]) (pathJoin ["bud", "internal", k])
          false v
      else v := by
  unfold afterGenerate
  rw [branchGenerate_eq]
  by_cases h1 : (g.Method "Generate").isSome = true <;>
    by_cases h2 : pathJoin ["bud", "internal", k] ∈ v.claimed <;> simp [h1, h2]

theorem afterServe_eq (c : Collab Reg) (g : Struct) (i k : String) (v : LoadVars Reg) :
    afterServe c g i k v =
      if (g.Method "Serve").isSome ∧
          pathJoin ["bud", "internal", k] ∉ (afterGenerate c g i k v).claimed then
        registerEntry c i (pathJoin ["bud", "internal", k]) (pathJoin ["bud", "internal", k])
          true (afterGenerate c g i k v)
      else afterGenerate c g i k v := by
  unfold afterServe
  dsimp only
  rw [branchServe_eq]
  by_cases h1 : (g.Method "Serve").isSome = true <;>
    by_cases h2 : pathJoin ["bud", "internal", k] ∈ (afterGenerate c g i k v).claimed <;>
      simp [h1, h2]

theorem afterGenerateCmd_eq (c : Collab Reg) (g : Struct) (i k : String) (v : LoadVars Reg) :
    afterGenerateCmd c g i k v =
      if (g.Method "GenerateCmd").isSome ∧
          pathJoin ["bud", "cmd", k] ∉ (afterServe c g i k v).claimed then
        registerEntry c i (pathJoin ["bud", "cmd", k]) i false (afterServe c g i k v)
      else afterServe c g i k v := by
  unfold afterGenerateCmd
  dsimp only
  rw [branchGenerateCmd_eq]
  by_cases h1 : (g.Method "GenerateCmd").isSome = true <;>
    by_cases h2 : pathJoin ["bud", "cmd", k] ∈ (afterServe c g i k v).claimed <;>
      simp [h1, h2]

theorem loadCapabilities_eq (c : Collab Reg) (g : Struct) (i k : String) (v : LoadVars Reg) :
    loadCapabilities c g i k v =
      if (g.Method "GeneratePkg").isSome ∧
          pathJoin ["bud", "pkg", k] ∉ (afterGenerateCmd c g i k v).claimed then
        registerEntry c i (pathJoin ["bud", "pkg", k]) i false (afterGenerateCmd c g i k v)
      else afterGenerateCmd c g i k v := by
  unfold loadCapabilities
  dsimp only
  rw [branchGeneratePkg_eq]
  by_cases h1 : (g.Method "GeneratePkg").isSome = true <;>
    by_cases h2 : pathJoin ["bud", "pkg", k] ∈ (afterGenerateCmd c g i k v).claimed <;>
      simp [h1, h2]

theorem extends_refl (v : LoadVars Reg) : Extends v v :=
  ⟨rfl, rfl, List.prefix_refl _, List.prefix_refl _, List.Subset.refl _⟩

theorem extends_registerEntry (c : Collab Reg) (v : LoadVars Reg) (i p q : String) (b : Bool)
    (w : LoadVars Reg) (h : Extends v w) : Extends v (registerEntry c i p q b w) := by
  obtain ⟨h1, h2, h3, h4, h5⟩ := h
  cases b
  · exact ⟨h1, h2, h3.trans (List.prefix_append _ _), h4,
      fun x hx => List.mem_cons_of_mem _ (h5 hx)⟩
  · exact ⟨h1, h2, h3, h4.trans (List.prefix_append _ _),
      fun x hx => List.mem_cons_of_mem _ (h5 hx)⟩

theorem extends_stages (c : Collab Reg) (g : Struct) (i k : String) (v w : LoadVars Reg)
    (h : Extends v w) :
    Extends v (afterGenerate c g i k w) ∧ Extends v (afterServe c g i k w) ∧
      Extends v (afterGenerateCmd c g i k w) ∧ Extends v (loadCapabilities c g i k w) :=
  loadCapabilities_preserves (Extends v) c
    (fun i p q b w _ hw => extends_registerEntry c v i p q b w hw) g i k w h

/-- The lists of a round only grow from one branch to the next. -/
theorem stage_lists (c : Collab Reg) (g : Struct) (i k : String) (v : LoadVars Reg) :
    (afterGenerate c g i k v).state.GenerateDirs
      <+: (afterServe c g i k v).state.GenerateDirs ∧
    (afterServe c g i k v).state.GenerateDirs
      <+: (afterGenerateCmd c g i k v).state.GenerateDirs ∧
    (afterGenerateCmd c g i k v).state.GenerateDirs
      <+: (loadCapabilities c g i k v).state.GenerateDirs ∧
    (afterGenerateCmd c g i k v).state.ServeFiles = (afterServe c g i k v).state.ServeFiles ∧
    (loadCapabilities c g i k v).state.ServeFiles = (afterServe c g i k v).state.ServeFiles := by
  have h3 : (afterGenerateCmd c g i k v).state.ServeFiles
      = (afterServe c g i k v).state.ServeFiles := by
    rw [afterGenerateCmd_eq]; split <;> simp [registerEntry]
  refine ⟨?_, ?_, ?_, h3, ?_⟩
  · rw [afterServe_eq]; split <;> simp [registerEntry]
  · rw [afterGenerateCmd_eq]; split <;> simp [registerEntry]
  · rw [loadCapabilities_eq]; split <;> simp [registerEntry]
  · rw [← h3, loadCapabilities_eq]; split <;> simp [registerEntry]

end Stages

/-! ## The loop over the candidates and its errors -/

section Loop

variable {Reg : Type}

theorem loadGeneratorDirs_append (c : Collab Reg) (v : LoadVars Reg) (pre post : List String) :
    loadGeneratorDirs c v (pre ++ post) =
      match loadGeneratorDirs c v pre with
      | (w, some err) => (w, some err)
      | (w, none) => loadGeneratorDirs c w post := by
  induction pre generalizing v with
  | nil => rfl
  | cons d rest ih =>
    simp only [List.cons_append, loadGeneratorDirs]
    cases loadGeneratorDir c v d with
    | error err => rfl
    | ok v' => exact ih v'

/-- The loop returns an error exactly when it reaches, with every earlier
round completed, a directory whose import path is unclaimed and whose parse
fails; the error is the parser's. -/
theorem loadGeneratorDirs_error_iff (c : Collab Reg) (v w : LoadVars Reg) (dirs : List String)
    (err : GoError) :
    loadGeneratorDirs c v dirs = (w, some err) ↔
      ∃ pre d post, dirs = pre ++ d :: post ∧ loadGeneratorDirs c v pre = (w, none) ∧
        w.claimed.contains (c.moduleImport d) = false ∧ c.parserParse d = .error err := by
  induction dirs generalizing v with
  | nil =>
    constructor
    · intro h; simp [loadGeneratorDirs] at h
    · rintro ⟨pre, d, post, h, _⟩; simp at h
  | cons x rest ih =>
    constructor
    · intro h
      rcases loadGeneratorDir_cases c v x with h1 | ⟨e, hc, hp, h1⟩ | ⟨pkg, g, _, _, _, h1⟩
      · simp only [loadGeneratorDirs, h1] at h
        obtain ⟨pre, d, post, hd, hl, hc, hp⟩ := (ih v).mp h
        refine ⟨x :: pre, d, post, by rw [hd]; rfl, ?_, hc, hp⟩
        simp only [loadGeneratorDirs, h1]; exact hl
      · simp only [loadGeneratorDirs, h1, Prod.mk.injEq, Option.some.injEq] at h
        obtain ⟨rfl, rfl⟩ := h
        exact ⟨[], x, rest, rfl, rfl, hc, hp⟩
      · simp only [loadGeneratorDirs, h1] at h
        obtain ⟨pre, d, post, hd, hl, hc, hp⟩ := (ih _).mp h
        refine ⟨x :: pre, d, post, by rw [hd]; rfl, ?_, hc, hp⟩
        simp only [loadGeneratorDirs, h1]; exact hl
    · rintro ⟨pre, d, post, hd, hl, hc, hp⟩
      rw [hd, loadGeneratorDirs_append, hl]
      simp only [loadGeneratorDirs, loadGeneratorDir_error c w d err hc hp]

theorem loadGeneratorDirs_withFound (c : Collab Reg) (found : Except GoError (List String))
    (v : LoadVars Reg) (dirs : List String) :
    loadGeneratorDirs (withFound c found) v dirs = loadGeneratorDirs c v dirs := by
  induction dirs generalizing v with
  | nil => rfl
  | cons d rest ih =>
    have h : loadGeneratorDir (withFound c found) v d = loadGeneratorDir c v d := rfl
    simp only [loadGeneratorDirs, h]
    cases loadGeneratorDir c v d with
    | error err => rfl
    | ok v' => exact ih v'

/-- With a finder that returns `dirs`, `load` is the loop over `dirs` after
the built-in loops. -/
theorem load_withFound (c : Collab Reg) (imports : Reg) (dirs : List String) :
    load (withFound c (.ok dirs)) imports =
      match loadGeneratorDirs c (loadCore c imports) dirs with
      | (v, some err) => (.error err, v.imports)
      | (v, none) =>
        (.ok { v.state with Imports := c.importsList (closeImports c v.imports) },
          closeImports c v.imports) := by
  have h : loadCore (withFound c (.ok dirs)) imports = loadCore c imports := rfl
  unfold load
  simp only [withFound, ← h]
  rw [← loadGeneratorDirs_withFound c (.ok dirs)]
  rfl

end Loop

/-! ## The registrations and the lists of the manifest -/

section Trace

variable {Reg : Type}

/-- The outcomes of one round together with its registrations. -/
theorem round_cases (c : Collab Reg) (v : LoadVars Reg) (pos : Nat) (d : String) :
    (loadGeneratorDir c v d = .ok v ∧ dirTrace c v pos d = []) ∨
    (∃ err, loadGeneratorDir c v d = .error err ∧ dirTrace c v pos d = []) ∨
    (∃ pkg g, v.claimed.contains (c.moduleImport d) = false ∧ c.parserParse d = .ok pkg ∧
      pkg.Struct "Generator" = some g ∧
      loadGeneratorDir c v d
        = .ok (loadCapabilities c g (c.moduleImport d) (generatorKey d) v) ∧
      dirTrace c v pos d = roundTrace c g (c.moduleImport d) (generatorKey d) pos d v) := by
  cases h : v.claimed.contains (c.moduleImport d) with
  | true =>
    exact Or.inl ⟨loadGeneratorDir_skip c v d h, by simp only [dirTrace, h, if_true]⟩
  | false =>
    cases hp : c.parserParse d with
    | error err =>
      exact Or.inr (Or.inl ⟨err, loadGeneratorDir_error c v d err h hp, by
        simp only [dirTrace, h, hp, Bool.false_eq_true, if_false]⟩)
    | ok pkg =>
      cases hg : pkg.Struct "Generator" with
      | none =>
        exact Or.inl ⟨loadGeneratorDir_none c v d pkg h hp hg, by
          simp only [dirTrace, h, hp, hg, Bool.false_eq_true, if_false]⟩
      | some g =>
        exact Or.inr (Or.inr ⟨pkg, g, rfl, rfl, hg, loadGeneratorDir_some c v d pkg g h hp hg, by
          simp only [dirTrace, h, hp, hg, Bool.false_eq_true, if_false]⟩)

/-- The lists and the claimed set after the four branches, from the
registrations of the round. -/
theorem round_lists (c : Collab Reg) (g : Struct) (i k : String) (pos : Nat) (d : String)
    (v : LoadVars Reg) :
    (loadCapabilities c g i k v).state.GenerateDirs
      = v.state.GenerateDirs ++ generateDirsOf (roundTrace c g i k pos d v) ∧
    (loadCapabilities c g i k v).state.ServeFiles
      = v.state.ServeFiles ++ serveFilesOf (roundTrace c g i k pos d v) ∧
    (loadCapabilities c g i k v).state.FileGenerators = v.state.FileGenerators ∧
    (loadCapabilities c g i k v).state.FileServers = v.state.FileServers := by
  have e1 := afterGenerate_eq c g i k v
  have e2 := afterServe_eq c g i k v
  have e3 := afterGenerateCmd_eq c g i k v
  have e4 := loadCapabilities_eq c g i k v
  unfold roundTrace generateDirsOf serveFilesOf
  by_cases h1 : (g.Method "Generate").isSome = true ∧ pathJoin ["bud", "internal", k] ∉ v.claimed
  all_goals
    by_cases h2 : (g.Method "Serve").isSome = true ∧
      pathJoin ["bud", "internal", k] ∉ (afterGenerate c g i k v).claimed
  all_goals
    by_cases h3 : (g.Method "GenerateCmd").isSome = true ∧
      pathJoin ["bud", "cmd", k] ∉ (afterServe c g i k v).claimed
  all_goals
    by_cases h4 : (g.Method "GeneratePkg").isSome = true ∧
      pathJoin ["bud", "pkg", k] ∉ (afterGenerateCmd c g i k v).claimed
  all_goals
    simp only [h1, h2, h3, h4, if_true, if_false] at e1 e2 e3 e4 ⊢
    rw [e4, e3, e2, e1]
    simp [registerEntry]

theorem generateDirsOf_append (a b : List Registration) :
    generateDirsOf (a ++ b) = generateDirsOf a ++ generateDirsOf b := by
  simp [generateDirsOf]

theorem serveFilesOf_append (a b : List Registration) :
    serveFilesOf (a ++ b) = serveFilesOf a ++ serveFilesOf b := by
  simp [serveFilesOf]

theorem claimedPathsOf_append (a b : List Registration) :
    claimedPathsOf (a ++ b) = claimedPathsOf a ++ claimedPathsOf b := by
  simp [claimedPathsOf]

/-- The lists after a completed loop, from its registrations. -/
theorem loop_lists (c : Collab Reg) (dirs : List String) (v w : LoadVars Reg) (pos : Nat)
    (h : loadGeneratorDirs c v dirs = (w, none)) :
    w.state.GenerateDirs = v.state.GenerateDirs ++ generateDirsOf (loopTrace c v pos dirs) ∧
    w.state.ServeFiles = v.state.ServeFiles ++ serveFilesOf (loopTrace c v pos dirs) := by
  induction dirs generalizing v pos with
  | nil =>
    simp only [loadGeneratorDirs, Prod.mk.injEq, and_true] at h
    subst h
    simp [loopTrace, generateDirsOf, serveFilesOf]
  | cons d rest ih =>
    rcases round_cases c v pos d with ⟨h1, ht⟩ | ⟨err, h1, _⟩ | ⟨pkg, g, _, _, _, h1, ht⟩
    · simp only [loadGeneratorDirs, h1] at h
      have := ih v (pos + 1) h
      simp only [loopTrace, h1, ht, List.nil_append]
      exact this
    · simp only [loadGeneratorDirs, h1] at h
      cases h
    · simp only [loadGeneratorDirs, h1] at h
      obtain ⟨a1, a2⟩ := ih _ (pos + 1) h
      obtain ⟨b1, b2, _, _⟩ := round_lists c g (c.moduleImport d) (generatorKey d) pos d v
      simp only [loopTrace, h1, ht, generateDirsOf_append, serveFilesOf_append]
      rw [a1, a2, b1, b2]
      simp

/-- Every registration of a round carries the position and directory of the
round, the import path of the candidate and the output path of its branch, and
the registrations come in the order of the branches. -/
theorem roundTrace_spec (c : Collab Reg) (g : Struct) (i k : String) (pos : Nat) (d : String)
    (v : LoadVars Reg) :
    (∀ r ∈ roundTrace c g i k pos d v,
      r.pos = pos ∧ r.dir = d ∧ r.entry.Import.Path = i ∧ r.entry.Path = r.origin.path k ∧
      r.entry.Camel = c.gotextCamel r.entry.Import.Name ∧
      (g.Method r.origin.method).isSome) ∧
    (roundTrace c g i k pos d v).Pairwise (fun a b => a.origin.rank < b.origin.rank) := by
  unfold roundTrace
  by_cases h1 : (g.Method "Generate").isSome = true ∧ pathJoin ["bud", "internal", k] ∉ v.claimed
  all_goals
    by_cases h2 : (g.Method "Serve").isSome = true ∧
      pathJoin ["bud", "internal", k] ∉ (afterGenerate c g i k v).claimed
  all_goals
    by_cases h3 : (g.Method "GenerateCmd").isSome = true ∧
      pathJoin ["bud", "cmd", k] ∉ (afterServe c g i k v).claimed
  all_goals
    by_cases h4 : (g.Method "GeneratePkg").isSome = true ∧
      pathJoin ["bud", "pkg", k] ∉ (afterGenerateCmd c g i k v).claimed
  all_goals
    simp only [h1, h2, h3, h4, if_true, if_false]
    simp [mkCodeGenerator, Origin.path, Origin.rank, Origin.method, h1, h2, h3, h4]

theorem dirTrace_spec (c : Collab Reg) (v : LoadVars Reg) (pos : Nat) (d : String) :
    (∀ r ∈ dirTrace c v pos d,
      r.pos = pos ∧ r.dir = d ∧ r.entry.Import.Path = c.moduleImport d ∧
      r.entry.Path = r.origin.path (generatorKey d) ∧
      r.entry.Camel = c.gotextCamel r.entry.Import.Name ∧
      ∃ pkg g, c.parserParse d = .ok pkg ∧ pkg.Struct "Generator" = some g ∧
        (g.Method r.origin.method).isSome) ∧
    (dirTrace c v pos d).Pairwise Registration.before := by
  rcases round_cases c v pos d with ⟨_, ht⟩ | ⟨err, _, ht⟩ | ⟨pkg, g, _, hp, hg, _, ht⟩
  · rw [ht]; simp
  · rw [ht]; simp
  · rw [ht]
    obtain ⟨a, b⟩ := roundTrace_spec c g (c.moduleImport d) (generatorKey d) pos d v
    refine ⟨fun r hr => ?_, ?_⟩
    · obtain ⟨r1, r2, r3, r4, r5, r6⟩ := a r hr
      exact ⟨r1, r2, r3, r4, r5, pkg, g, hp, hg, r6⟩
    · refine List.Pairwise.imp_of_mem ?_ b
      intro x y hx hy hxy
      exact Or.inr ⟨by rw [(a x hx).1, (a y hy).1], hxy⟩

/-- The registrations of the loop are in scan order, then branch order, and
each carries the directory at its scan position. -/
theorem loopTrace_spec (c : Collab Reg) (dirs : List String) (v : LoadVars Reg) (pos : Nat) :
    (∀ r ∈ loopTrace c v pos dirs,
      pos ≤ r.pos ∧ dirs[r.pos - pos]? = some r.dir ∧
      r.entry.Import.Path = c.moduleImport r.dir ∧
      r.entry.Path = r.origin.path (generatorKey r.dir) ∧
      r.entry.Camel = c.gotextCamel r.entry.Import.Name ∧
      ∃ pkg g, c.parserParse r.dir = .ok pkg ∧ pkg.Struct "Generator" = some g ∧
        (g.Method r.origin.method).isSome) ∧
    (loopTrace c v pos dirs).Pairwise Registration.before := by
  induction dirs generalizing v pos with
  | nil => simp [loopTrace]
  | cons d rest ih =>
    unfold loopTrace
    cases h1 : loadGeneratorDir c v d with
    | error err => simp
    | ok v' =>
      simp only
      obtain ⟨a1, a2⟩ := dirTrace_spec c v pos d
      obtain ⟨b1, b2⟩ := ih v' (pos + 1)
      refine ⟨?_, ?_⟩
      · intro r hr
        rcases List.mem_append.mp hr with hr | hr
        · obtain ⟨r1, r2, r3, r4, r5, r6⟩ := a1 r hr
          refine ⟨by omega, ?_, by rw [r2]; exact r3, by rw [r2]; exact r4, r5,
            by rw [r2]; exact r6⟩
          rw [r1, r2]; simp
        · obtain ⟨r1, r2, r3, r4, r5, r6⟩ := b1 r hr
          refine ⟨by omega, ?_, r3, r4, r5, r6⟩
          have : r.pos - pos = (r.pos - (pos + 1)) + 1 := by omega
          rw [this, List.getElem?_cons_succ]
          exact r2
      · rw [List.pairwise_append]
        refine ⟨a2, b2, ?_⟩
        intro x hx y hy
        have := (a1 x hx).1
        have := (b1 y hy).1
        exact Or.inl (by omega)

theorem registerEntry_generate_state (c : Collab Reg) (i p q : String) (v : LoadVars Reg) :
    (registerEntry c i p q false v).state.GenerateDirs
      = v.state.GenerateDirs ++ [mkCodeGenerator c (c.importsAdd v.imports i).1 i p] ∧
    (registerEntry c i p q false v).state.ServeFiles = v.state.ServeFiles ∧
    (registerEntry c i p q false v).state.FileGenerators = v.state.FileGenerators ∧
    (registerEntry c i p q false v).state.FileServers = v.state.FileServers := by
  simp [registerEntry]

/-- The result of `load` when the finder and the loop succeed. -/
theorem load_of_loop (c : Collab Reg) (imports : Reg) (dirs : List String) (v : LoadVars Reg)
    (hf : c.finderFind findPattern (findSelector c) = .ok dirs)
    (hl : loadGeneratorDirs c (loadCore c imports) dirs = (v, none)) :
    load c imports
      = (.ok { v.state with Imports := c.importsList (closeImports c v.imports) },
          closeImports c v.imports) := by
  simp only [load, hf, hl]

/-- The result of `load` when the finder succeeds and the loop fails. -/
theorem load_of_loop_error (c : Collab Reg) (imports : Reg) (dirs : List String)
    (v : LoadVars Reg) (err : GoError)
    (hf : c.finderFind findPattern (findSelector c) = .ok dirs)
    (hl : loadGeneratorDirs c (loadCore c imports) dirs = (v, some err)) :
    load c imports = (.error err, v.imports) := by
  simp only [load, hf, hl]

end Trace

/-! ## Aliases of the entries -/

section Aliases

variable {Reg : Type}

theorem loadCoreFileGenerator_eq (c : Collab Reg) (v : LoadVars Reg) (g : coreGenerator) :
    loadCoreFileGenerator c v g =
      if g.Path ∈ v.claimed then v
      else
        { claimed := g.Path :: v.claimed, imports := (c.importsAdd v.imports g.Import).2,
          state := { v.state with
            FileGenerators := v.state.FileGenerators ++
              [mkCodeGenerator c (c.importsAdd v.imports g.Import).1 g.Import g.Path] } } := by
  by_cases h : g.Path ∈ v.claimed <;> simp [loadCoreFileGenerator, h]

theorem loadCoreFileServer_eq (c : Collab Reg) (v : LoadVars Reg) (g : coreGenerator) :
    loadCoreFileServer c v g =
      if g.Path ∈ v.claimed then v
      else
        { claimed := g.Path :: v.claimed, imports := (c.importsAdd v.imports g.Import).2,
          state := { v.state with
            FileServers := v.state.FileServers ++
              [mkCodeGenerator c (c.importsAdd v.imports g.Import).1 g.Import g.Path] } } := by
  by_cases h : g.Path ∈ v.claimed <;> simp [loadCoreFileServer, h]

theorem foldl_preserves {α β : Type} (P : α → Prop) (f : α → β → α) (l : List β) (a : α)
    (hf : ∀ a b, P a → P (f a b)) (ha : P a) : P (l.foldl f a) := by
  induction l generalizing a with
  | nil => exact ha
  | cons b rest ih => exact ih _ (hf a b ha)

/-- A property kept by the rounds of the two built-in loops holds after them. -/
theorem loadCore_preserves (P : LoadVars Reg → Prop) (c : Collab Reg) (imports : Reg)
    (hG : ∀ v g, P v → P (loadCoreFileGenerator c v g))
    (hS : ∀ v g, P v → P (loadCoreFileServer c v g))
    (h0 : P { claimed := [], imports := imports, state := {} }) :
    P (loadCore c imports) :=
  foldl_preserves P _ _ _ hS (foldl_preserves P _ _ _ hG h0)

theorem aliased_step (c : Collab Reg) (aliasOf : Reg → String → Option String)
    (valid : Reg → Prop) (hc : AliasContract c aliasOf valid)
    (v : LoadVars Reg) (i p : String) (st : State) (h : Aliased c aliasOf v)
    (hst : ∀ e ∈ st.entries, e ∈ v.state.entries ∨
      e = mkCodeGenerator c (c.importsAdd v.imports i).1 i p) (claimed : List String) :
    Aliased c aliasOf
      { claimed := claimed, imports := (c.importsAdd v.imports i).2, state := st } := by
  intro e he
  rcases hst e he with h1 | h1
  · obtain ⟨a, b⟩ := h e h1
    exact ⟨hc.add_keep _ _ _ _ a, b⟩
  · subst h1
    exact ⟨hc.add_get _ _, rfl⟩

theorem aliased_loadCore (c : Collab Reg) (aliasOf : Reg → String → Option String)
    (valid : Reg → Prop) (hc : AliasContract c aliasOf valid) (imports : Reg) :
    Aliased c aliasOf (loadCore c imports) := by
  apply loadCore_preserves
  · intro v g h
    rw [loadCoreFileGenerator_eq]
    split
    · exact h
    · apply aliased_step c aliasOf valid hc v _ _ _ h
      intro e he
      simp only [State.entries, List.mem_append, List.mem_singleton] at he ⊢
      tauto
  · intro v g h
    rw [loadCoreFileServer_eq]
    split
    · exact h
    · apply aliased_step c aliasOf valid hc v _ _ _ h
      intro e he
      simp only [State.entries, List.mem_append, List.mem_singleton] at he ⊢
      tauto
  · intro e he
    simp [State.entries] at he

theorem aliased_registerEntry (c : Collab Reg) (aliasOf : Reg → String → Option String)
    (valid : Reg → Prop) (hc : AliasContract c aliasOf valid)
    (i p q : String) (b : Bool) (v : LoadVars Reg) (h : Aliased c aliasOf v) :
    Aliased c aliasOf (registerEntry c i p q b v) := by
  unfold registerEntry
  apply aliased_step c aliasOf valid hc v _ _ _ h
  intro e he
  cases b
  · simp only [Bool.false_eq_true, if_false, State.entries, List.mem_append,
      List.mem_singleton] at he ⊢
    tauto
  · simp only [if_true, State.entries, List.mem_append, List.mem_singleton] at he ⊢
    tauto

/-- After the loop every entry has the alias recorded for its import path. -/
theorem aliased_loop (c : Collab Reg) (aliasOf : Reg → String → Option String)
    (valid : Reg → Prop) (hc : AliasContract c aliasOf valid) (imports : Reg)
    (dirs : List String) :
    Aliased c aliasOf (loadGeneratorDirs c (loadCore c imports) dirs).1 :=
  loadGeneratorDirs_preserves (Aliased c aliasOf) c
    (fun i p q b v _ h => aliased_registerEntry c aliasOf valid hc i p q b v h) dirs _
    (aliased_loadCore c aliasOf valid hc imports)

/-- The import set stays valid through the built-in loops and the loop over
the candidates. -/
theorem valid_loop (c : Collab Reg) (aliasOf : Reg → String → Option String)
    (valid : Reg → Prop) (hc : AliasContract c aliasOf valid) (imports : Reg)
    (hv : valid imports) (dirs : List String) :
    valid (loadGeneratorDirs c (loadCore c imports) dirs).1.imports := by
  refine loadGeneratorDirs_preserves (fun v => valid v.imports) c
    (fun i p q b v _ h => hc.add_valid _ _ h) dirs _ ?_
  apply loadCore_preserves (fun v => valid v.imports)
  · intro v g h
    rw [loadCoreFileGenerator_eq]
    split
    · exact h
    · exact hc.add_valid _ _ h
  · intro v g h
    rw [loadCoreFileServer_eq]
    split
    · exact h
    · exact hc.add_valid _ _ h
  · exact hv

end Aliases

/-! ## A second load on the import set of the first -/

section Replay

variable {Reg : Type}

theorem knows_refl (aliasOf : Reg → String → Option String) (r : Reg) : Knows aliasOf r r :=
  fun _ _ h => h

theorem knows_trans (aliasOf : Reg → String → Option String) (a b c : Reg)
    (h1 : Knows aliasOf a b) (h2 : Knows aliasOf b c) : Knows aliasOf a c :=
  fun q x h => h1 q x (h2 q x h)

theorem replayable_id (aliasOf : Reg → String → Option String) :
    Replayable aliasOf (fun v : LoadVars Reg => v) :=
  ⟨fun _ => knows_refl aliasOf _, fun _ _ _ => rfl⟩

theorem replayable_comp (aliasOf : Reg → String → Option String)
    (f g : LoadVars Reg → LoadVars Reg) (hf : Replayable aliasOf f) (hg : Replayable aliasOf g) :
    Replayable aliasOf (fun v => g (f v)) := by
  refine ⟨fun v => knows_trans aliasOf _ _ _ (hg.1 (f v)) (hf.1 v), ?_⟩
  intro r v hk
  show g (f (withImports v r)) = withImports (g (f v)) r
  rw [hf.2 r v (knows_trans aliasOf _ _ _ hk (hg.1 (f v))), hg.2 r (f v) hk]

/-- A step guarded by a test of the claimed set. -/
theorem replayable_guard (aliasOf : Reg → String → Option String)
    (f : LoadVars Reg → LoadVars Reg) (hf : Replayable aliasOf f) (p : String) :
    Replayable aliasOf (fun v => if p ∈ v.claimed then v else f v) := by
  refine ⟨?_, ?_⟩
  · intro v
    show Knows aliasOf (if p ∈ v.claimed then v else f v).imports v.imports
    split
    · exact knows_refl aliasOf _
    · exact hf.1 v
  · intro r v hk
    show (if p ∈ (withImports v r).claimed then withImports v r else f (withImports v r))
      = withImports (if p ∈ v.claimed then v else f v) r
    have hcl : (withImports v r).claimed = v.claimed := rfl
    rw [hcl]
    by_cases h : p ∈ v.claimed
    · simp only [h, if_true]
    · simp only [h, if_false] at hk ⊢
      exact hf.2 r v hk

/-- A step taken or not according to a fixed condition. -/
theorem replayable_cond (aliasOf : Reg → String → Option String)
    (f : LoadVars Reg → LoadVars Reg) (hf : Replayable aliasOf f) (b : Bool) :
    Replayable aliasOf (fun v => if b = true then f v else v) := by
  cases b
  · simpa using replayable_id aliasOf
  · simpa using hf

theorem replayable_registerEntry (c : Collab Reg) (aliasOf : Reg → String → Option String)
    (hc : SetContract c aliasOf) (i p q : String) (b : Bool) :
    Replayable aliasOf (registerEntry c i p q b) := by
  refine ⟨fun v x a h => hc.add_keep _ _ _ _ h, ?_⟩
  intro r v hk
  have hknown : aliasOf r i = some (c.importsAdd v.imports i).1 := hk _ _ (hc.add_get _ _)
  have hadd : c.importsAdd r i = ((c.importsAdd v.imports i).1, r) := hc.add_known _ _ _ hknown
  simp only [registerEntry, withImports, hadd]

theorem replayable_branches (c : Collab Reg) (aliasOf : Reg → String → Option String)
    (hc : SetContract c aliasOf) (i k : String) :
    Replayable aliasOf (branchGenerate c i k) ∧ Replayable aliasOf (branchServe c i k) ∧
    Replayable aliasOf (branchGenerateCmd c i k) ∧
    Replayable aliasOf (branchGeneratePkg c i k) := by
  refine ⟨?_, ?_, ?_, ?_⟩
  · have := replayable_guard aliasOf _ (replayable_registerEntry c aliasOf hc i
      (pathJoin ["bud", "internal", k]) (pathJoin ["bud", "internal", k]) false)
      (pathJoin ["bud", "internal", k])
    have he : branchGenerate c i k = _ := funext (branchGenerate_eq c i k)
    rw [he]; exact this
  · have := replayable_guard aliasOf _ (replayable_registerEntry c aliasOf hc i
      (pathJoin ["bud", "internal", k]) (pathJoin ["bud", "internal", k]) true)
      (pathJoin ["bud", "internal", k])
    have he : branchServe c i k = _ := funext (branchServe_eq c i k)
    rw [he]; exact this
  · have := replayable_guard aliasOf _ (replayable_registerEntry c aliasOf hc i
      (pathJoin ["bud", "cmd", k]) i false) (pathJoin ["bud", "cmd", k])
    have he : branchGenerateCmd c i k = _ := funext (branchGenerateCmd_eq c i k)
    rw [he]; exact this
  · have := replayable_guard aliasOf _ (replayable_registerEntry c aliasOf hc i
      (pathJoin ["bud", "pkg", k]) i false) (pathJoin ["bud", "pkg", k])
    have he : branchGeneratePkg c i k = _ := funext (branchGeneratePkg_eq c i k)
    rw [he]; exact this

theorem replayable_loadCapabilities (c : Collab Reg) (aliasOf : Reg → String → Option String)
    (hc : SetContract c aliasOf) (g : Struct) (i k : String) :
    Replayable aliasOf (loadCapabilities c g i k) := by
  obtain ⟨b1, b2, b3, b4⟩ := replayable_branches c aliasOf hc i k
  have s1 : Replayable aliasOf (afterGenerate c g i k) :=
    replayable_cond aliasOf _ b1 _
  have s2 : Replayable aliasOf (afterServe c g i k) :=
    replayable_comp aliasOf (afterGenerate c g i k)
      (fun v => if (g.Method "Serve").isSome = true then branchServe c i k v else v)
      s1 (replayable_cond aliasOf _ b2 _)
  have s3 : Replayable aliasOf (afterGenerateCmd c g i k) :=
    replayable_comp aliasOf (afterServe c g i k)
      (fun v => if (g.Method "GenerateCmd").isSome = true then branchGenerateCmd c i k v else v)
      s2 (replayable_cond aliasOf _ b3 _)
  exact replayable_comp aliasOf (afterGenerateCmd c g i k)
    (fun v => if (g.Method "GeneratePkg").isSome = true then branchGeneratePkg c i k v else v)
    s3 (replayable_cond aliasOf _ b4 _)

theorem replayable_coreSteps (c : Collab Reg) (aliasOf : Reg → String → Option String)
    (hc : SetContract c aliasOf) (g : coreGenerator) :
    Replayable aliasOf (fun v => loadCoreFileGenerator c v g) ∧
    Replayable aliasOf (fun v => loadCoreFileServer c v g) := by
  constructor
  · have he : (fun v => loadCoreFileGenerator c v g) = _ :=
      funext (fun v => loadCoreFileGenerator_eq c v g)
    rw [he]
    apply replayable_guard
    refine ⟨fun v x a h => hc.add_keep _ _ _ _ h, ?_⟩
    intro r v hk
    have hknown : aliasOf r g.Import = some (c.importsAdd v.imports g.Import).1 :=
      hk _ _ (hc.add_get _ _)
    have hadd := hc.add_known _ _ _ hknown
    simp only [withImports, hadd]
  · have he : (fun v => loadCoreFileServer c v g) = _ :=
      funext (fun v => loadCoreFileServer_eq c v g)
    rw [he]
    apply replayable_guard
    refine ⟨fun v x a h => hc.add_keep _ _ _ _ h, ?_⟩
    intro r v hk
    have hknown : aliasOf r g.Import = some (c.importsAdd v.imports g.Import).1 :=
      hk _ _ (hc.add_get _ _)
    have hadd := hc.add_known _ _ _ hknown
    simp only [withImports, hadd]

theorem replayable_foldl (aliasOf : Reg → String → Option String)
    (f : LoadVars Reg → coreGenerator → LoadVars Reg) (l : List coreGenerator)
    (hf : ∀ g, Replayable aliasOf (fun v => f v g)) :
    Replayable aliasOf (fun v => l.foldl f v) := by
  induction l with
  | nil => exact replayable_id aliasOf
  | cons g rest ih =>
    exact replayable_comp aliasOf (fun v => f v g) (fun v => rest.foldl f v) (hf g) ih

/-- The built-in loops, started on an import set that records the aliases
they leave behind, register the same entries and leave that set as it is. -/
theorem loadCore_replay (c : Collab Reg) (aliasOf : Reg → String → Option String)
    (hc : SetContract c aliasOf) (r0 r : Reg)
    (hk : Knows aliasOf r (loadCore c r0).imports) :
    loadCore c r = withImports (loadCore c r0) r ∧
    Knows aliasOf (loadCore c r0).imports r0 := by
  have hrep := replayable_comp aliasOf
    (fun v => coreFileGenerators.foldl (loadCoreFileGenerator c) v)
    (fun v => coreFileServers.foldl (loadCoreFileServer c) v)
    (replayable_foldl aliasOf _ _ (fun g => (replayable_coreSteps c aliasOf hc g).1))
    (replayable_foldl aliasOf _ _ (fun g => (replayable_coreSteps c aliasOf hc g).2))
  exact ⟨hrep.2 r { claimed := [], imports := r0, state := {} } hk,
    hrep.1 { claimed := [], imports := r0, state := {} }⟩

/-- The loop keeps every recorded alias. -/
theorem loop_knows (c : Collab Reg) (aliasOf : Reg → String → Option String)
    (hc : SetContract c aliasOf) (dirs : List String) (v : LoadVars Reg) :
    Knows aliasOf (loadGeneratorDirs c v dirs).1.imports v.imports :=
  loadGeneratorDirs_preserves (fun w => Knows aliasOf w.imports v.imports) c
    (fun _ _ _ _ _ _ h x a hx => hc.add_keep _ _ _ _ (h x a hx)) dirs v
    (knows_refl aliasOf _)

/-- The loop, started on an import set that records the aliases it leaves
behind, ends with the same claimed set, manifest and error, and leaves that
set as it is. -/
theorem loop_replay (c : Collab Reg) (aliasOf : Reg → String → Option String)
    (hc : SetContract c aliasOf) (dirs : List String) (v : LoadVars Reg) (r : Reg)
    (hk : Knows aliasOf r (loadGeneratorDirs c v dirs).1.imports) :
    loadGeneratorDirs c (withImports v r) dirs
      = (withImports (loadGeneratorDirs c v dirs).1 r, (loadGeneratorDirs c v dirs).2) := by
  induction dirs generalizing v with
  | nil => rfl
  | cons d rest ih =>
    have hcl : (withImports v r).claimed = v.claimed := rfl
    cases h : v.claimed.contains (c.moduleImport d) with
    | true =>
      have h1 := loadGeneratorDir_skip c v d h
      have h2 := loadGeneratorDir_skip c (withImports v r) d (by rw [hcl]; exact h)
      simp only [loadGeneratorDirs, h1, h2] at hk ⊢
      exact ih v hk
    | false =>
      cases hp : c.parserParse d with
      | error err =>
        have h1 := loadGeneratorDir_error c v d err h hp
        have h2 := loadGeneratorDir_error c (withImports v r) d err (by rw [hcl]; exact h) hp
        simp only [loadGeneratorDirs, h1, h2]
      | ok pkg =>
        cases hg : pkg.Struct "Generator" with
        | none =>
          have h1 := loadGeneratorDir_none c v d pkg h hp hg
          have h2 := loadGeneratorDir_none c (withImports v r) d pkg (by rw [hcl]; exact h)
            hp hg
          simp only [loadGeneratorDirs, h1, h2] at hk ⊢
          exact ih v hk
        | some g =>
          have h1 := loadGeneratorDir_some c v d pkg g h hp hg
          have h2 := loadGeneratorDir_some c (withImports v r) d pkg g
            (by rw [hcl]; exact h) hp hg
          simp only [loadGeneratorDirs, h1, h2] at hk ⊢
          have hcaps := (replayable_loadCapabilities c aliasOf hc g (c.moduleImport d)
            (generatorKey d)).2 r v
            (knows_trans aliasOf _ _ _ hk (loop_knows c aliasOf hc rest _))
          rw [hcaps]
          exact ih _ hk

/-- The closing additions keep every recorded alias and change nothing when
made a second time. -/
theorem closeImports_twice (c : Collab Reg) (aliasOf : Reg → String → Option String)
    (hc : SetContract c aliasOf) (r : Reg) :
    Knows aliasOf (closeImports c r) r ∧
    closeImports c (closeImports c r) = closeImports c r := by
  have keepN : ∀ (x : Reg) n p q, (aliasOf x q).isSome →
      (aliasOf (c.importsAddNamed x n p) q).isSome := by
    intro x n p q hq
    obtain ⟨a, ha⟩ := Option.isSome_iff_exists.mp hq
    rw [hc.named_keep x n p q a ha]; rfl
  constructor
  · intro q a h
    exact hc.named_keep _ _ _ _ _ (hc.named_keep _ _ _ _ _ (hc.named_keep _ _ _ _ _
      (hc.std_keep _ _ _ _ h)))
  · have k1 : (aliasOf (closeImports c r) "io/fs").isSome :=
      keepN _ _ _ _ (keepN _ _ _ _ (keepN _ _ _ _ (hc.std_get _ _)))
    have k2 : (aliasOf (closeImports c r) "github.com/livebud/bud/package/genfs").isSome :=
      keepN _ _ _ _ (keepN _ _ _ _ (hc.named_get _ _ _))
    have k3 : (aliasOf (closeImports c r) "github.com/livebud/bud/package/gomod").isSome :=
      keepN _ _ _ _ (hc.named_get _ _ _)
    have k4 : (aliasOf (closeImports c r) "github.com/livebud/bud/package/log").isSome :=
      hc.named_get _ _ _
    generalize closeImports c r = x at k1 k2 k3 k4
    unfold closeImports
    rw [hc.std_known x _ k1, hc.named_known x _ _ k2, hc.named_known x _ _ k3,
      hc.named_known x _ _ k4]

/-- A second `load` on the import set the first one left behind has the same
result and leaves the same import set. -/
theorem load_replay (c : Collab Reg) (aliasOf : Reg → String → Option String)
    (hc : SetContract c aliasOf) (r0 : Reg) :
    load c (load c r0).2 = load c r0 := by
  cases hf : c.finderFind findPattern (findSelector c) with
  | error err =>
    have h1 : ∀ r, load c r = (.error err, r) := fun r => by simp only [load, hf]
    rw [h1 r0, h1 r0]
  | ok dirs =>
    rcases hl : loadGeneratorDirs c (loadCore c r0) dirs with ⟨w, _ | err⟩
    · have h1 := load_of_loop c r0 dirs w hf hl
      have hw : w = (loadGeneratorDirs c (loadCore c r0) dirs).1 := by rw [hl]
      obtain ⟨hkclose, hclose⟩ := closeImports_twice c aliasOf hc w.imports
      have hkw : Knows aliasOf (closeImports c w.imports)
          (loadGeneratorDirs c (loadCore c r0) dirs).1.imports := by rw [← hw]; exact hkclose
      have hkcore : Knows aliasOf (closeImports c w.imports) (loadCore c r0).imports :=
        knows_trans aliasOf _ _ _ hkw (loop_knows c aliasOf hc dirs _)
      have hcore := (loadCore_replay c aliasOf hc r0 _ hkcore).1
      have hloop := loop_replay c aliasOf hc dirs (loadCore c r0) _ hkw
      rw [← hcore, hl] at hloop
      have h2 := load_of_loop c (closeImports c w.imports) dirs _ hf hloop
      rw [h1]
      simp only [h2, withImports, hclose]
    · have h1 := load_of_loop_error c r0 dirs w err hf hl
      have hw : w = (loadGeneratorDirs c (loadCore c r0) dirs).1 := by rw [hl]
      have hkw : Knows aliasOf w.imports
          (loadGeneratorDirs c (loadCore c r0) dirs).1.imports := by
        rw [← hw]; exact knows_refl aliasOf _
      have hkcore : Knows aliasOf w.imports (loadCore c r0).imports :=
        knows_trans aliasOf _ _ _ hkw (loop_knows c aliasOf hc dirs _)
      have hcore := (loadCore_replay c aliasOf hc r0 _ hkcore).1
      have hloop := loop_replay c aliasOf hc dirs (loadCore c r0) _ hkw
      rw [← hcore, hl] at hloop
      have h2 := load_of_loop_error c w.imports dirs _ err hf hloop
      rw [h1]
      simp only [h2, withImports]

end Replay

/-! ## The paths claimed by the registrations -/

section ClaimedPaths

variable {Reg : Type}

/-- The claimed set only grows from one branch of a round to the next. -/
theorem stage_claimed (c : Collab Reg) (g : Struct) (i k : String) (v : LoadVars Reg) :
    v.claimed ⊆ (afterGenerate c g i k v).claimed ∧
    (afterGenerate c g i k v).claimed ⊆ (afterServe c g i k v).claimed ∧
    (afterServe c g i k v).claimed ⊆ (afterGenerateCmd c g i k v).claimed ∧
    (afterGenerateCmd c g i k v).claimed ⊆ (loadCapabilities c g i k v).claimed := by
  refine ⟨?_, ?_, ?_, ?_⟩
  · rw [afterGenerate_eq]; split
    · exact List.subset_cons_self _ _
    · exact List.Subset.refl _
  · rw [afterServe_eq]; split
    · exact List.subset_cons_self _ _
    · exact List.Subset.refl _
  · rw [afterGenerateCmd_eq]; split
    · exact List.subset_cons_self _ _
    · exact List.Subset.refl _
  · rw [loadCapabilities_eq]; split
    · exact List.subset_cons_self _ _
    · exact List.Subset.refl _

/-- The `Generate` and `Serve` branches of one round register at most one
path between them, one that was unclaimed and is claimed afterwards. -/
theorem round_claimedPaths (c : Collab Reg) (g : Struct) (i k : String) (pos : Nat)
    (d : String) (v : LoadVars Reg) :
    claimedPathsOf (roundTrace c g i k pos d v) = [] ∨
    (claimedPathsOf (roundTrace c g i k pos d v) = [pathJoin ["bud", "internal", k]] ∧
      pathJoin ["bud", "internal", k] ∉ v.claimed ∧
      pathJoin ["bud", "internal", k] ∈ (loadCapabilities c g i k v).claimed) := by
  obtain ⟨s1, s2, s3, s4⟩ := stage_claimed c g i k v
  have e1 := afterGenerate_eq c g i k v
  have e2 := afterServe_eq c g i k v
  have hcp : claimedPathsOf (roundTrace c g i k pos d v)
      = (if (g.Method "Generate").isSome ∧ pathJoin ["bud", "internal", k] ∉ v.claimed
          then [pathJoin ["bud", "internal", k]] else []) ++
        (if (g.Method "Serve").isSome ∧
            pathJoin ["bud", "internal", k] ∉ (afterGenerate c g i k v).claimed
          then [pathJoin ["bud", "internal", k]] else []) := by
    unfold roundTrace claimedPathsOf
    by_cases h1 : (g.Method "Generate").isSome = true ∧
      pathJoin ["bud", "internal", k] ∉ v.claimed
    all_goals
      by_cases h2 : (g.Method "Serve").isSome = true ∧
        pathJoin ["bud", "internal", k] ∉ (afterGenerate c g i k v).claimed
    all_goals
      by_cases h3 : (g.Method "GenerateCmd").isSome = true ∧
        pathJoin ["bud", "cmd", k] ∉ (afterServe c g i k v).claimed
    all_goals
      by_cases h4 : (g.Method "GeneratePkg").isSome = true ∧
        pathJoin ["bud", "pkg", k] ∉ (afterGenerateCmd c g i k v).claimed
    all_goals
      simp only [h1, h2, h3, h4, if_true, if_false]
      simp [mkCodeGenerator, Origin.claimsPath]
  rw [hcp]
  by_cases h1 : (g.Method "Generate").isSome = true ∧ pathJoin ["bud", "internal", k] ∉ v.claimed
  · have hin : pathJoin ["bud", "internal", k] ∈ (afterGenerate c g i k v).claimed := by
      rw [e1, if_pos h1]; simp [registerEntry]
    have h2 : ¬((g.Method "Serve").isSome = true ∧
        pathJoin ["bud", "internal", k] ∉ (afterGenerate c g i k v).claimed) :=
      fun h => h.2 hin
    right
    refine ⟨?_, h1.2, s4 (s3 (s2 hin))⟩
    rw [if_pos h1, if_neg h2]; rfl
  · by_cases h2 : (g.Method "Serve").isSome = true ∧
        pathJoin ["bud", "internal", k] ∉ (afterGenerate c g i k v).claimed
    · have hsame : afterGenerate c g i k v = v := by rw [e1, if_neg h1]
      have hin : pathJoin ["bud", "internal", k] ∈ (afterServe c g i k v).claimed := by
        rw [e2, if_pos h2]; simp [registerEntry]
      right
      refine ⟨?_, ?_, s4 (s3 hin)⟩
      · rw [if_neg h1, if_pos h2]; rfl
      · have := h2.2
        rw [hsame] at this
        exact this
    · left
      rw [if_neg h1, if_neg h2]; rfl

theorem distinctClaimed_round (c : Collab Reg) (v v' : LoadVars Reg) (pos : Nat) (d : String)
    (paths : List String) (h : DistinctClaimed v paths)
    (hv : loadGeneratorDir c v d = .ok v') :
    DistinctClaimed v' (paths ++ claimedPathsOf (dirTrace c v pos d)) := by
  rcases round_cases c v pos d with ⟨h1, ht⟩ | ⟨err, h1, _⟩ | ⟨pkg, g, _, _, _, h1, ht⟩
  · rw [h1] at hv; cases hv
    rw [ht]; simpa [claimedPathsOf] using h
  · rw [h1] at hv; cases hv
  · rw [h1] at hv; cases hv
    rw [ht]
    obtain ⟨s1, s2, s3, s4⟩ := stage_claimed c g (c.moduleImport d) (generatorKey d) v
    have hsub : v.claimed ⊆
        (loadCapabilities c g (c.moduleImport d) (generatorKey d) v).claimed :=
      fun x hx => s4 (s3 (s2 (s1 hx)))
    rcases round_claimedPaths c g (c.moduleImport d) (generatorKey d) pos d v with
      h0 | ⟨h0, hfree, hin⟩
    · rw [h0, List.append_nil]
      exact ⟨h.1, fun p hp => hsub (h.2 p hp)⟩
    · rw [h0]
      refine ⟨?_, ?_⟩
      · rw [List.nodup_append]
        refine ⟨h.1, List.nodup_singleton _, ?_⟩
        intro x hx hx'
        rw [List.mem_singleton] at hx'
        subst hx'
        exact hfree (h.2 _ hx)
      · intro p hp
        rcases List.mem_append.mp hp with hp | hp
        · exact hsub (h.2 p hp)
        · rw [List.mem_singleton] at hp; subst hp; exact hin

/-- The paths registered by the branches that claim them stay pairwise
distinct, and distinct from what was distinct and claimed before the loop. -/
theorem distinctClaimed_loop (c : Collab Reg) (dirs : List String) (v : LoadVars Reg)
    (pos : Nat) (paths : List String) (h : DistinctClaimed v paths) :
    DistinctClaimed (loadGeneratorDirs c v dirs).1
      (paths ++ claimedPathsOf (loopTrace c v pos dirs)) := by
  induction dirs generalizing v pos paths with
  | nil => simpa [loadGeneratorDirs, loopTrace, claimedPathsOf] using h
  | cons d rest ih =>
    cases hd : loadGeneratorDir c v d with
    | error err =>
      simpa [loadGeneratorDirs, loopTrace, hd, claimedPathsOf] using h
    | ok v' =>
      have h1 := distinctClaimed_round c v v' pos d paths h hd
      have h2 := ih v' (pos + 1) _ h1
      simp only [loadGeneratorDirs, loopTrace, hd, claimedPathsOf_append]
      rw [← List.append_assoc]
      exact h2

theorem distinctClaimed_loadCore (c : Collab Reg) (imports : Reg) :
    DistinctClaimed (loadCore c imports) corePaths := by
  have hcl : (loadCore c imports).claimed = corePaths.reverse := rfl
  refine ⟨by decide, ?_⟩
  intro p hp
  rw [hcl]
  exact List.mem_reverse.mpr hp

end ClaimedPaths

/-! ## A directory scanned again -/

section Repeat

variable {Reg : Type}

theorem dropped_mono (c : Collab Reg) (d : String) (a b : List String) (hab : a ⊆ b)
    (h : Dropped c d a) : Dropped c d b := by
  rcases h with h | ⟨pkg, hp, h | ⟨g, hg, h⟩⟩
  · exact Or.inl (hab h)
  · exact Or.inr ⟨pkg, hp, Or.inl h⟩
  · exact Or.inr ⟨pkg, hp, Or.inr ⟨g, hg, fun o ho => hab (h o ho)⟩⟩

/-- A round on a dropped directory leaves the variables as they are. -/
theorem dropped_round (c : Collab Reg) (v : LoadVars Reg) (d : String)
    (h : Dropped c d v.claimed) : loadGeneratorDir c v d = .ok v := by
  cases hc : v.claimed.contains (c.moduleImport d) with
  | true => exact loadGeneratorDir_skip c v d hc
  | false =>
    rcases h with h | ⟨pkg, hp, h | ⟨g, hg, h⟩⟩
    · have : v.claimed.contains (c.moduleImport d) = true := by simpa using h
      rw [hc] at this; cases this
    · exact loadGeneratorDir_none c v d pkg hc hp h
    · rw [loadGeneratorDir_some c v d pkg g hc hp hg]
      have e1 : afterGenerate c g (c.moduleImport d) (generatorKey d) v = v := by
        rw [afterGenerate_eq, if_neg]
        exact fun hx => hx.2 (h .generate hx.1)
      have e2 : afterServe c g (c.moduleImport d) (generatorKey d) v = v := by
        rw [afterServe_eq, e1, if_neg]
        exact fun hx => hx.2 (h .serve hx.1)
      have e3 : afterGenerateCmd c g (c.moduleImport d) (generatorKey d) v = v := by
        rw [afterGenerateCmd_eq, e2, if_neg]
        exact fun hx => hx.2 (h .generateCmd hx.1)
      have e4 : loadCapabilities c g (c.moduleImport d) (generatorKey d) v = v := by
        rw [loadCapabilities_eq, e3, if_neg]
        exact fun hx => hx.2 (h .generatePkg hx.1)
      rw [e4]

/-- After a completed round on a directory the directory is dropped. -/
theorem round_dropped (c : Collab Reg) (v v' : LoadVars Reg) (d : String)
    (hv : loadGeneratorDir c v d = .ok v') : Dropped c d v'.claimed := by
  cases hc : v.claimed.contains (c.moduleImport d) with
  | true =>
    rw [loadGeneratorDir_skip c v d hc] at hv
    cases hv
    exact Or.inl (by simpa using hc)
  | false =>
    cases hp : c.parserParse d with
    | error err =>
      rw [loadGeneratorDir_error c v d err hc hp] at hv
      cases hv
    | ok pkg =>
      cases hg : pkg.Struct "Generator" with
      | none => exact Or.inr ⟨pkg, hp, Or.inl hg⟩
      | some g =>
        rw [loadGeneratorDir_some c v d pkg g hc hp hg] at hv
        cases hv
        obtain ⟨s1, s2, s3, s4⟩ := stage_claimed c g (c.moduleImport d) (generatorKey d) v
        by_cases hi : c.moduleImport d
            ∈ (loadCapabilities c g (c.moduleImport d) (generatorKey d) v).claimed
        · exact Or.inl hi
        · refine Or.inr ⟨pkg, hp, Or.inr ⟨g, hg, ?_⟩⟩
          intro o ho
          cases o with
          | generate =>
            by_cases hx : pathJoin ["bud", "internal", generatorKey d] ∈ v.claimed
            · exact s4 (s3 (s2 (s1 hx)))
            · refine s4 (s3 (s2 ?_))
              rw [afterGenerate_eq, if_pos ⟨ho, hx⟩]
              simp [registerEntry, Origin.path]
          | serve =>
            by_cases hx : pathJoin ["bud", "internal", generatorKey d]
                ∈ (afterGenerate c g (c.moduleImport d) (generatorKey d) v).claimed
            · exact s4 (s3 (s2 hx))
            · refine s4 (s3 ?_)
              rw [afterServe_eq, if_pos ⟨ho, hx⟩]
              simp [registerEntry, Origin.path]
          | generateCmd =>
            by_cases hx : pathJoin ["bud", "cmd", generatorKey d]
                ∈ (afterServe c g (c.moduleImport d) (generatorKey d) v).claimed
            · exact s4 (s3 hx)
            · exfalso
              apply hi
              refine s4 ?_
              rw [afterGenerateCmd_eq, if_pos ⟨ho, hx⟩]
              simp [registerEntry]
          | generatePkg =>
            by_cases hx : pathJoin ["bud", "pkg", generatorKey d]
                ∈ (afterGenerateCmd c g (c.moduleImport d) (generatorKey d) v).claimed
            · exact s4 hx
            · exfalso
              apply hi
              rw [loadCapabilities_eq, if_pos ⟨ho, hx⟩]
              simp [registerEntry]

/-- The claimed set only grows in the loop. -/
theorem claimed_loop_mono (c : Collab Reg) (dirs : List String) (v : LoadVars Reg) :
    v.claimed ⊆ (loadGeneratorDirs c v dirs).1.claimed :=
  loadGeneratorDirs_preserves (fun w => v.claimed ⊆ w.claimed) c
    (fun _ _ _ _ _ _ h _ hx => List.mem_cons_of_mem _ (h hx)) dirs v (List.Subset.refl _)

/-- A further occurrence of a directory later in the scan changes nothing. -/
theorem loop_repeated (c : Collab Reg) (v : LoadVars Reg) (pre mid post : List String)
    (d : String) :
    loadGeneratorDirs c v (pre ++ d :: (mid ++ d :: post))
      = loadGeneratorDirs c v (pre ++ d :: (mid ++ post)) := by
  rw [loadGeneratorDirs_append, loadGeneratorDirs_append c v pre]
  rcases loadGeneratorDirs c v pre with ⟨v0, _ | e0⟩
  · simp only
    cases hd : loadGeneratorDir c v0 d with
    | error err => simp only [loadGeneratorDirs, hd]
    | ok v1 =>
      simp only [loadGeneratorDirs, hd]
      rw [loadGeneratorDirs_append, loadGeneratorDirs_append c v1 mid]
      have hdrop := round_dropped c v0 v1 d hd
      have hmono := claimed_loop_mono c mid v1
      rcases hl : loadGeneratorDirs c v1 mid with ⟨v2, _ | e2⟩
      · rw [hl] at hmono
        have := dropped_round c v2 d (dropped_mono c d _ _ hmono hdrop)
        simp only [loadGeneratorDirs, this]
      · rfl
  · rfl

end Repeat

/-! ## The manifest and the built-in tables -/

section Claims

variable {Reg : Type}

/-- C1, on the code: the output paths of a manifest are not always pairwise
distinct.  With the candidates `bud/internal/generator/x` and `generator/x`,
both exposing `GenerateCmd`, the load succeeds and `GenerateDirs` holds the
output path `bud/cmd/x` twice, once for each import path: the `GenerateCmd`
branch claims the import path, so the output path is never claimed. -/
theorem load_twoCmd_duplicate_paths :
    (load twoCmdCollab []).1 = .ok (manifestOf (load twoCmdCollab [])) ∧
    entryKeys (manifestOf (load twoCmdCollab [])).GenerateDirs
      = [("app.com/m/bud/internal/generator/x", "bud/cmd/x"),
         ("app.com/m/generator/x", "bud/cmd/x")] ∧
    ¬ (manifestOf (load twoCmdCollab [])).outputPaths.Nodup := by
  decide

/-- C2: in the manifest of a successful load every row of the two built-in
tables has its entry, in `FileGenerators` or `FileServers`; these two lists
hold nothing but built-in rows; and no entry of `GenerateDirs` or `ServeFiles`,
the lists the candidates register in, has the output path of a built-in. -/
theorem load_builtin_paths_win (c : Collab Reg) (imports : Reg) (s : State)
    (h : (load c imports).1 = .ok s) :
    (∀ g ∈ coreFileGenerators, ∃ e ∈ s.FileGenerators,
      e.Path = g.Path ∧ e.Import.Path = g.Import) ∧
    (∀ g ∈ coreFileServers, ∃ e ∈ s.FileServers,
      e.Path = g.Path ∧ e.Import.Path = g.Import) ∧
    (∀ e ∈ s.FileGenerators ++ s.FileServers,
      (e.Import.Path, e.Path) ∈ tableKeys (coreFileGenerators ++ coreFileServers)) ∧
    (∀ e ∈ s.GenerateDirs ++ s.ServeFiles, ∀ g ∈ coreFileGenerators ++ coreFileServers,
      e.Path ≠ g.Path) := by
  obtain ⟨h1, h2, h3⟩ := load_ok_core c imports s h
  refine ⟨?_, ?_, ?_, ?_⟩
  · intro g hg
    have : (g.Import, g.Path) ∈ entryKeys s.FileGenerators := by
      rw [h1]; exact List.mem_map.mpr ⟨g, hg, rfl⟩
    obtain ⟨e, he, hk⟩ := List.mem_map.mp this
    simp only [Prod.mk.injEq] at hk
    exact ⟨e, he, hk.2, hk.1⟩
  · intro g hg
    have : (g.Import, g.Path) ∈ entryKeys s.FileServers := by
      rw [h2]; exact List.mem_map.mpr ⟨g, hg, rfl⟩
    obtain ⟨e, he, hk⟩ := List.mem_map.mp this
    simp only [Prod.mk.injEq] at hk
    exact ⟨e, he, hk.2, hk.1⟩
  · intro e he
    have hall : tableKeys (coreFileGenerators ++ coreFileServers)
        = entryKeys s.FileGenerators ++ entryKeys s.FileServers := by
      rw [h1, h2]; simp [tableKeys]
    rw [hall]
    rcases List.mem_append.mp he with he | he
    · exact List.mem_append_left _ (List.mem_map.mpr ⟨e, he, rfl⟩)
    · exact List.mem_append_right _ (List.mem_map.mpr ⟨e, he, rfl⟩)
  · intro e he g hg heq
    exact h3 e he (List.mem_map.mpr ⟨g, hg, heq.symm⟩)

theorem load_builtin_paths_win_witness :
    (load shadowCollab []).1 = .ok (manifestOf (load shadowCollab [])) ∧
    (manifestOf (load shadowCollab [])).GenerateDirs = [] ∧
    (manifestOf (load shadowCollab [])).ServeFiles = [] ∧
    ∀ e ∈ (manifestOf (load shadowCollab [])).GenerateDirs
        ++ (manifestOf (load shadowCollab [])).ServeFiles,
      ∀ g ∈ coreFileGenerators ++ coreFileServers, e.Path ≠ g.Path :=
  ⟨by decide, by decide, by decide,
    (load_builtin_paths_win shadowCollab [] _ (by decide)).2.2.2⟩

/-- C3, on the code: of two candidates with the same key the later one is
dropped for `Generate` but not for `GenerateCmd` and `GeneratePkg`.  With
`bud/internal/generator/sitemap` and `generator/sitemap`, both exposing
`Generate`, `GenerateCmd` and `GeneratePkg`, the path `bud/internal/sitemap` is
registered for the first candidate only, while `bud/cmd/sitemap` and
`bud/pkg/sitemap` are registered for both. -/
theorem load_twoSitemap_later_candidate_registered :
    (load twoSitemapCollab []).1 = .ok (manifestOf (load twoSitemapCollab [])) ∧
    entryKeys (manifestOf (load twoSitemapCollab [])).GenerateDirs
      = [("app.com/m/bud/internal/generator/sitemap", "bud/internal/sitemap"),
         ("app.com/m/bud/internal/generator/sitemap", "bud/cmd/sitemap"),
         ("app.com/m/bud/internal/generator/sitemap", "bud/pkg/sitemap"),
         ("app.com/m/generator/sitemap", "bud/cmd/sitemap"),
         ("app.com/m/generator/sitemap", "bud/pkg/sitemap")] := by
  decide

/-- C4: in the manifest of a successful load `FileGenerators` is the six rows
of the built-in file-generator table in table order and `FileServers` the two
rows of the built-in file-server table, whatever the scan found; and when the
scan found no directory, `GenerateDirs` and `ServeFiles` are empty. -/
theorem load_core_lists (c : Collab Reg) (imports : Reg) (s : State)
    (h : (load c imports).1 = .ok s) :
    entryKeys s.FileGenerators
      = [("github.com/livebud/bud/framework/app", "bud/cmd/app/main.go"),
         ("github.com/livebud/bud/framework/web", "bud/internal/web/web.go"),
         ("github.com/livebud/bud/framework/controller",
            "bud/internal/web/controller/controller.go"),
         ("github.com/livebud/bud/framework/view", "bud/internal/web/view/view.go"),
         ("github.com/livebud/bud/framework/public", "bud/internal/web/public/public.go"),
         ("github.com/livebud/bud/framework/view/ssr", "bud/view/_ssr.js")] ∧
    entryKeys s.FileServers
      = [("github.com/livebud/bud/framework/view/dom", "bud/view"),
         ("github.com/livebud/bud/framework/view/nodemodules", "bud/node_modules")] ∧
    (c.finderFind findPattern (findSelector c) = .ok [] →
      s.GenerateDirs = [] ∧ s.ServeFiles = []) := by
  obtain ⟨h1, h2, _⟩ := load_ok_core c imports s h
  refine ⟨h1, h2, ?_⟩
  intro hf
  obtain ⟨dirs, v, hd, hl, hs⟩ := load_ok c imports s h
  rw [hf] at hd
  cases hd
  have hv : v = loadCore c imports := by
    have : loadGeneratorDirs c (loadCore c imports) [] = (loadCore c imports, none) := rfl
    rw [this] at hl
    cases hl; rfl
  subst hs
  subst hv
  exact ⟨rfl, rfl⟩

theorem load_core_lists_witness :
    (load emptyCollab []).1 = .ok (manifestOf (load emptyCollab [])) ∧
    paths (manifestOf (load emptyCollab [])).FileGenerators
      = ["bud/cmd/app/main.go", "bud/internal/web/web.go",
         "bud/internal/web/controller/controller.go", "bud/internal/web/view/view.go",
         "bud/internal/web/public/public.go", "bud/view/_ssr.js"] ∧
    (manifestOf (load emptyCollab [])).GenerateDirs = [] ∧
    (manifestOf (load emptyCollab [])).ServeFiles = [] :=
  ⟨by decide, by decide,
    (load_core_lists emptyCollab [] _ (by decide)).2.2 (by decide)⟩

end Claims

/-! ## Key derivation and the capability branches -/

section Capabilities

variable {Reg : Type}

/-- C5, as stated, fails: in the module `bud/internal/a` the scan is
`generator/a/generator/z`, then `generator/z`, the order in which the finder
returns the two.  The candidate `generator/z` has the clean key `z`, exposes
`Generate`, `GenerateCmd` and `GeneratePkg`, and none of `bud/internal/z`,
`bud/cmd/z`, `bud/pkg/z` is claimed when the loop reaches it; but its import
path `bud/internal/a/generator/z` is the output path the earlier candidate
claimed, so the round is skipped and no entry is registered for it. -/
theorem load_skips_candidate_with_claimed_import :
    walkFind nestedWalk (findSelector claimedImportCollab)
      = .ok ["generator/a/generator/z", "generator/z"] ∧
    claimedImportCollab.finderFind findPattern (findSelector claimedImportCollab)
      = .ok ["generator/a/generator/z", "generator/z"] ∧
    CleanRelative "z" ∧
    claimedImportCollab.parserParse "generator/z"
      = .ok (generatorPackage ["Generate", "GenerateCmd", "GeneratePkg"]) ∧
    "bud/internal/z" ∉ (loadGeneratorDirs claimedImportCollab (loadCore claimedImportCollab [])
      ["generator/a/generator/z"]).1.claimed ∧
    "bud/cmd/z" ∉ (loadGeneratorDirs claimedImportCollab (loadCore claimedImportCollab [])
      ["generator/a/generator/z"]).1.claimed ∧
    "bud/pkg/z" ∉ (loadGeneratorDirs claimedImportCollab (loadCore claimedImportCollab [])
      ["generator/a/generator/z"]).1.claimed ∧
    claimedImportCollab.moduleImport "generator/z"
      ∈ (loadGeneratorDirs claimedImportCollab (loadCore claimedImportCollab [])
        ["generator/a/generator/z"]).1.claimed ∧
    (load claimedImportCollab []).1 = .ok (manifestOf (load claimedImportCollab [])) ∧
    entryKeys (manifestOf (load claimedImportCollab [])).GenerateDirs
      = [("bud/internal/a/generator/a/generator/z", "bud/internal/a/generator/z")] ∧
    (manifestOf (load claimedImportCollab [])).ServeFiles = [] := by
  decide

/-- C5, amended: for a candidate directory `generator/<k>` or
`bud/internal/generator/<k>` with `k` a clean relative path, the key is `k`
and, when the import path is unclaimed so that the round is not skipped, and
the round finds the `Generator` struct, the branches run on that key: a branch
whose method is exposed and whose path is unclaimed when it runs appends to
`GenerateDirs` one entry that carries the candidate's import path and the
output path `bud/internal/<k>` (`Generate`), `bud/cmd/<k>` (`GenerateCmd`) or
`bud/pkg/<k>` (`GeneratePkg`), and the entry is in `GenerateDirs` at the end
of the round. -/
theorem generateDirs_entry_paths (c : Collab Reg) (v : LoadVars Reg) (d k : String)
    (pkg : Package) (g : Struct)
    (hd : d = "generator/" ++ k ∨ d = "bud/internal/generator/" ++ k)
    (hk : CleanRelative k)
    (hi : v.claimed.contains (c.moduleImport d) = false)
    (hp : c.parserParse d = .ok pkg) (hg : pkg.Struct "Generator" = some g) :
    generatorKey d = k ∧
    loadGeneratorDir c v d = .ok (loadCapabilities c g (c.moduleImport d) k v) ∧
    ((g.Method "Generate").isSome → "bud/internal/" ++ k ∉ v.claimed →
      (afterGenerate c g (c.moduleImport d) k v).state.GenerateDirs
        = v.state.GenerateDirs ++
          [mkCodeGenerator c (c.importsAdd v.imports (c.moduleImport d)).1
            (c.moduleImport d) ("bud/internal/" ++ k)] ∧
      mkCodeGenerator c (c.importsAdd v.imports (c.moduleImport d)).1
          (c.moduleImport d) ("bud/internal/" ++ k)
        ∈ (loadCapabilities c g (c.moduleImport d) k v).state.GenerateDirs) ∧
    ((g.Method "GenerateCmd").isSome →
      "bud/cmd/" ++ k ∉ (afterServe c g (c.moduleImport d) k v).claimed →
      (afterGenerateCmd c g (c.moduleImport d) k v).state.GenerateDirs
        = (afterServe c g (c.moduleImport d) k v).state.GenerateDirs ++
          [mkCodeGenerator c
            (c.importsAdd (afterServe c g (c.moduleImport d) k v).imports (c.moduleImport d)).1
            (c.moduleImport d) ("bud/cmd/" ++ k)] ∧
      mkCodeGenerator c
          (c.importsAdd (afterServe c g (c.moduleImport d) k v).imports (c.moduleImport d)).1
          (c.moduleImport d) ("bud/cmd/" ++ k)
        ∈ (loadCapabilities c g (c.moduleImport d) k v).state.GenerateDirs) ∧
    ((g.Method "GeneratePkg").isSome →
      "bud/pkg/" ++ k ∉ (afterGenerateCmd c g (c.moduleImport d) k v).claimed →
      (loadCapabilities c g (c.moduleImport d) k v).state.GenerateDirs
        = (afterGenerateCmd c g (c.moduleImport d) k v).state.GenerateDirs ++
          [mkCodeGenerator c
            (c.importsAdd (afterGenerateCmd c g (c.moduleImport d) k v).imports
              (c.moduleImport d)).1
            (c.moduleImport d) ("bud/pkg/" ++ k)]) := by
  have hkey : generatorKey d = k := by
    rcases hd with rfl | rfl
    · exact generatorKey_user k
    · exact generatorKey_internal k
  have hrun := loadGeneratorDir_some c v d pkg g hi hp hg
  rw [hkey] at hrun
  refine ⟨hkey, hrun, ?_, ?_, ?_⟩
  · intro hG hfree
    have h1 : (afterGenerate c g (c.moduleImport d) k v).state.GenerateDirs
        = v.state.GenerateDirs ++
          [mkCodeGenerator c (c.importsAdd v.imports (c.moduleImport d)).1
            (c.moduleImport d) ("bud/internal/" ++ k)] := by
      rw [afterGenerate_eq, pathJoin_internal k hk, if_pos ⟨hG, hfree⟩]
      simp [registerEntry]
    refine ⟨h1, ?_⟩
    obtain ⟨p1, p2, p3, _, _⟩ := stage_lists c g (c.moduleImport d) k v
    exact ((p1.trans p2).trans p3).subset (by rw [h1]; simp)
  · intro hC hfree
    have h1 : (afterGenerateCmd c g (c.moduleImport d) k v).state.GenerateDirs
        = (afterServe c g (c.moduleImport d) k v).state.GenerateDirs ++
          [mkCodeGenerator c
            (c.importsAdd (afterServe c g (c.moduleImport d) k v).imports (c.moduleImport d)).1
            (c.moduleImport d) ("bud/cmd/" ++ k)] := by
      rw [afterGenerateCmd_eq, pathJoin_cmd k hk, if_pos ⟨hC, hfree⟩]
      simp [registerEntry]
    refine ⟨h1, ?_⟩
    obtain ⟨_, _, p3, _, _⟩ := stage_lists c g (c.moduleImport d) k v
    exact p3.subset (by rw [h1]; simp)
  · intro hP hfree
    rw [loadCapabilities_eq, pathJoin_pkg k hk, if_pos ⟨hP, hfree⟩]
    simp [registerEntry]

theorem generateDirs_entry_paths_witness :
    CleanRelative "sitemap" ∧
    generatorKey "generator/sitemap" = "sitemap" ∧
    entryKeys (manifestOf (load sitemapCollab [])).GenerateDirs
      = [("app.com/m/generator/sitemap", "bud/internal/sitemap"),
         ("app.com/m/generator/sitemap", "bud/cmd/sitemap"),
         ("app.com/m/generator/sitemap", "bud/pkg/sitemap")] :=
  ⟨by decide,
    (generateDirs_entry_paths sitemapCollab (loadCore sitemapCollab []) "generator/sitemap"
      "sitemap" (generatorPackage ["Generate", "GenerateCmd", "GeneratePkg"])
      { Name := "Generator", Methods := ["Generate", "GenerateCmd", "GeneratePkg"] }
      (Or.inl (by decide)) (by decide) (by decide) (by decide) (by decide)).1,
    by decide⟩

end Capabilities

/-! ## Several capabilities and the `Serve` branch -/

section ServeBranch

variable {Reg : Type}

/-- C6, as stated, fails: the candidate `generator/x` exposes `Generate` and
`Serve`, its path `bud/internal/x` is unclaimed when the round starts, and the
manifest has its `Generate` entry in `GenerateDirs` but no entry at all in
`ServeFiles`. -/
theorem load_generate_serve_single_entry :
    "bud/internal/x" ∉ (loadCore generateServeCollab []).claimed ∧
    (load generateServeCollab []).1 = .ok (manifestOf (load generateServeCollab [])) ∧
    entryKeys (manifestOf (load generateServeCollab [])).GenerateDirs
      = [("app.com/m/generator/x", "bud/internal/x")] ∧
    (manifestOf (load generateServeCollab [])).ServeFiles = [] := by
  decide

/-- C6, amended: a round that is not skipped, finds the `Generator` struct and
has a clean key, none of whose three output paths is claimed when it starts
and whose import path is not its own `bud/pkg` path, registers one entry for
each exposed capability except `Serve` next to `Generate`: `GenerateDirs`
gains the `Generate`, `GenerateCmd` and `GeneratePkg` entries, in this order,
and `ServeFiles` gains the `Serve` entry only when `Generate` is not exposed,
since both derive `bud/internal/<key>` and `Generate` claims it first. -/
theorem round_entries (c : Collab Reg) (v : LoadVars Reg) (d : String)
    (pkg : Package) (g : Struct)
    (hk : CleanRelative (generatorKey d))
    (hi : v.claimed.contains (c.moduleImport d) = false)
    (hp : c.parserParse d = .ok pkg) (hg : pkg.Struct "Generator" = some g)
    (hI : "bud/internal/" ++ generatorKey d ∉ v.claimed)
    (hC : "bud/cmd/" ++ generatorKey d ∉ v.claimed)
    (hP : "bud/pkg/" ++ generatorKey d ∉ v.claimed)
    (hip : c.moduleImport d ≠ "bud/pkg/" ++ generatorKey d) :
    ∃ v', loadGeneratorDir c v d = .ok v' ∧
      entryKeys v'.state.GenerateDirs = entryKeys v.state.GenerateDirs
        ++ (if (g.Method "Generate").isSome
              then [(c.moduleImport d, "bud/internal/" ++ generatorKey d)] else [])
        ++ (if (g.Method "GenerateCmd").isSome
              then [(c.moduleImport d, "bud/cmd/" ++ generatorKey d)] else [])
        ++ (if (g.Method "GeneratePkg").isSome
              then [(c.moduleImport d, "bud/pkg/" ++ generatorKey d)] else []) ∧
      entryKeys v'.state.ServeFiles = entryKeys v.state.ServeFiles
        ++ (if (g.Method "Serve").isSome ∧ ¬ (g.Method "Generate").isSome
              then [(c.moduleImport d, "bud/internal/" ++ generatorKey d)] else []) ∧
      v'.state.FileGenerators = v.state.FileGenerators ∧
      v'.state.FileServers = v.state.FileServers := by
  refine ⟨_, loadGeneratorDir_some c v d pkg g hi hp hg, ?_⟩
  have e1 := internal_ne_cmd (generatorKey d)
  have e2 := internal_ne_pkg (generatorKey d)
  have e3 := cmd_ne_pkg (generatorKey d)
  have e4 := hip.symm
  rw [loadCapabilities_eq, afterGenerateCmd_eq, afterServe_eq, afterGenerate_eq,
    pathJoin_internal _ hk, pathJoin_cmd _ hk, pathJoin_pkg _ hk]
  by_cases hG : (g.Method "Generate").isSome = true <;>
  by_cases hS : (g.Method "Serve").isSome = true <;>
  by_cases hCm : (g.Method "GenerateCmd").isSome = true <;>
  by_cases hPk : (g.Method "GeneratePkg").isSome = true <;>
  simp [hG, hS, hCm, hPk, registerEntry, entryKeys, mkCodeGenerator, hI, hC, hP, e1, e2, e3, e4,
    e1.symm, e2.symm, e3.symm]

theorem round_entries_witness :
    CleanRelative (generatorKey "generator/all") ∧
    ∃ v', loadGeneratorDir allCollab (loadCore allCollab []) "generator/all" = .ok v' ∧
      entryKeys v'.state.GenerateDirs
        = [("app.com/m/generator/all", "bud/internal/all"),
           ("app.com/m/generator/all", "bud/cmd/all"),
           ("app.com/m/generator/all", "bud/pkg/all")] ∧
      entryKeys v'.state.ServeFiles = [] :=
  ⟨by decide, by
    obtain ⟨v', h1, h2, h3, _⟩ := round_entries allCollab (loadCore allCollab [])
      "generator/all" (generatorPackage ["Generate", "Serve", "GenerateCmd", "GeneratePkg"])
      { Name := "Generator", Methods := ["Generate", "Serve", "GenerateCmd", "GeneratePkg"] }
      (by decide) (by decide) (by decide) (by decide) (by decide) (by decide) (by decide)
      (by decide)
    exact ⟨v', h1, h2, h3⟩⟩

/-- C7, as stated, fails: the candidate `generator/live` exposes only `Serve`
and its path is unclaimed, yet `FileServers` holds the two built-in entries and
nothing else; the entry with the path `bud/internal/live` is in `ServeFiles`. -/
theorem load_serve_not_in_fileServers :
    "bud/internal/live" ∉ (loadCore serveCollab []).claimed ∧
    (load serveCollab []).1 = .ok (manifestOf (load serveCollab [])) ∧
    entryKeys (manifestOf (load serveCollab [])).FileServers
      = [("github.com/livebud/bud/framework/view/dom", "bud/view"),
         ("github.com/livebud/bud/framework/view/nodemodules", "bud/node_modules")] ∧
    entryKeys (manifestOf (load serveCollab [])).ServeFiles
      = [("app.com/m/generator/live", "bud/internal/live")] := by
  decide

/-- C7, amended: in a round that is not skipped and finds a `Generator` struct
exposing `Serve`, when the path `path.Join("bud", "internal", key)` is
unclaimed as the `Serve` branch runs, the entry with that path and the
candidate's import path is appended to `ServeFiles`, stays there to the end of
the round, and `FileServers` is unchanged.  The path is the one the `Generate`
branch registers for the same key, `bud/internal/<key>` on a clean key. -/
theorem serve_entry_in_serveFiles (c : Collab Reg) (v : LoadVars Reg) (d : String)
    (pkg : Package) (g : Struct)
    (hi : v.claimed.contains (c.moduleImport d) = false)
    (hp : c.parserParse d = .ok pkg) (hg : pkg.Struct "Generator" = some g)
    (hS : (g.Method "Serve").isSome)
    (hfree : pathJoin ["bud", "internal", generatorKey d]
      ∉ (afterGenerate c g (c.moduleImport d) (generatorKey d) v).claimed) :
    loadGeneratorDir c v d
      = .ok (loadCapabilities c g (c.moduleImport d) (generatorKey d) v) ∧
    (afterServe c g (c.moduleImport d) (generatorKey d) v).state.ServeFiles
      = (afterGenerate c g (c.moduleImport d) (generatorKey d) v).state.ServeFiles ++
        [mkCodeGenerator c
          (c.importsAdd (afterGenerate c g (c.moduleImport d) (generatorKey d) v).imports
            (c.moduleImport d)).1
          (c.moduleImport d) (pathJoin ["bud", "internal", generatorKey d])] ∧
    (loadCapabilities c g (c.moduleImport d) (generatorKey d) v).state.ServeFiles
      = (afterServe c g (c.moduleImport d) (generatorKey d) v).state.ServeFiles ∧
    (loadCapabilities c g (c.moduleImport d) (generatorKey d) v).state.FileServers
      = v.state.FileServers ∧
    (∀ w : LoadVars Reg, pathJoin ["bud", "internal", generatorKey d] ∉ w.claimed →
      (branchGenerate c (c.moduleImport d) (generatorKey d) w).state.GenerateDirs
        = w.state.GenerateDirs ++
          [mkCodeGenerator c (c.importsAdd w.imports (c.moduleImport d)).1
            (c.moduleImport d) (pathJoin ["bud", "internal", generatorKey d])]) ∧
    (CleanRelative (generatorKey d) →
      pathJoin ["bud", "internal", generatorKey d] = "bud/internal/" ++ generatorKey d) := by
  refine ⟨loadGeneratorDir_some c v d pkg g hi hp hg, ?_, ?_, ?_, ?_, ?_⟩
  · rw [afterServe_eq, if_pos ⟨hS, hfree⟩]
    simp [registerEntry]
  · exact (stage_lists c g _ _ v).2.2.2.2
  · exact (extends_stages c g _ _ v v (extends_refl v)).2.2.2.2.1
  · intro w hw
    rw [branchGenerate_eq, if_neg hw]
    simp [registerEntry]
  · exact fun hk => pathJoin_internal _ hk

theorem serve_entry_in_serveFiles_witness :
    (afterServe serveCollab { Name := "Generator", Methods := ["Serve"] }
        "app.com/m/generator/live" "live" (loadCore serveCollab [])).state.ServeFiles
      = [mkCodeGenerator serveCollab "live" "app.com/m/generator/live" "bud/internal/live"] ∧
    (loadCapabilities serveCollab { Name := "Generator", Methods := ["Serve"] }
        (serveCollab.moduleImport "generator/live") (generatorKey "generator/live")
        (loadCore serveCollab [])).state.FileServers
      = (loadCore serveCollab []).state.FileServers :=
  ⟨by decide,
    (serve_entry_in_serveFiles serveCollab (loadCore serveCollab []) "generator/live"
      (generatorPackage ["Serve"]) { Name := "Generator", Methods := ["Serve"] }
      (by decide) (by decide) (by decide) (by decide) (by decide)).2.2.2.1⟩

end ServeBranch

/-! ## Errors and skipped candidates -/

section Errors

variable {Reg : Type}

/-- C8, as stated, fails: in the module `bud/internal/a` the scan is
`generator/a/generator/z`, then `generator/z`, the order in which the finder
returns the two.  The candidate `generator/z` does not parse, but its import
path `bud/internal/a/generator/z` is the output path the earlier candidate
claimed with `Generate`, so the round is skipped before the parse and `Load`
returns a manifest and no error. -/
theorem Load_skips_unparsable_candidate :
    walkFind nestedWalk (findSelector claimedUnparsableCollab)
      = .ok ["generator/a/generator/z", "generator/z"] ∧
    claimedUnparsableCollab.finderFind findPattern (findSelector claimedUnparsableCollab)
      = .ok ["generator/a/generator/z", "generator/z"] ∧
    claimedUnparsableCollab.parserParse "generator/z"
      = .error (.plain "generator/z/z.go:1:1: expected 'package'") ∧
    claimedUnparsableCollab.moduleImport "generator/z" = "bud/internal/a/generator/z" ∧
    (Load claimedUnparsableCollab []).1
      = .ok (manifestOf (Load claimedUnparsableCollab [])) ∧
    entryKeys (manifestOf (Load claimedUnparsableCollab [])).GenerateDirs
      = [("bud/internal/a/generator/a/generator/z", "bud/internal/a/generator/z")] := by
  decide

/-- C8, amended: when the scan contains a directory whose parse fails and
whose import path is unclaimed once the rounds before it have completed,
`Load` returns an error and no manifest, whatever precedes or follows the
directory in the scan. -/
theorem Load_fails_on_parse_failure (c : Collab Reg) (imports : Reg)
    (pre post : List String) (d : String) (err : GoError)
    (hf : c.finderFind findPattern (findSelector c) = .ok (pre ++ d :: post))
    (hp : c.parserParse d = .error err)
    (hfree : ∀ v, loadGeneratorDirs c (loadCore c imports) pre = (v, none) →
      v.claimed.contains (c.moduleImport d) = false) :
    ∃ e, (Load c imports).1 = .error (.wrap "generator: " e) := by
  rcases hl : loadGeneratorDirs c (loadCore c imports) pre with ⟨v, _ | e⟩
  · have hall : loadGeneratorDirs c (loadCore c imports) (pre ++ d :: post)
        = (v, some err) :=
      (loadGeneratorDirs_error_iff c _ v _ err).mpr ⟨pre, d, post, rfl, hl, hfree v hl, hp⟩
    exact ⟨err, by simp only [Load, load, hf, hall]⟩
  · have hall : loadGeneratorDirs c (loadCore c imports) (pre ++ d :: post)
        = (v, some e) := by
      rw [loadGeneratorDirs_append, hl]
    exact ⟨e, by simp only [Load, load, hf, hall]⟩

theorem Load_fails_on_parse_failure_witness :
    ∃ e, (Load brokenCollab []).1 = .error (.wrap "generator: " e) :=
  Load_fails_on_parse_failure brokenCollab [] ["generator/a"] ["generator/c"] "generator/b"
    (.plain "generator/b/b.go:1:1: expected 'package'") (by decide) (by decide)
    (fun v hv => by
      have h := congrArg Prod.fst hv
      simp only at h
      rw [← h]
      decide)

/-- C9: a directory that parses to a package without a struct named
`Generator` leaves the variables of `load` as they are (no entry, no claimed
key, no alias requested), each round on it succeeds, and the outcome of `load`
and of `Load` is that of the same scan without the directory. -/
theorem load_ignores_package_without_generator (c : Collab Reg) (imports : Reg)
    (pre post : List String) (d : String) (pkg : Package)
    (hp : c.parserParse d = .ok pkg) (hg : pkg.Struct "Generator" = none) :
    (∀ v, loadGeneratorDir c v d = .ok v) ∧
    (∀ v, loadGeneratorDirs c v (pre ++ d :: post) = loadGeneratorDirs c v (pre ++ post)) ∧
    load (withFound c (.ok (pre ++ d :: post))) imports
      = load (withFound c (.ok (pre ++ post))) imports ∧
    Load (withFound c (.ok (pre ++ d :: post))) imports
      = Load (withFound c (.ok (pre ++ post))) imports := by
  have h1 : ∀ v, loadGeneratorDir c v d = .ok v := by
    intro v
    cases h : v.claimed.contains (c.moduleImport d) with
    | true => exact loadGeneratorDir_skip c v d h
    | false => exact loadGeneratorDir_none c v d pkg h hp hg
  have h2 : ∀ v, loadGeneratorDirs c v (pre ++ d :: post)
      = loadGeneratorDirs c v (pre ++ post) := by
    intro v
    rw [loadGeneratorDirs_append, loadGeneratorDirs_append c v pre post]
    rcases loadGeneratorDirs c v pre with ⟨w, _ | e⟩
    · simp only [loadGeneratorDirs, h1 w]
    · rfl
  have h3 : load (withFound c (.ok (pre ++ d :: post))) imports
      = load (withFound c (.ok (pre ++ post))) imports := by
    rw [load_withFound, load_withFound, h2]
  refine ⟨h1, h2, h3, ?_⟩
  unfold Load
  rw [h3]

theorem load_ignores_package_without_generator_witness :
    load (withFound plainPackageCollab (.ok (["generator/a"] ++ "generator/b" :: ["generator/c"])))
        []
      = load (withFound plainPackageCollab (.ok (["generator/a"] ++ ["generator/c"]))) [] ∧
    entryKeys (manifestOf (load plainPackageCollab [])).GenerateDirs
      = [("app.com/m/generator/a", "bud/internal/a")] ∧
    entryKeys (manifestOf (load plainPackageCollab [])).ServeFiles
      = [("app.com/m/generator/c", "bud/internal/c")] :=
  ⟨(load_ignores_package_without_generator plainPackageCollab [] ["generator/a"]
      ["generator/c"] "generator/b"
      { Structs := [{ Name := "Helper", Methods := ["Generate"] }] }
      (by decide) (by decide)).2.2.1,
    by decide, by decide⟩

/-- C10: `load` fails exactly when the finder fails or the loop reaches, with
the earlier rounds completed, a directory with an unclaimed import path whose
parse fails, and its error is that very error; `Load` then returns no
manifest and that error wrapped once, with the message prefixed by
`generator: `; when `load` returns a manifest `Load` returns the same one;
`Load` fails only when `load` does, and leaves the same import set. -/
theorem Load_wraps_load (c : Collab Reg) (imports : Reg) :
    (∀ e, (load c imports).1 = .error e ↔
      (c.finderFind findPattern (findSelector c) = .error e ∨
        ∃ pre d post v, c.finderFind findPattern (findSelector c) = .ok (pre ++ d :: post) ∧
          loadGeneratorDirs c (loadCore c imports) pre = (v, none) ∧
          v.claimed.contains (c.moduleImport d) = false ∧ c.parserParse d = .error e)) ∧
    (∀ e, (load c imports).1 = .error e →
      (Load c imports).1 = .error (.wrap "generator: " e) ∧
      (GoError.wrap "generator: " e).Error = "generator: " ++ e.Error ∧
      (GoError.wrap "generator: " e).Unwrap = some e) ∧
    (∀ s, (load c imports).1 = .ok s → (Load c imports).1 = .ok s) ∧
    ((∃ e, (Load c imports).1 = .error e) ↔ ∃ e, (load c imports).1 = .error e) ∧
    (Load c imports).2 = (load c imports).2 := by
  have hL : ∀ e, (load c imports).1 = .error e →
      (Load c imports).1 = .error (.wrap "generator: " e) := by
    intro e h
    unfold Load
    rcases hx : load c imports with ⟨_ | _, r⟩
    · rw [hx] at h; cases h; rfl
    · rw [hx] at h; cases h
  have hS : ∀ s, (load c imports).1 = .ok s → (Load c imports).1 = .ok s := by
    intro s h
    unfold Load
    rcases hx : load c imports with ⟨_ | _, r⟩
    · rw [hx] at h; cases h
    · rw [hx] at h; cases h; rfl
  refine ⟨?_, fun e h => ⟨hL e h, rfl, rfl⟩, hS, ?_, ?_⟩
  · intro e
    cases hf : c.finderFind findPattern (findSelector c) with
    | error e' =>
      simp only [load, hf, Except.error.injEq, reduceCtorEq, false_and, exists_false,
        or_false]
    | ok dirs =>
      rcases hl : loadGeneratorDirs c (loadCore c imports) dirs with ⟨v, _ | e'⟩
      · simp only [load, hf, hl, reduceCtorEq, Except.ok.injEq, false_or, false_iff,
          not_exists, not_and]
        intro pre d post w hd hw hc hp
        have := (loadGeneratorDirs_error_iff c _ w dirs e).mpr ⟨pre, d, post, hd, hw, hc, hp⟩
        rw [hl] at this
        cases this
      · simp only [load, hf, hl, Except.error.injEq, reduceCtorEq, Except.ok.injEq, false_or]
        constructor
        · rintro rfl
          obtain ⟨pre, d, post, hd, hw, hc, hp⟩ :=
            (loadGeneratorDirs_error_iff c _ v dirs e').mp hl
          exact ⟨pre, d, post, v, hd, hw, hc, hp⟩
        · rintro ⟨pre, d, post, w, hd, hw, hc, hp⟩
          have := (loadGeneratorDirs_error_iff c _ w dirs e).mpr ⟨pre, d, post, hd, hw, hc, hp⟩
          rw [hl] at this
          cases this
          rfl
  · constructor
    · rintro ⟨e, h⟩
      rcases hx : (load c imports).1 with e' | s
      · exact ⟨e', rfl⟩
      · rw [hS s hx] at h; cases h
    · rintro ⟨e, h⟩
      exact ⟨_, hL e h⟩
  · unfold Load
    rcases load c imports with ⟨_ | _, r⟩ <;> rfl

end Errors

/-! ## The scan, the order of the lists and the single candidate -/

section Scan

variable {Reg : Type}

/-- C11: the selection callback yields nothing for a path that begins with
`generator/generator/` and nothing for a directory; for a file that is valid Go
and does not begin with the reserved prefix it yields exactly
`filepath.Dir(path)`, which for a clean path `d/b` is the parent `d`; and
whatever it yields for a clean path is neither `generator/generator` nor below
it, so no such directory is among those a finder collects from the callback
over a walk of clean paths. -/
theorem findSelector_reserved (c : Collab Reg) (path : String) (isDir : Bool) :
    (hasPrefix path "generator/generator/" = true → findSelector c path isDir = []) ∧
    (isDir = true → findSelector c path isDir = []) ∧
    (isDir = false → c.validGoFile path = true →
      hasPrefix path "generator/generator/" = false →
      findSelector c path isDir = [filepathDir path]) ∧
    (∀ d b : String, path = d ++ "/" ++ b → CleanRelative d → '/' ∉ b.data →
      filepathDir path = d) ∧
    (CleanRelative path → ∀ d ∈ findSelector c path isDir, underReserved d = false) ∧
    (∀ walk dirs, (∀ e ∈ walk, CleanRelative e.1) →
      walkFind walk (findSelector c) = .ok dirs → ∀ d ∈ dirs, underReserved d = false) := by
  refine ⟨?_, ?_, ?_, ?_, ?_, ?_⟩
  · intro h
    simp [findSelector, isUserDefinedInternalGenerator, h]
  · intro h
    simp [findSelector, h]
  · intro h1 h2 h3
    simp [findSelector, isUserDefinedInternalGenerator, h1, h2, h3]
  · rintro d b rfl hd hb
    exact filepathDir_join d b hd hb
  · exact findSelector_not_reserved c path isDir
  · intro walk dirs hw hf d hd
    simp only [walkFind, Except.ok.injEq] at hf
    subst hf
    have hd' : d ∈ (walk.flatMap (fun e => findSelector c e.1 e.2)).dedup :=
      (List.perm_insertionSort _ _).subset hd
    rw [List.mem_dedup, List.mem_flatMap] at hd'
    obtain ⟨e, he, hde⟩ := hd'
    exact findSelector_not_reserved c e.1 e.2 (hw e he) d hde

/-- C12: in the manifest of a successful load `FileGenerators` and
`FileServers` are the built-in tables in table order, and `GenerateDirs` and
`ServeFiles` are the entries of the registrations of the loop, in the order
they were made: `GenerateDirs` those of the `Generate`, `GenerateCmd` and
`GeneratePkg` branches, `ServeFiles` those of the `Serve` branch.  The
registrations are ordered by scan position and, within one candidate, by
branch (`Generate`, `Serve`, `GenerateCmd`, `GeneratePkg`), and each carries
the import path of the directory at its scan position and the output path of
its branch. -/
theorem load_lists_in_scan_order (c : Collab Reg) (imports : Reg) (s : State)
    (h : (load c imports).1 = .ok s) :
    entryKeys s.FileGenerators = tableKeys coreFileGenerators ∧
    entryKeys s.FileServers = tableKeys coreFileServers ∧
    ∃ dirs, c.finderFind findPattern (findSelector c) = .ok dirs ∧
      s.GenerateDirs = generateDirsOf (loopTrace c (loadCore c imports) 0 dirs) ∧
      s.ServeFiles = serveFilesOf (loopTrace c (loadCore c imports) 0 dirs) ∧
      (loopTrace c (loadCore c imports) 0 dirs).Pairwise Registration.before ∧
      ((loopTrace c (loadCore c imports) 0 dirs).filter
        (fun r => r.origin != .serve)).Pairwise Registration.before ∧
      ((loopTrace c (loadCore c imports) 0 dirs).filter
        (fun r => r.origin == .serve)).Pairwise Registration.before ∧
      ∀ r ∈ loopTrace c (loadCore c imports) 0 dirs,
        dirs[r.pos]? = some r.dir ∧ r.entry.Import.Path = c.moduleImport r.dir ∧
        r.entry.Path = r.origin.path (generatorKey r.dir) := by
  obtain ⟨h1, h2, _⟩ := load_ok_core c imports s h
  obtain ⟨dirs, v, hf, hl, hs⟩ := load_ok c imports s h
  obtain ⟨a1, a2⟩ := loop_lists c dirs _ v 0 hl
  obtain ⟨b1, b2⟩ := loopTrace_spec c dirs (loadCore c imports) 0
  have hcore : (loadCore c imports).state.GenerateDirs = [] ∧
      (loadCore c imports).state.ServeFiles = [] := ⟨rfl, rfl⟩
  refine ⟨h1, h2, dirs, hf, ?_, ?_, b2, b2.filter _, b2.filter _, ?_⟩
  · subst hs; show v.state.GenerateDirs = _
    rw [a1, hcore.1]; rfl
  · subst hs; show v.state.ServeFiles = _
    rw [a2, hcore.2]; rfl
  · intro r hr
    obtain ⟨_, r2, r3, r4, _, _⟩ := b1 r hr
    exact ⟨by simpa using r2, r3, r4⟩

theorem load_lists_in_scan_order_witness :
    (load orderedCollab []).1 = .ok (manifestOf (load orderedCollab [])) ∧
    entryKeys (manifestOf (load orderedCollab [])).GenerateDirs
      = [("app.com/m/generator/a", "bud/internal/a"), ("app.com/m/generator/a", "bud/cmd/a"),
         ("app.com/m/generator/a", "bud/pkg/a"), ("app.com/m/generator/b", "bud/cmd/b")] ∧
    (loopTrace orderedCollab (loadCore orderedCollab []) 0 ["generator/a", "generator/b"]).map
        (fun r => (r.pos, r.origin))
      = [(0, .generate), (0, .generateCmd), (0, .generatePkg), (1, .serve), (1, .generateCmd)] ∧
    entryKeys (manifestOf (load orderedCollab [])).FileServers = tableKeys coreFileServers :=
  ⟨by decide, by decide, by decide,
    (load_lists_in_scan_order orderedCollab [] _ (by decide)).2.1⟩

/-- C13: when the scan is the single directory `generator/sitemap`, in a
module with any path `m`, and the `Generator` struct exposes `Generate` only,
`load` succeeds and the candidate yields exactly one entry: `GenerateDirs` is
that entry, with the candidate's import path and the output path
`bud/internal/sitemap` of the key `sitemap`, and the candidate has no entry in
the other three lists: `ServeFiles` is empty, `FileGenerators` and
`FileServers` are what the built-in loops installed, the six and two rows of
the built-in tables, and no entry of the three lists carries the
candidate's import path. -/
theorem load_single_sitemap (c : Collab Reg) (imports : Reg) (m : String) (pkg : Package)
    (g : Struct)
    (hf : c.finderFind findPattern (findSelector c) = .ok ["generator/sitemap"])
    (hm : c.moduleImport "generator/sitemap" = pathJoin [m, "generator/sitemap"])
    (hp : c.parserParse "generator/sitemap" = .ok pkg)
    (hg : pkg.Struct "Generator" = some g)
    (hG : (g.Method "Generate").isSome)
    (hS : g.Method "Serve" = none) (hC : g.Method "GenerateCmd" = none)
    (hP : g.Method "GeneratePkg" = none) :
    generatorKey "generator/sitemap" = "sitemap" ∧
    ∃ s, (load c imports).1 = .ok s ∧
      s.GenerateDirs
        = [mkCodeGenerator c
            (c.importsAdd (loadCore c imports).imports (c.moduleImport "generator/sitemap")).1
            (c.moduleImport "generator/sitemap") "bud/internal/sitemap"] ∧
      s.ServeFiles = [] ∧
      entryKeys s.FileGenerators = tableKeys coreFileGenerators ∧
      entryKeys s.FileServers = tableKeys coreFileServers ∧
      s.FileGenerators = (loadCore c imports).state.FileGenerators ∧
      s.FileServers = (loadCore c imports).state.FileServers ∧
      ∀ e ∈ s.FileGenerators ++ s.FileServers ++ s.ServeFiles,
        e.Import.Path ≠ c.moduleImport "generator/sitemap" := by
  have hi : c.moduleImport "generator/sitemap" ∉ corePaths := by
    rw [hm]; exact (pathJoin_sitemap_not_core m).1
  have hi2 : c.moduleImport "generator/sitemap"
      ∉ (coreFileGenerators ++ coreFileServers).map (fun g => g.Import) := by
    rw [hm]; exact (pathJoin_sitemap_not_core m).2
  have hkey : generatorKey "generator/sitemap" = "sitemap" := by decide
  have hpath : pathJoin ["bud", "internal", "sitemap"] = "bud/internal/sitemap" := by decide
  have hclaimed : (loadCore c imports).claimed = corePaths.reverse := rfl
  have hskip : (loadCore c imports).claimed.contains (c.moduleImport "generator/sitemap")
      = false := by
    rw [hclaimed]
    simpa using hi
  have hfree : pathJoin ["bud", "internal", "sitemap"] ∉ (loadCore c imports).claimed := by
    rw [hclaimed, hpath]; decide
  have hround := loadGeneratorDir_some c (loadCore c imports) "generator/sitemap" pkg g
    hskip hp hg
  rw [hkey] at hround
  have hcaps : loadCapabilities c g (c.moduleImport "generator/sitemap") "sitemap"
      (loadCore c imports)
      = registerEntry c (c.moduleImport "generator/sitemap") "bud/internal/sitemap"
          "bud/internal/sitemap" false (loadCore c imports) := by
    rw [loadCapabilities_eq, afterGenerateCmd_eq, afterServe_eq, afterGenerate_eq]
    simp only [hS, hC, hP, Option.isSome_none, Bool.false_eq_true, false_and, if_false]
    rw [if_pos ⟨hG, hfree⟩, hpath]
  have hloop : loadGeneratorDirs c (loadCore c imports) ["generator/sitemap"]
      = (registerEntry c (c.moduleImport "generator/sitemap") "bud/internal/sitemap"
          "bud/internal/sitemap" false (loadCore c imports), none) := by
    simp only [loadGeneratorDirs, hround, hcaps]
  have hload := load_of_loop c imports _ _ hf hloop
  have c1 : (loadCore c imports).state.GenerateDirs = [] := rfl
  have c2 : (loadCore c imports).state.ServeFiles = [] := rfl
  have c3 : entryKeys (loadCore c imports).state.FileGenerators = tableKeys coreFileGenerators :=
    rfl
  have c4 : entryKeys (loadCore c imports).state.FileServers = tableKeys coreFileServers := rfl
  refine ⟨hkey, ?_⟩
  rw [hload]
  generalize loadCore c imports = core at c1 c2 c3 c4 ⊢
  obtain ⟨r1, r2, r3, r4⟩ := registerEntry_generate_state c (c.moduleImport "generator/sitemap")
    "bud/internal/sitemap" "bud/internal/sitemap" core
  generalize registerEntry c (c.moduleImport "generator/sitemap") "bud/internal/sitemap"
    "bud/internal/sitemap" false core = reg at r1 r2 r3 r4 ⊢
  refine ⟨_, rfl, ?_, ?_, ?_, ?_, r3, r4, ?_⟩
  · exact r1.trans (by rw [c1]; rfl)
  · exact r2.trans c2
  · exact (congrArg entryKeys r3).trans c3
  · exact (congrArg entryKeys r4).trans c4
  · intro e he heq
    have he2 : e ∈ reg.state.FileGenerators ++ reg.state.FileServers ++ reg.state.ServeFiles :=
      he
    rw [r2, r3, r4, c2, List.append_nil] at he2
    have hk : (e.Import.Path, e.Path)
        ∈ entryKeys core.state.FileGenerators ++ entryKeys core.state.FileServers := by
      rcases List.mem_append.mp he2 with h | h
      · exact List.mem_append_left _ (List.mem_map.mpr ⟨e, h, rfl⟩)
      · exact List.mem_append_right _ (List.mem_map.mpr ⟨e, h, rfl⟩)
    rw [c3, c4] at hk
    apply hi2
    rw [← heq]
    simp only [tableKeys, ← List.map_append, List.mem_map] at hk ⊢
    obtain ⟨row, hrow, hkeys⟩ := hk
    exact ⟨row, hrow, congrArg Prod.fst hkeys⟩

theorem load_single_sitemap_witness :
    ∃ s, (load sitemapGenerateCollab []).1 = .ok s ∧
      s.GenerateDirs
        = [mkCodeGenerator sitemapGenerateCollab "sitemap" "app.com/m/generator/sitemap"
            "bud/internal/sitemap"] ∧
      s.ServeFiles = [] ∧
      entryKeys s.FileGenerators = tableKeys coreFileGenerators ∧
      entryKeys s.FileServers = tableKeys coreFileServers :=
  have h := (load_single_sitemap sitemapGenerateCollab [] "app.com/m"
    (generatorPackage ["Generate"]) { Name := "Generator", Methods := ["Generate"] }
    (by decide) (by decide) (by decide) (by decide) (by decide) (by decide) (by decide)
    (by decide)).2
  h.elim fun s hs => ⟨s, hs.1, hs.2.1, hs.2.2.1, hs.2.2.2.1, hs.2.2.2.2.1⟩

end Scan

/-! ## Aliases, repeated loads and the claimed set -/

section AliasClaims

variable {Reg : Type}

theorem pathAlias_contract (modulePath : String)
    (pkgs : List (String × Except GoError Package)) (found : Except GoError (List String)) :
    AliasContract (pathAliasCollab modulePath pkgs found) pathAlias (fun _ => True) ∧
    SetContract (pathAliasCollab modulePath pkgs found) pathAlias := by
  have get : ∀ (r : List String) p, pathAlias (pathAliasAdd r p).2 p = some p := by
    intro r p
    by_cases h : p ∈ r <;> simp [pathAlias, pathAliasAdd, h]
  have keep : ∀ (r : List String) p q a, pathAlias r q = some a →
      pathAlias (pathAliasAdd r p).2 q = some a := by
    intro r p q a h
    by_cases hq : q ∈ r
    · by_cases hp : p ∈ r <;> simp [pathAlias, pathAliasAdd, hp, hq] at h ⊢ <;> exact h
    · simp [pathAlias, hq] at h
  have known : ∀ (r : List String) p a, pathAlias r p = some a →
      pathAliasAdd r p = (a, r) := by
    intro r p a h
    by_cases hp : p ∈ r
    · simp [pathAlias, hp] at h
      subst h
      simp [pathAliasAdd, hp]
    · simp [pathAlias, hp] at h
  have knownSome : ∀ (r : List String) p, (pathAlias r p).isSome →
      (pathAliasAdd r p).2 = r := by
    intro r p h
    obtain ⟨a, ha⟩ := Option.isSome_iff_exists.mp h
    rw [known r p a ha]
  constructor
  · refine ⟨get, ?_, keep, fun _ _ _ => trivial, ?_⟩
    · intro r p a h
      exact congrArg Prod.fst (known r p a h)
    · intro r p q a _ hp hq
      by_cases h1 : p ∈ r <;> by_cases h2 : q ∈ r <;> simp [pathAlias, h1, h2] at hp hq
      rw [hp, hq]
  · refine ⟨get, keep, known, ?_, keep, knownSome, ?_, fun r _ p q a h => keep r p q a h,
      fun r _ p h => knownSome r p h⟩
    · intro r p
      show (pathAlias (pathAliasAdd r p).2 p).isSome
      rw [get]; rfl
    · intro r _ p
      show (pathAlias (pathAliasAdd r p).2 p).isSome
      rw [get]; rfl

/-- C14: when `Add` is idempotent and injective (`AliasContract`) and `load`
succeeds from a valid import set, then in the import set the loop leaves
behind every entry of the manifest has the alias recorded for its import path,
`Add` returns that alias for the path again, and `Camel` is `gotext.Camel` of
the alias; hence two entries with the same import path have the same alias,
whatever branch registered them, and two entries with distinct import paths
have distinct aliases. -/
theorem entries_carry_recorded_aliases (c : Collab Reg)
    (aliasOf : Reg → String → Option String) (valid : Reg → Prop)
    (hc : AliasContract c aliasOf valid) (imports : Reg) (hv : valid imports) (s : State)
    (h : (load c imports).1 = .ok s) :
    ∃ r : Reg, (load c imports).2 = closeImports c r ∧ valid r ∧
      (∀ e ∈ s.entries,
        aliasOf r e.Import.Path = some e.Import.Name ∧
        (c.importsAdd r e.Import.Path).1 = e.Import.Name ∧
        e.Camel = c.gotextCamel e.Import.Name) ∧
      (∀ e1 ∈ s.entries, ∀ e2 ∈ s.entries,
        e1.Import.Path = e2.Import.Path → e1.Import.Name = e2.Import.Name) ∧
      (∀ e1 ∈ s.entries, ∀ e2 ∈ s.entries,
        e1.Import.Path ≠ e2.Import.Path → e1.Import.Name ≠ e2.Import.Name) := by
  obtain ⟨dirs, v, hf, hl, hs⟩ := load_ok c imports s h
  have ha := aliased_loop c aliasOf valid hc imports dirs
  have hval := valid_loop c aliasOf valid hc imports hv dirs
  rw [hl] at ha hval
  have hent : s.entries = v.state.entries := by subst hs; rfl
  have hall : ∀ e ∈ s.entries, aliasOf v.imports e.Import.Path = some e.Import.Name ∧
      e.Camel = c.gotextCamel e.Import.Name := by
    intro e he
    exact ha e (hent ▸ he)
  refine ⟨v.imports, ?_, hval, ?_, ?_, ?_⟩
  · rw [load_of_loop c imports dirs v hf hl]
  · intro e he
    obtain ⟨a, b⟩ := hall e he
    exact ⟨a, hc.add_known _ _ _ a, b⟩
  · intro e1 h1 e2 h2 hp
    have a1 := (hall e1 h1).1
    have a2 := (hall e2 h2).1
    rw [hp, a2] at a1
    exact (Option.some.inj a1).symm
  · intro e1 h1 e2 h2 hp hn
    have a1 := (hall e1 h1).1
    have a2 := (hall e2 h2).1
    rw [← hn] at a2
    exact hp (hc.injective _ _ _ _ hval a1 a2)

theorem entries_carry_recorded_aliases_witness :
    (load aliasCollab []).1 = .ok (manifestOf (load aliasCollab [])) ∧
    (manifestOf (load aliasCollab [])).GenerateDirs.map (fun e => (e.Import.Name, e.Path))
      = [("app.com/m/generator/a", "bud/internal/a"), ("app.com/m/generator/a", "bud/cmd/a")] ∧
    ∃ r : List String, (load aliasCollab []).2 = closeImports aliasCollab r ∧
      ∀ e1 ∈ (manifestOf (load aliasCollab [])).entries,
        ∀ e2 ∈ (manifestOf (load aliasCollab [])).entries,
        e1.Import.Path = e2.Import.Path → e1.Import.Name = e2.Import.Name :=
  ⟨by decide, by decide,
    (entries_carry_recorded_aliases aliasCollab pathAlias (fun _ => True)
      (pathAlias_contract _ _ _).1 [] trivial _ (by decide)).elim
      fun r hr => ⟨r, hr.1, hr.2.2.2.1⟩⟩

/-- C15: the loader is a function of the tree, the import resolution, the
parse results and the import set it starts with; and when the import set keeps
its recorded aliases and is left as it is by a request for a known path
(`SetContract`), a second `Load` on the same loader, started on the import set
the first one left behind, returns the same manifest (the four lists, the
aliases and the imports list) or the same error, and leaves the same import
set; so does a second `load`. -/
theorem Load_twice_same (c : Collab Reg) (aliasOf : Reg → String → Option String)
    (hc : SetContract c aliasOf) (imports : Reg) :
    Load c (Load c imports).2 = Load c imports ∧
    load c (load c imports).2 = load c imports := by
  have h := load_replay c aliasOf hc imports
  have h2 : (Load c imports).2 = (load c imports).2 := by
    unfold Load
    rcases load c imports with ⟨_ | _, r⟩ <;> rfl
  refine ⟨?_, h⟩
  rw [h2]
  unfold Load
  rw [h]

theorem Load_twice_same_witness :
    (Load aliasCollab (Load aliasCollab []).2).1 = (Load aliasCollab []).1 ∧
    (Load aliasCollab []).1 = .ok (manifestOf (Load aliasCollab [])) ∧
    (manifestOf (Load aliasCollab [])).Imports.map (fun i => i.Path)
      = ["github.com/livebud/bud/framework/app", "github.com/livebud/bud/framework/web",
         "github.com/livebud/bud/framework/controller", "github.com/livebud/bud/framework/view",
         "github.com/livebud/bud/framework/public", "github.com/livebud/bud/framework/view/ssr",
         "github.com/livebud/bud/framework/view/dom",
         "github.com/livebud/bud/framework/view/nodemodules", "app.com/m/generator/a",
         "app.com/m/generator/b", "io/fs", "github.com/livebud/bud/package/genfs",
         "github.com/livebud/bud/package/gomod", "github.com/livebud/bud/package/log"] :=
  ⟨congrArg Prod.fst (Load_twice_same aliasCollab pathAlias (pathAlias_contract _ _ _).2 []).1,
    by decide, by decide⟩

/-- C16: a branch that registers (its output path is unclaimed) adds exactly
one key to the claimed set: the `GenerateCmd` and `GeneratePkg` branches add
the import path, so that afterwards the output path `bud/cmd/<key>` or
`bud/pkg/<key>` is claimed only if it is the import path itself, while the
`Generate` and `Serve` branches and the rounds of both built-in loops add the
output path of the entry. -/
theorem claimed_after_registration (c : Collab Reg) (i k : String) (v : LoadVars Reg)
    (g : coreGenerator) :
    (pathJoin ["bud", "cmd", k] ∉ v.claimed →
      (branchGenerateCmd c i k v).claimed = i :: v.claimed ∧
      (pathJoin ["bud", "cmd", k] ∈ (branchGenerateCmd c i k v).claimed
        ↔ pathJoin ["bud", "cmd", k] = i) ∧
      (branchGenerateCmd c i k v).state.GenerateDirs = v.state.GenerateDirs ++
        [mkCodeGenerator c (c.importsAdd v.imports i).1 i (pathJoin ["bud", "cmd", k])]) ∧
    (pathJoin ["bud", "pkg", k] ∉ v.claimed →
      (branchGeneratePkg c i k v).claimed = i :: v.claimed ∧
      (pathJoin ["bud", "pkg", k] ∈ (branchGeneratePkg c i k v).claimed
        ↔ pathJoin ["bud", "pkg", k] = i) ∧
      (branchGeneratePkg c i k v).state.GenerateDirs = v.state.GenerateDirs ++
        [mkCodeGenerator c (c.importsAdd v.imports i).1 i (pathJoin ["bud", "pkg", k])]) ∧
    (pathJoin ["bud", "internal", k] ∉ v.claimed →
      (branchGenerate c i k v).claimed = pathJoin ["bud", "internal", k] :: v.claimed ∧
      (branchGenerate c i k v).state.GenerateDirs = v.state.GenerateDirs ++
        [mkCodeGenerator c (c.importsAdd v.imports i).1 i (pathJoin ["bud", "internal", k])]) ∧
    (pathJoin ["bud", "internal", k] ∉ v.claimed →
      (branchServe c i k v).claimed = pathJoin ["bud", "internal", k] :: v.claimed ∧
      (branchServe c i k v).state.ServeFiles = v.state.ServeFiles ++
        [mkCodeGenerator c (c.importsAdd v.imports i).1 i (pathJoin ["bud", "internal", k])]) ∧
    (g.Path ∉ v.claimed →
      (loadCoreFileGenerator c v g).claimed = g.Path :: v.claimed ∧
      (loadCoreFileGenerator c v g).state.FileGenerators = v.state.FileGenerators ++
        [mkCodeGenerator c (c.importsAdd v.imports g.Import).1 g.Import g.Path]) ∧
    (g.Path ∉ v.claimed →
      (loadCoreFileServer c v g).claimed = g.Path :: v.claimed ∧
      (loadCoreFileServer c v g).state.FileServers = v.state.FileServers ++
        [mkCodeGenerator c (c.importsAdd v.imports g.Import).1 g.Import g.Path]) := by
  refine ⟨?_, ?_, ?_, ?_, ?_, ?_⟩
  · intro h
    rw [branchGenerateCmd_eq, if_neg h]
    refine ⟨rfl, ?_, by simp [registerEntry]⟩
    simp only [registerEntry, List.mem_cons]
    constructor
    · rintro (h1 | h1)
      · exact h1
      · exact absurd h1 h
    · exact fun h1 => Or.inl h1
  · intro h
    rw [branchGeneratePkg_eq, if_neg h]
    refine ⟨rfl, ?_, by simp [registerEntry]⟩
    simp only [registerEntry, List.mem_cons]
    constructor
    · rintro (h1 | h1)
      · exact h1
      · exact absurd h1 h
    · exact fun h1 => Or.inl h1
  · intro h
    rw [branchGenerate_eq, if_neg h]
    exact ⟨rfl, by simp [registerEntry]⟩
  · intro h
    rw [branchServe_eq, if_neg h]
    exact ⟨rfl, by simp [registerEntry]⟩
  · intro h
    rw [loadCoreFileGenerator_eq, if_neg h]
    exact ⟨rfl, rfl⟩
  · intro h
    rw [loadCoreFileServer_eq, if_neg h]
    exact ⟨rfl, rfl⟩

end AliasClaims

/-! ## Distinct output paths and repeated directories -/

section MoreClaims

variable {Reg : Type}

theorem pairwise_of_filter {α : Type} (p : α → Bool) (R : α → α → Prop) (l : List α)
    (h : (l.filter p).Pairwise R) :
    l.Pairwise (fun a b => p a = true → p b = true → R a b) := by
  induction l with
  | nil => exact List.Pairwise.nil
  | cons x xs ih =>
    by_cases hx : p x = true
    · rw [List.filter_cons_of_pos hx, List.pairwise_cons] at h
      exact List.pairwise_cons.mpr
        ⟨fun b hb _ hpb => h.1 b (List.mem_filter.mpr ⟨hb, hpb⟩), ih h.2⟩
    · rw [List.filter_cons_of_neg hx] at h
      exact List.pairwise_cons.mpr ⟨fun b _ hpx => absurd hpx hx, ih h⟩

theorem paths_split (t : List Registration) (h : ∀ r ∈ t, r.origin.claimsPath = true) :
    (paths (generateDirsOf t) ++ paths (serveFilesOf t)).Perm (claimedPathsOf t) := by
  have hall : t.filter (fun r => r.origin.claimsPath) = t :=
    List.filter_eq_self.mpr h
  have hp : (t.filter (fun r => r.origin != .serve) ++ t.filter (fun r => r.origin == .serve)).Perm
      t :=
    List.perm_append_comm.trans (List.filter_append_perm (fun r => r.origin == .serve) t)
  have := hp.map (fun r => r.entry.Path)
  simp only [paths, generateDirsOf, serveFilesOf, claimedPathsOf, hall, List.map_map]
  simpa [List.map_append, Function.comp] using this

/-- C18: in a successful load the output paths of the built-in entries and of
the entries registered by the `Generate` and `Serve` branches are pairwise
distinct; two registrations of the loop with the same output path include one
by `GenerateCmd` or `GeneratePkg`, and no registration has the path of a
built-in; when every registration is by `Generate` or `Serve`, in particular
when no scanned candidate exposes `GenerateCmd` or `GeneratePkg`, the output
paths of the whole manifest are pairwise distinct. -/
theorem load_claimed_paths_distinct (c : Collab Reg) (imports : Reg) (s : State)
    (h : (load c imports).1 = .ok s) :
    ∃ dirs, c.finderFind findPattern (findSelector c) = .ok dirs ∧
      s.GenerateDirs = generateDirsOf (loadTrace c imports dirs) ∧
      s.ServeFiles = serveFilesOf (loadTrace c imports dirs) ∧
      paths s.FileGenerators ++ paths s.FileServers = corePaths ∧
      (corePaths ++ claimedPathsOf (loadTrace c imports dirs)).Nodup ∧
      (∀ r ∈ loadTrace c imports dirs, r.entry.Path ∉ corePaths) ∧
      (loadTrace c imports dirs).Pairwise (fun a b => a.entry.Path = b.entry.Path →
        a.origin.claimsPath = false ∨ b.origin.claimsPath = false) ∧
      ((∀ r ∈ loadTrace c imports dirs, r.origin.claimsPath = true) → s.outputPaths.Nodup) ∧
      ((∀ d ∈ dirs, ∀ pkg g, c.parserParse d = .ok pkg → pkg.Struct "Generator" = some g →
          g.Method "GenerateCmd" = none ∧ g.Method "GeneratePkg" = none) →
        s.outputPaths.Nodup) := by
  obtain ⟨h1, h2, h3⟩ := load_ok_core c imports s h
  obtain ⟨dirs, v, hf, hl, hs⟩ := load_ok c imports s h
  obtain ⟨a1, a2⟩ := loop_lists c dirs _ v 0 hl
  obtain ⟨b1, _⟩ := loopTrace_spec c dirs (loadCore c imports) 0
  have hcore : (loadCore c imports).state.GenerateDirs = [] ∧
      (loadCore c imports).state.ServeFiles = [] := ⟨rfl, rfl⟩
  have hGD : s.GenerateDirs = generateDirsOf (loadTrace c imports dirs) := by
    subst hs; show v.state.GenerateDirs = _
    rw [a1, hcore.1]; rfl
  have hSF : s.ServeFiles = serveFilesOf (loadTrace c imports dirs) := by
    subst hs; show v.state.ServeFiles = _
    rw [a2, hcore.2]; rfl
  have hpaths : paths s.FileGenerators ++ paths s.FileServers = corePaths := by
    have e1 : paths s.FileGenerators = (entryKeys s.FileGenerators).map Prod.snd := by
      simp [paths, entryKeys]
    have e2 : paths s.FileServers = (entryKeys s.FileServers).map Prod.snd := by
      simp [paths, entryKeys]
    rw [e1, e2, h1, h2]; rfl
  have hnd := (distinctClaimed_loop c dirs (loadCore c imports) 0 corePaths
    (distinctClaimed_loadCore c imports)).1
  have hnot : ∀ r ∈ loadTrace c imports dirs, r.entry.Path ∉ corePaths := by
    intro r hr
    apply h3 r.entry
    rw [hGD, hSF]
    by_cases ho : r.origin = .serve
    · refine List.mem_append_right _ (List.mem_map.mpr ⟨r, ?_, rfl⟩)
      simp [hr, ho]
    · refine List.mem_append_left _ (List.mem_map.mpr ⟨r, ?_, rfl⟩)
      simp [hr, ho]
  have hall : (∀ r ∈ loadTrace c imports dirs, r.origin.claimsPath = true) →
      s.outputPaths.Nodup := by
    intro hc
    have hperm := paths_split _ hc
    have : s.outputPaths
        = corePaths ++ (paths s.GenerateDirs ++ paths s.ServeFiles) := by
      simp only [State.outputPaths, List.append_assoc]
      rw [← List.append_assoc, hpaths]
    rw [this, hGD, hSF]
    exact ((List.Perm.refl corePaths).append hperm).nodup_iff.mpr hnd
  refine ⟨dirs, hf, hGD, hSF, hpaths, hnd, hnot, ?_, hall, ?_⟩
  · have hx := List.Nodup.of_append_right hnd
    unfold claimedPathsOf at hx
    rw [List.Nodup, List.pairwise_map] at hx
    refine (pairwise_of_filter _ _ _ hx).imp ?_
    intro a b hab heq
    by_cases ha : a.origin.claimsPath = true
    · by_cases hb : b.origin.claimsPath = true
      · exact absurd heq (hab ha hb)
      · exact Or.inr (by simpa using hb)
    · exact Or.inl (by simpa using ha)
  · intro hno
    apply hall
    intro r hr
    obtain ⟨_, r2, _, _, _, pkg, g, hp, hg, hm⟩ := b1 r hr
    have hmem : r.dir ∈ dirs := List.getElem?_mem r2
    obtain ⟨n1, n2⟩ := hno r.dir hmem pkg g hp hg
    cases ho : r.origin with
    | generate => rfl
    | serve => rfl
    | generateCmd => rw [ho] at hm; simp [Origin.method, n1] at hm
    | generatePkg => rw [ho] at hm; simp [Origin.method, n2] at hm

theorem load_claimed_paths_distinct_witness :
    (load twoSitemapCollab []).1 = .ok (manifestOf (load twoSitemapCollab [])) ∧
    ¬ (manifestOf (load twoSitemapCollab [])).outputPaths.Nodup ∧
    (loadTrace twoSitemapCollab [] ["bud/internal/generator/sitemap", "generator/sitemap"]).map
        (fun r => (r.origin, r.entry.Path))
      = [(.generate, "bud/internal/sitemap"), (.generateCmd, "bud/cmd/sitemap"),
         (.generatePkg, "bud/pkg/sitemap"), (.generateCmd, "bud/cmd/sitemap"),
         (.generatePkg, "bud/pkg/sitemap")] ∧
    ∃ dirs, twoSitemapCollab.finderFind findPattern (findSelector twoSitemapCollab) = .ok dirs ∧
      (corePaths ++ claimedPathsOf (loadTrace twoSitemapCollab [] dirs)).Nodup :=
  ⟨by decide, by decide, by decide,
    (load_claimed_paths_distinct twoSitemapCollab []
      (manifestOf (load twoSitemapCollab [])) (by decide)).elim
      fun dirs hd => ⟨dirs, hd.1, hd.2.2.2.2.1⟩⟩

/-- C19: a further occurrence of a directory later in the scan changes
nothing: the loop ends with the same variables and the same error, so `load`
and `Load` return the same manifest or error and leave the same import set as
on the scan without it.  Once a round on `d` has completed, a round on `d`
from any state whose claimed set contains the one it left leaves that state as
it is: the import path is claimed and the round is skipped, or every exposed
branch finds its path claimed. -/
theorem load_repeated_directory (c : Collab Reg) (imports : Reg)
    (pre mid post : List String) (d : String) :
    (∀ v, loadGeneratorDirs c v (pre ++ d :: (mid ++ d :: post))
      = loadGeneratorDirs c v (pre ++ d :: (mid ++ post))) ∧
    load (withFound c (.ok (pre ++ d :: (mid ++ d :: post)))) imports
      = load (withFound c (.ok (pre ++ d :: (mid ++ post)))) imports ∧
    Load (withFound c (.ok (pre ++ d :: (mid ++ d :: post)))) imports
      = Load (withFound c (.ok (pre ++ d :: (mid ++ post)))) imports ∧
    (∀ v v' w : LoadVars Reg, loadGeneratorDir c v d = .ok v' → v'.claimed ⊆ w.claimed →
      loadGeneratorDir c w d = .ok w) := by
  have h1 := fun v => loop_repeated c v pre mid post d
  have h2 : load (withFound c (.ok (pre ++ d :: (mid ++ d :: post)))) imports
      = load (withFound c (.ok (pre ++ d :: (mid ++ post)))) imports := by
    rw [load_withFound, load_withFound, h1]
  refine ⟨h1, h2, ?_, ?_⟩
  · unfold Load
    rw [h2]
  · intro v v' w hv hsub
    exact dropped_round c w d (dropped_mono c d _ _ hsub (round_dropped c v v' d hv))

end MoreClaims

end Generator

/-! ## The listing of `tool fs:ls` -/

namespace Cli

open Generator (GoError pathClean)

theorem stringLess_iff (a b : String) : stringLess a b = true ↔ a < b := by
  unfold stringLess
  rw [decide_eq_true_iff]
  exact String.lt_iff_toList_lt.symm

theorem stringLess_false_iff (a b : String) : stringLess a b = false ↔ b ≤ a := by
  rw [← Bool.not_eq_true, stringLess_iff, not_lt]

theorem lsLess_iff (a b : DirEntry) :
    lsLess a b = true ↔
      (a.IsDir = true ∧ b.IsDir = false) ∨ (a.IsDir = b.IsDir ∧ a.Name < b.Name) := by
  unfold lsLess
  cases ha : a.IsDir <;> cases hb : b.IsDir <;> simp [stringLess_iff]

theorem lsLess_false_iff (a b : DirEntry) :
    lsLess a b = false ↔
      (a.IsDir = false ∧ b.IsDir = true) ∨ (a.IsDir = b.IsDir ∧ b.Name ≤ a.Name) := by
  unfold lsLess
  cases ha : a.IsDir <;> cases hb : b.IsDir <;> simp [stringLess_false_iff]

theorem lsLess_irrefl (a : DirEntry) : lsLess a a = false := by
  rw [lsLess_false_iff]
  exact Or.inr ⟨rfl, le_refl _⟩

theorem lsLess_trans (a b c : DirEntry) (h1 : lsLess a b = true) (h2 : lsLess b c = true) :
    lsLess a c = true := by
  rw [lsLess_iff] at h1 h2 ⊢
  rcases h1 with ⟨x1, x2⟩ | ⟨x1, x2⟩ <;> rcases h2 with ⟨y1, y2⟩ | ⟨y1, y2⟩
  · rw [x2] at y1; cases y1
  · exact Or.inl ⟨x1, by rw [← y1]; exact x2⟩
  · exact Or.inl ⟨by rw [x1]; exact y1, y2⟩
  · exact Or.inr ⟨x1.trans y1, lt_trans x2 y2⟩

theorem lsLess_asymm (a b : DirEntry) (h : lsLess a b = true) : lsLess b a = false := by
  cases hba : lsLess b a with
  | false => rfl
  | true =>
    have := lsLess_trans a b a h hba
    rw [lsLess_irrefl] at this
    cases this

theorem lsLess_incomparable (a b : DirEntry) (h1 : lsLess a b = false)
    (h2 : lsLess b a = false) : a.Name = b.Name ∧ a.IsDir = b.IsDir := by
  rw [lsLess_false_iff] at h1 h2
  rcases h1 with ⟨x1, x2⟩ | ⟨x1, x2⟩ <;> rcases h2 with ⟨y1, y2⟩ | ⟨y1, y2⟩
  · rw [x2] at y1; cases y1
  · rw [x1, x2] at y1; cases y1
  · rw [y1, y2] at x1; cases x1
  · exact ⟨le_antisymm y2 x2, x1⟩

theorem lsLess_congr (a b c : DirEntry) (hn : a.Name = b.Name) (hd : a.IsDir = b.IsDir) :
    lsLess a c = lsLess b c ∧ lsLess c a = lsLess c b := by
  unfold lsLess
  rw [hn, hd]
  exact ⟨rfl, rfl⟩

theorem lsLess_strictWeak : StrictWeak lsLess := by
  refine ⟨lsLess_irrefl, lsLess_trans, ?_⟩
  intro a b c h1 h2 h3 h4
  obtain ⟨hn, hd⟩ := lsLess_incomparable a b h1 h2
  obtain ⟨e1, e2⟩ := lsLess_congr a b c hn hd
  rw [e1, e2]
  exact ⟨h3, h4⟩

theorem lsLess_total (a b : DirEntry) (h : a.Name ≠ b.Name) :
    lsLess a b = true ∨ lsLess b a = true := by
  cases h1 : lsLess a b with
  | true => exact Or.inl rfl
  | false =>
    cases h2 : lsLess b a with
    | true => exact Or.inr rfl
    | false => exact absurd (lsLess_incomparable a b h1 h2).1 h

theorem insertionSlice_contract {α : Type} :
    SortContract (insertionSlice : (α → α → Bool) → List α → List α) := by
  intro less l ⟨hirr, htr, hinc⟩
  have hasym : ∀ a b, less a b = true → less b a = false := by
    intro a b h
    cases hba : less b a with
    | false => rfl
    | true =>
      have := htr a b a h hba
      rw [hirr] at this
      cases this
  haveI : IsTotal α (fun a b => less b a = false) := ⟨by
    intro a b
    cases h : less b a with
    | false => exact Or.inl rfl
    | true => exact Or.inr (hasym b a h)⟩
  haveI : IsTrans α (fun a b => less b a = false) := ⟨by
    intro a b c (h1 : less b a = false) (h2 : less c b = false)
    show less c a = false
    cases hca : less c a with
    | false => rfl
    | true =>
      cases hab : less a b with
      | true =>
        have := htr c a b hca hab
        rw [h2] at this
        cases this
      | false =>
        cases hbc : less b c with
        | true =>
          have := htr b c a hbc hca
          rw [h1] at this
          cases this
        | false =>
          have := (hinc a b c hab h1 hbc h2).2
          rw [hca] at this
          cases this⟩
  exact ⟨List.perm_insertionSort _ l, List.sorted_insertionSort _ l⟩

theorem sorted_strict (l out : List DirEntry) (hn : (l.map DirEntry.Name).Nodup)
    (h : SliceSorted lsLess l out) : out.Pairwise (fun a b => lsLess a b = true) := by
  obtain ⟨hp, hs⟩ := h
  have hn2 : (out.map DirEntry.Name).Nodup := (hp.map DirEntry.Name).nodup_iff.mpr hn
  rw [List.Nodup, List.pairwise_map] at hn2
  have := hs.and hn2
  refine this.imp ?_
  intro a b ⟨h1, h2⟩
  rcases lsLess_total a b h2 with h3 | h3
  · exact h3
  · rw [h1] at h3; cases h3

theorem sorted_unique (l out1 out2 : List DirEntry) (hn : (l.map DirEntry.Name).Nodup)
    (h1 : SliceSorted lsLess l out1) (h2 : SliceSorted lsLess l out2) : out1 = out2 := by
  refine List.Perm.eq_of_sorted ?_ (sorted_strict l out1 hn h1) (sorted_strict l out2 hn h2)
    (h1.1.trans h2.1.symm)
  intro a b _ _ hab hba
  rw [lsLess_asymm a b hab] at hba
  cases hba

theorem sorted_split (out : List DirEntry) (h : out.Pairwise (fun a b => lsLess a b = true)) :
    out = out.filter (fun e => e.IsDir) ++ out.filter (fun e => !e.IsDir) := by
  induction out with
  | nil => rfl
  | cons x xs ih =>
    obtain ⟨hx, hxs⟩ := List.pairwise_cons.mp h
    cases hd : x.IsDir with
    | true =>
      rw [List.filter_cons_of_pos (by simpa using hd), List.filter_cons_of_neg (by simp [hd])]
      rw [List.cons_append, ← ih hxs]
    | false =>
      have hall : ∀ b ∈ xs, b.IsDir = false := by
        intro b hb
        have := (lsLess_iff x b).mp (hx b hb)
        rcases this with ⟨y, _⟩ | ⟨y, _⟩
        · rw [hd] at y; cases y
        · rw [← y]; exact hd
      have e1 : xs.filter (fun e => e.IsDir) = [] :=
        List.filter_eq_nil_iff.mpr (fun b hb => by simp [hall b hb])
      have e2 : xs.filter (fun e => !e.IsDir) = xs :=
        List.filter_eq_self.mpr (fun b hb => by simp [hall b hb])
      rw [List.filter_cons_of_neg (by simp [hd]), List.filter_cons_of_pos (by simp [hd]),
        e1, e2, List.nil_append]

/-- C20: the comparator of `ToolFsLs` is a strict weak ordering on directory
entries: irreflexive, asymmetric and transitive, with transitive
incomparability; two entries neither of which is less than the other have the
same name and are both directories or both not; of two entries with different
names one is less than the other; and a listing with pairwise distinct names
has exactly one sorted rearrangement, whatever the sort does with entries it
cannot tell apart. -/
theorem lsLess_strict_weak_order :
    (∀ a, lsLess a a = false) ∧
    (∀ a b, lsLess a b = true → lsLess b a = false) ∧
    (∀ a b c, lsLess a b = true → lsLess b c = true → lsLess a c = true) ∧
    (∀ a b c, lsLess a b = false → lsLess b a = false → lsLess b c = false →
      lsLess c b = false → lsLess a c = false ∧ lsLess c a = false) ∧
    StrictWeak lsLess ∧
    (∀ a b, lsLess a b = false → lsLess b a = false → a.Name = b.Name ∧ a.IsDir = b.IsDir) ∧
    (∀ a b, a.Name ≠ b.Name → lsLess a b = true ∨ lsLess b a = true) ∧
    (∀ l out1 out2, (l.map DirEntry.Name).Nodup → SliceSorted lsLess l out1 →
      SliceSorted lsLess l out2 → out1 = out2) ∧
    (∀ l, (l.map DirEntry.Name).Nodup → ∀ out, SliceSorted lsLess l out ↔
      out = insertionSlice lsLess l) :=
  ⟨lsLess_irrefl, lsLess_asymm, lsLess_trans, lsLess_strictWeak.2.2, lsLess_strictWeak,
    lsLess_incomparable, lsLess_total, sorted_unique,
    fun l hn out =>
      ⟨fun h => sorted_unique l out _ hn h (insertionSlice_contract lsLess l lsLess_strictWeak),
        fun h => h ▸ insertionSlice_contract lsLess l lsLess_strictWeak⟩⟩

/-- C17: when `Generate` succeeds and the directory is read with pairwise
distinct entry names, `ToolFsLs` succeeds and writes one line per entry: first
the directories, each name followed by `/`, then the other entries, each name
unchanged; the entries written are a rearrangement of the entries read, and
within the directories and within the others the names are strictly ascending
in the order of Go's `<`.  The lines are those of the one sorted rearrangement,
the same for every sort that meets the contract of `sort.Slice`. -/
theorem ToolFsLs_listing (k : Env) (inPath : String) (des : List DirEntry)
    (hg : k.Generate = .ok ()) (hr : k.ReadDir (pathClean inPath) = .ok des)
    (hn : (des.map DirEntry.Name).Nodup) (hs : SortContract k.sortSlice) :
    ∃ dirs files : List DirEntry,
      ToolFsLs k inPath
        = .ok (dirs.map (fun e => e.Name ++ "/") ++ files.map (fun e => e.Name)) ∧
      (dirs ++ files).Perm des ∧
      (∀ e ∈ dirs, e.IsDir = true) ∧ (∀ e ∈ files, e.IsDir = false) ∧
      dirs.Pairwise (fun a b => stringLess a.Name b.Name = true) ∧
      files.Pairwise (fun a b => stringLess a.Name b.Name = true) ∧
      ToolFsLs k inPath = .ok ((insertionSlice lsLess des).map printName) := by
  have hsorted := hs lsLess des lsLess_strictWeak
  have hstrict := sorted_strict des _ hn hsorted
  have hsplit := sorted_split _ hstrict
  have hrun : ToolFsLs k inPath = .ok ((k.sortSlice lsLess des).map printName) := by
    unfold ToolFsLs
    rw [hg, hr]
  have hd : ∀ e ∈ (k.sortSlice lsLess des).filter (fun e => e.IsDir), e.IsDir = true :=
    fun e he => (List.mem_filter.mp he).2
  have hf : ∀ e ∈ (k.sortSlice lsLess des).filter (fun e => !e.IsDir), e.IsDir = false :=
    fun e he => by simpa using (List.mem_filter.mp he).2
  refine ⟨(k.sortSlice lsLess des).filter (fun e => e.IsDir),
    (k.sortSlice lsLess des).filter (fun e => !e.IsDir), ?_, ?_, hd, hf, ?_, ?_, ?_⟩
  · rw [hrun]
    congr 1
    conv_lhs => rw [hsplit]
    rw [List.map_append]
    congr 1
    · exact List.map_congr_left (fun e he => by simp [printName, hd e he])
    · exact List.map_congr_left (fun e he => by simp [printName, hf e he])
  · rw [← hsplit]
    exact hsorted.1
  · refine (List.Pairwise.and_mem.mp (hstrict.filter _)).imp ?_
    intro a b ⟨ha, hb, hab⟩
    rcases (lsLess_iff a b).mp hab with ⟨_, y⟩ | ⟨_, y⟩
    · rw [hd b hb] at y; cases y
    · exact (stringLess_iff _ _).mpr y
  · refine (List.Pairwise.and_mem.mp (hstrict.filter _)).imp ?_
    intro a b ⟨ha, hb, hab⟩
    rcases (lsLess_iff a b).mp hab with ⟨x, _⟩ | ⟨_, y⟩
    · rw [hf a ha] at x; cases x
    · exact (stringLess_iff _ _).mpr y
  · rw [hrun]
    congr 2
    exact sorted_unique des _ _ hn hsorted (insertionSlice_contract lsLess des lsLess_strictWeak)

theorem ToolFsLs_listing_witness :
    ToolFsLs listingEnv "./" = .ok ["cmd/", "lib/", "a.txt", "b.txt"] ∧
    ∃ dirs files : List DirEntry,
      ToolFsLs listingEnv "./"
        = .ok (dirs.map (fun e => e.Name ++ "/") ++ files.map (fun e => e.Name)) ∧
      (dirs ++ files).Perm
        [⟨"b.txt", false, 0⟩, ⟨"lib", true, 1⟩, ⟨"a.txt", false, 0⟩, ⟨"cmd", true, 1⟩] ∧
      (∀ e ∈ dirs, e.IsDir = true) ∧ (∀ e ∈ files, e.IsDir = false) ∧
      dirs.Pairwise (fun a b => stringLess a.Name b.Name = true) ∧
      files.Pairwise (fun a b => stringLess a.Name b.Name = true) ∧
      ToolFsLs listingEnv "./" = .ok ((insertionSlice lsLess
        [⟨"b.txt", false, 0⟩, ⟨"lib", true, 1⟩, ⟨"a.txt", false, 0⟩, ⟨"cmd", true, 1⟩]).map
          printName) :=
  ⟨by decide, ToolFsLs_listing listingEnv "./" _ rfl (by decide) (by decide)
    insertionSlice_contract⟩

end Cli
